import Mathlib

/-!
# queue.c : a queue on an intrusive circular doubly-linked list

Shallow embedding of `src/queue.c`.

* A pointer is a natural number, `0` is `NULL`.
* The heap maps an address to the `element_t` living there (`none`: not allocated).
  The `list_head` embedded in an element is identified with the element
  (`list_entry` is the identity on addresses).
* Every C function that dereferences a pointer returns an `Option`: `none` is a
  fault (a `NULL` or dangling dereference, an out-of-bounds write) or an
  exhausted loop budget for the `while` / `list_for_each` loops.
* `malloc` results are inputs of the operations: the address handed out for a
  node (`0` when the allocation fails) and the fresh block handed out for a
  payload (`none` when the allocation fails).
* An `int` counter that is never negative is a natural number below `2^31`:
  the increment of an `int` that holds `INT_MAX` is undefined in C, and is a fault
  here like the other undefined behaviour.
-/

namespace Lab0

/-- An address; `0` is `NULL`. -/
abbrev Ptr := Nat

/-- A block of bytes.  Read as a C string it ends at its first zero byte, or at
its end (the terminator then follows the listed bytes). -/
abbrev Bytes := List Nat

/-- Modelled from the spec: the struct `element_t` of `queue.h` (not under `src/`); the
spec has a node hold an owned string payload, nullable only for the sentinel, and a
forward and a backward link.  The payload pointer is kept with the block it points to. -/
structure element_t where
  value : Option Bytes
  next : Ptr
  prev : Ptr
deriving DecidableEq

/-- The heap of nodes. -/
abbrev Heap := Ptr → Option element_t

/-- The width of `size_t`. -/
def SIZE_BITS : Nat := 64

/-- The width of `int`. -/
def INT_BITS : Nat := 32

/-- The largest `int`. -/
def INT_MAX : Nat := 2 ^ (INT_BITS - 1) - 1

/-- The statement `len++` on an `int` that is not negative: a fault when `len` holds
`INT_MAX` (signed overflow). -/
def int_incr (len : Nat) : Option Nat :=
  if len < INT_MAX then some (len + 1) else none

/-- Subtraction on `size_t`, wrapping around. -/
def size_sub (a b : Nat) : Nat := (a + 2 ^ SIZE_BITS - b % 2 ^ SIZE_BITS) % 2 ^ SIZE_BITS

/-! ## Memory primitives -/

/-- Dereference `p`: faults on `NULL` and on an address that is not allocated. -/
def rd (h : Heap) (p : Ptr) : Option element_t :=
  if p = 0 then none else h p

/-- Read `p->next`. -/
def getNext (h : Heap) (p : Ptr) : Option Ptr := (rd h p).map element_t.next

/-- Read `p->prev`. -/
def getPrev (h : Heap) (p : Ptr) : Option Ptr := (rd h p).map element_t.prev

/-- Read `p->value`. -/
def getValue (h : Heap) (p : Ptr) : Option (Option Bytes) := (rd h p).map element_t.value

/-- The heap with the cell at `p` transformed by `f` (nothing happens at a free address). -/
def modify (h : Heap) (p : Ptr) (f : element_t → element_t) : Heap :=
  fun r => if r = p then (h r).map f else h r

/-- Write through `p`: faults on `NULL` and on an address that is not allocated. -/
def wr (h : Heap) (p : Ptr) (f : element_t → element_t) : Option Heap :=
  if (rd h p).isSome then some (modify h p f) else none

/-- The assignment `p->next = q`. -/
def setNext (h : Heap) (p q : Ptr) : Option Heap :=
  wr h p (fun e => element_t.mk e.value q e.prev)

/-- The assignment `p->prev = q`. -/
def setPrev (h : Heap) (p q : Ptr) : Option Heap :=
  wr h p (fun e => element_t.mk e.value e.next q)

/-- The assignment `p->value = v`. -/
def setValue (h : Heap) (p : Ptr) (v : Option Bytes) : Option Heap :=
  wr h p (fun e => element_t.mk v e.next e.prev)

/-- The call `malloc(sizeof(element_t))` when the allocator hands out address `a`:
the cell at `a` becomes allocated, with indeterminate contents (all of its
fields are assigned before they are read). -/
def malloc_element (h : Heap) (a : Ptr) : Heap × Ptr :=
  if a = 0 then (h, 0) else ((fun r => if r = a then some (element_t.mk none 0 0) else h r), a)

/-- The contract of `malloc` for a node: it fails, or hands out an address that
is not `NULL` and not allocated. -/
def MallocOk (h : Heap) (a : Ptr) : Prop := a = 0 ∨ h a = none

/-- The contract of `malloc(n)` for a block: it fails, or hands out `n` bytes. -/
def BlockOk (b : Option Bytes) (n : Nat) : Prop := ∀ blk, b = some blk → blk.length = n

/-- The call `free(p)` on a node (the payload block goes with its node). -/
def free (h : Heap) (p : Ptr) : Option Heap :=
  if (rd h p).isSome then some (fun r => if r = p then none else h r) else none

/-! ## Strings -/

/-- The C string held in a block: the bytes before the first zero byte. -/
def cstr (s : Bytes) : Bytes := s.takeWhile (fun b => b != 0)

/-- The function `strlen`. -/
def strlen (s : Bytes) : Nat := (cstr s).length

/-- The call `strncpy(dst, src, n)`: exactly `n` bytes of `dst` are written, the
string of `src` cut at `n` bytes and padded with zero bytes; faults when `dst`
has fewer than `n` bytes. -/
def strncpy (dst src : Bytes) (n : Nat) : Option Bytes :=
  if n ≤ dst.length then
    some ((cstr src).take n ++ List.replicate (n - (cstr src).length) 0 ++ dst.drop n)
  else none

/-- The assignment `buf[i] = c`: faults when `i` is outside the block. -/
def setByte (buf : Bytes) (i : Nat) (c : Nat) : Option Bytes :=
  if i < buf.length then some (buf.set i c) else none

/-! ## list.h -/

/-- Modelled from the spec: `INIT_LIST_HEAD` of `list.h` (not under `src/`); the
spec has the fresh sentinel self-linked. -/
def INIT_LIST_HEAD (h : Heap) (head : Ptr) : Option Heap := do
  let h ← setNext h head head
  setPrev h head head

/-- Modelled from the spec: `list_add` of `list.h` (not under `src/`); the spec has
the new node attached immediately after the target, four links updated. -/
def list_add (h : Heap) (node head : Ptr) : Option Heap := do
  let next ← getNext h head
  let h ← setPrev h next node
  let h ← setNext h node next
  let h ← setPrev h node head
  setNext h head node

/-- Modelled from the spec: `list_add_tail` of `list.h` (not under `src/`); the spec
has the new node attached immediately before the target, four links updated. -/
def list_add_tail (h : Heap) (node head : Ptr) : Option Heap := do
  let prev ← getPrev h head
  let h ← setNext h prev node
  let h ← setNext h node head
  let h ← setPrev h node prev
  setPrev h head node

/-- Modelled from the spec: `list_del` of `list.h` (not under `src/`); the spec has
the node unlinked from its neighbours, its own links left as they were. -/
def list_del (h : Heap) (node : Ptr) : Option Heap := do
  let next ← getNext h node
  let prev ← getPrev h node
  let h ← setPrev h next prev
  setNext h prev next

/-! ## queue.c -/

/-- The function `q_new`; `a` is the result of its `malloc`. -/
def q_new (h : Heap) (a : Ptr) : Option (Heap × Ptr) :=
  let (h, new) := malloc_element h a
  if new = 0 then some (h, 0)
  else do
    let h ← INIT_LIST_HEAD h new
    let h ← setValue h new none
    some (h, new)

/-- The `do ... while (next != l)` loop of `q_free`. -/
def q_free_loop : Nat → Heap → Ptr → Ptr → Option Heap
  | 0, _, _, _ => none
  | fuel + 1, h, l, next => do
    let ele := next
    let next ← getNext h ele
    let _ ← getValue h ele
    let h ← free h ele
    if next ≠ l then q_free_loop fuel h l next else some h

/-- The function `q_free`. -/
def q_free (fuel : Nat) (h : Heap) (l : Ptr) : Option Heap :=
  if l = 0 then some h
  else do
    let next ← getNext h l
    let h ← (if next ≠ l then q_free_loop fuel h l next else some h)
    free h l

/-- The function `q_insert_head`; `a` and `b` are the results of its two
allocations, `fuel` bounds the loop of the `q_free` on its failure path. -/
def q_insert_head (fuel : Nat) (h : Heap) (head : Ptr) (s : Bytes) (a : Ptr) (b : Option Bytes) :
    Option (Heap × Bool) :=
  let len := strlen s
  if head = 0 then some (h, false)
  else do
    let (h, tmp) ← q_new h a
    if tmp = 0 then some (h, false)
    else
      match b with
      | none => do
        let h ← q_free fuel h tmp
        some (h, false)
      | some buf => do
        let h ← list_add h tmp head
        let buf ← strncpy buf s len
        let buf ← setByte buf len 0
        let h ← setValue h tmp (some buf)
        some (h, true)

/-- The function `q_insert_tail`; parameters as for `q_insert_head`. -/
def q_insert_tail (fuel : Nat) (h : Heap) (head : Ptr) (s : Bytes) (a : Ptr) (b : Option Bytes) :
    Option (Heap × Bool) :=
  let len := strlen s
  if head = 0 then some (h, false)
  else do
    let (h, tmp) ← q_new h a
    if tmp = 0 then some (h, false)
    else
      match b with
      | none => do
        let h ← q_free fuel h tmp
        some (h, false)
      | some buf => do
        let h ← list_add_tail h tmp head
        let buf ← strncpy buf s len
        let buf ← setByte buf len 0
        let h ← setValue h tmp (some buf)
        some (h, true)

/-- The copy-out of `q_remove_head` and `q_remove_tail`:
`if (sp != NULL) { strncpy(sp, ret->value, bufsize - 1); sp[bufsize - 1] = 0; }`. -/
def copy_out (h : Heap) (ret : Ptr) (sp : Option Bytes) (bufsize : Nat) : Option (Option Bytes) :=
  match sp with
  | none => some none
  | some buf => do
    let v ← getValue h ret
    let src ← v
    let buf ← strncpy buf src (size_sub bufsize 1)
    let buf ← setByte buf (size_sub bufsize 1) 0
    some (some buf)

/-- The function `q_remove_head`: returns the heap, the returned element (`0` for
`NULL`) and the output buffer. -/
def q_remove_head (h : Heap) (head : Ptr) (sp : Option Bytes) (bufsize : Nat) :
    Option (Heap × Ptr × Option Bytes) :=
  if head = 0 then some (h, 0, sp)
  else do
    let ret ← getNext h head
    let v ← getValue h ret
    if v = none then some (h, 0, sp)
    else do
      let targ ← getNext h head
      let tn ← getNext h targ
      let tp ← getPrev h targ
      let h ← (if tn ≠ tp then do
          let h ← setNext h head tn
          let targ ← getNext h targ
          setPrev h targ head
        else do
          let h ← setPrev h head head
          setNext h head head)
      let sp ← copy_out h ret sp bufsize
      some (h, ret, sp)

/-- The function `q_remove_tail`. -/
def q_remove_tail (h : Heap) (head : Ptr) (sp : Option Bytes) (bufsize : Nat) :
    Option (Heap × Ptr × Option Bytes) :=
  if head = 0 then some (h, 0, sp)
  else do
    let ret ← getPrev h head
    let v ← getValue h ret
    if v = none then some (h, 0, sp)
    else do
      let targ ← getPrev h head
      let tn ← getNext h targ
      let tp ← getPrev h targ
      let h ← (if tn ≠ tp then do
          let h ← setPrev h head tp
          let targ ← getPrev h targ
          setNext h targ head
        else do
          let h ← setPrev h head head
          setNext h head head)
      let sp ← copy_out h ret sp bufsize
      some (h, ret, sp)

/-- The function `q_release_element`. -/
def q_release_element (h : Heap) (e : Ptr) : Option Heap := do
  let _ ← getValue h e
  free h e

/-- The `list_for_each (li, head) len++` loop of `q_size`, `len` an `int`. -/
def q_size_loop : Nat → Heap → Ptr → Ptr → Nat → Option Nat
  | 0, _, _, _, _ => none
  | fuel + 1, h, head, li, len =>
    if li ≠ head then do
      let len ← int_incr len
      let li ← getNext h li
      q_size_loop fuel h head li len
    else some len

/-- The function `q_size`. -/
def q_size (fuel : Nat) (h : Heap) (head : Ptr) : Option Nat :=
  if head = 0 then some 0
  else do
    let li ← getNext h head
    q_size_loop fuel h head li 0

/-- The loop `for (i = 0; i < mid + 1; i++) target = target->next` of
`q_delete_mid`, with the number of rounds still to run. -/
def q_delete_mid_loop (h : Heap) : Nat → Ptr → Option Ptr
  | 0, target => some target
  | k + 1, target => do
    let target ← getNext h target
    q_delete_mid_loop h k target

/-- The function `q_delete_mid`.  Its `int len` comes from `q_size`, so `len <= INT_MAX`
and neither `mid = len / 2` nor `mid + 1` nor the counter `i` can overflow. -/
def q_delete_mid (fuel : Nat) (h : Heap) (head : Ptr) : Option (Heap × Bool) := do
  let len ← q_size fuel h head
  if len = 0 then some (h, false)
  else do
    let mid := len / 2
    let target ← q_delete_mid_loop h (mid + 1) head
    let h ← list_del h target
    let h ← q_release_element h target
    some (h, true)

/-- The function `q_delete_dup`: its body is `return true`. -/
def q_delete_dup (h : Heap) (_head : Ptr) : Heap × Bool := (h, true)

/-- The `while` loop of `q_swap`. -/
def q_swap_loop : Nat → Heap → Ptr → Ptr → Ptr → Option Heap
  | 0, _, _, _, _ => none
  | fuel + 1, h, head, node1, node2 =>
    if node1 ≠ head ∧ node2 ≠ head then do
      let tmp ← getPrev h node1
      let h ← setNext h tmp node2
      let h ← setPrev h node2 tmp
      let tmp ← getNext h node2
      let h ← setNext h node2 node1
      let h ← setPrev h tmp node1
      let h ← setNext h node1 tmp
      let h ← setPrev h node1 node2
      let node1 ← getNext h node1
      let node2 ← getNext h node1
      q_swap_loop fuel h head node1 node2
    else some h

/-- The function `q_swap`. -/
def q_swap (fuel : Nat) (h : Heap) (head : Ptr) : Option Heap :=
  if head = 0 then some h
  else do
    let first ← getNext h head
    if first = head then some h
    else do
      let node1 ← getNext h head
      let node2 ← getNext h node1
      q_swap_loop fuel h head node1 node2

/-- The `while` loop of `q_reverse`; it returns the heap with the last `node`
and `next_node`. -/
def q_reverse_loop : Nat → Heap → Ptr → Ptr → Ptr → Option (Heap × Ptr × Ptr)
  | 0, _, _, _, _ => none
  | fuel + 1, h, head, node, next_node =>
    if next_node ≠ head then do
      let p ← getPrev h node
      let h ← setNext h node p
      let h ← setPrev h node next_node
      let node := next_node
      let next_node ← getNext h node
      q_reverse_loop fuel h head node next_node
    else some (h, node, next_node)

/-- The function `q_reverse`. -/
def q_reverse (fuel : Nat) (h : Heap) (head : Ptr) : Option Heap :=
  if head = 0 then some h
  else do
    let first ← getNext h head
    if first = head then some h
    else do
      let node := head
      let next_node ← getNext h node
      let (h, node, next_node) ← q_reverse_loop fuel h head node next_node
      let p ← getPrev h node
      let h ← setNext h node p
      setPrev h node next_node

/-- The function `q_sort`: its body is empty. -/
def q_sort (h : Heap) (_head : Ptr) : Heap := h

/-! ## Views of the heap, the abstraction to a list of nodes, observers -/

/-- The address `p` holds an allocated node. -/
def Live (h : Heap) (p : Ptr) : Prop := (rd h p).isSome = true

instance instDecidableLive (h : Heap) (p : Ptr) : Decidable (Live h p) := by
  unfold Live; infer_instance

/-- The heap with `p->next` replaced by `q`. -/
def updNext (h : Heap) (p q : Ptr) : Heap := modify h p (fun e => element_t.mk e.value q e.prev)

/-- The heap with `p->prev` replaced by `q`. -/
def updPrev (h : Heap) (p q : Ptr) : Heap := modify h p (fun e => element_t.mk e.value e.next q)

/-- The heap with `p->value` replaced by `v`. -/
def updValue (h : Heap) (p : Ptr) (v : Option Bytes) : Heap :=
  modify h p (fun e => element_t.mk v e.next e.prev)

/-- The heap with the node at `p` released. -/
def dealloc (h : Heap) (p : Ptr) : Heap := fun r => if r = p then none else h r

/-- The nodes `a` and `b` are neighbours: `a->next == b` and `b->prev == a`. -/
def Link (h : Heap) (a b : Ptr) : Prop := getNext h a = some b ∧ getPrev h b = some a

instance instDecidableLink (h : Heap) (a b : Ptr) : Decidable (Link h a b) := by
  unfold Link; infer_instance

/-- Every two consecutive nodes of the list are neighbours. -/
def Path (h : Heap) : List Ptr → Prop
  | [] => True
  | [_] => True
  | a :: b :: rest => Link h a b ∧ Path h (b :: rest)

instance instDecidablePath (h : Heap) : (L : List Ptr) → Decidable (Path h L)
  | [] => isTrue trivial
  | [_] => isTrue trivial
  | _ :: b :: rest => @instDecidableAnd _ _ _ (instDecidablePath h (b :: rest))

/-- The handle `hd` is the sentinel of a well-formed queue whose elements are, from
the head to the tail, the nodes `l`: following `next` from the sentinel runs through
`l` and comes back to the sentinel, `prev` undoes `next` at every step, and no node
is met twice. -/
def IsQueue (h : Heap) (hd : Ptr) (l : List Ptr) : Prop :=
  (hd :: l).Nodup ∧ Path h (hd :: l ++ [hd])

instance instDecidableIsQueue (h : Heap) (hd : Ptr) (l : List Ptr) : Decidable (IsQueue h hd l) := by
  unfold IsQueue; infer_instance

/-- The heap with address `a` allocated and holding `e`. -/
def alloc (h : Heap) (a : Ptr) (e : element_t) : Heap := fun r => if r = a then some e else h r

/-- The order of the elements after swapping every two adjacent ones: `[x1, x2, x3, x4, ...]`
becomes `[x2, x1, x4, x3, ...]`, an unpaired last element stays. -/
def swapPairs : List Ptr → List Ptr
  | x :: y :: r => y :: x :: swapPairs r
  | l => l

/-- The node with its two links exchanged. -/
def swapLinks (e : element_t) : element_t := element_t.mk e.value e.prev e.next

/-- The heap in which every node of `S` has its two links exchanged. -/
def flipLinks (S : List Ptr) (h : Heap) : Heap :=
  fun r => if r ∈ S then (h r).map swapLinks else h r

/-- The links around `n` agree: `next(prev(n)) == n` and `prev(next(n)) == n`. -/
def LinksAgree (h : Heap) (n : Ptr) : Prop :=
  (getPrev h n).bind (getNext h) = some n ∧ (getNext h n).bind (getPrev h) = some n

/-- The handle `hd` is the sentinel of a well-formed queue: finitely many nodes form
the cycle through the sentinel, and the links around each of them, the sentinel
included, agree. -/
def WellFormed (h : Heap) (hd : Ptr) : Prop :=
  ∃ l, IsQueue h hd l ∧ ∀ n ∈ hd :: l, LinksAgree h n

/-- A usable output buffer: absent, or of at least `k >= 1` bytes, `k` a `size_t`. -/
def BufOk (sp : Option Bytes) (k : Nat) : Prop :=
  ∀ buf, sp = some buf → 1 ≤ k ∧ k ≤ buf.length ∧ k < 2 ^ SIZE_BITS

/-- A sample heap: the sentinel at address 1, then the element "a" at 2 and the
element "b" at 3. -/
def sampleHeap : Heap := fun p =>
  if p = 1 then some (element_t.mk none 2 3)
  else if p = 2 then some (element_t.mk (some [97, 0]) 3 1)
  else if p = 3 then some (element_t.mk (some [98, 0]) 1 2)
  else none

instance instDecidableMallocOk (h : Heap) (a : Ptr) : Decidable (MallocOk h a) := by
  unfold MallocOk; infer_instance

instance instDecidableBlockOk : (b : Option Bytes) → (n : Nat) → Decidable (BlockOk b n)
  | none, _ => isTrue (fun _ e => Option.noConfusion e)
  | some blk, n =>
    if hl : blk.length = n then isTrue (fun _ e => by cases e; exact hl)
    else isFalse (fun hb => hl (hb blk rfl))

instance instDecidableBufOk : (sp : Option Bytes) → (k : Nat) → Decidable (BufOk sp k)
  | none, _ => isTrue (fun _ e => Option.noConfusion e)
  | some buf, k =>
    if hl : 1 ≤ k ∧ k ≤ buf.length ∧ k < 2 ^ SIZE_BITS then
      isTrue (fun _ e => by cases e; exact hl)
    else isFalse (fun hb => hl (hb buf rfl))

/-- The string an element carries (`none` when its payload pointer is `NULL`). -/
def payload (h : Heap) (p : Ptr) : Option Bytes := (getValue h p).join.map cstr

/-- The payload sequence of the nodes `l`. -/
def payloads (h : Heap) (l : List Ptr) : List (Option Bytes) := l.map (payload h)

/-- Follow `step` from `cur` until the sentinel `hd` is met, collecting the nodes visited. -/
def traverse (step : Ptr → Option Ptr) (hd : Ptr) : Nat → Ptr → Option (List Ptr)
  | 0, _ => none
  | fuel + 1, cur =>
    if cur = hd then some []
    else do
      let nxt ← step cur
      let rest ← traverse step hd fuel nxt
      some (cur :: rest)

/-- The forward traversal: the nodes met following `next` from the sentinel until the
sentinel is seen again. -/
def forward (fuel : Nat) (h : Heap) (hd : Ptr) : Option (List Ptr) := do
  let first ← getNext h hd
  traverse (getNext h) hd fuel first

/-- The backward traversal: the nodes met following `prev` from the sentinel until the
sentinel is seen again. -/
def backward (fuel : Nat) (h : Heap) (hd : Ptr) : Option (List Ptr) := do
  let first ← getPrev h hd
  traverse (getPrev h) hd fuel first

/-- One call of `q_insert_head` or `q_insert_tail` with the results of its allocations. -/
structure InsertCall where
  atHead : Bool
  s : Bytes
  node : Ptr
  block : Option Bytes
  fuel : Nat

/-- Perform one insertion call. -/
def insert_call (h : Heap) (hd : Ptr) (c : InsertCall) : Option (Heap × Bool) :=
  if c.atHead then q_insert_head c.fuel h hd c.s c.node c.block
  else q_insert_tail c.fuel h hd c.s c.node c.block

/-- Perform the insertion calls in order, every one of them successful (it returns true,
its allocations respect the contract of `malloc`); `none` otherwise. -/
def run_inserts : Heap → Ptr → List InsertCall → Option Heap
  | h, _, [] => some h
  | h, hd, c :: cs =>
    if MallocOk h c.node ∧ BlockOk c.block (1 + strlen c.s) then
      match insert_call h hd c with
      | some (h1, true) => run_inserts h1 hd cs
      | _ => none
    else none

/-- Two insertions on a fresh queue: "a" at the head, then "b" at the tail. -/
def sampleCalls : List InsertCall :=
  [InsertCall.mk true [97] 2 (some [0, 0]) 0, InsertCall.mk false [98] 3 (some [0, 0]) 0]

/-- The queue states built by the public operations: `q_new` makes the queue, every later
step is a call that returns, its allocations respecting the contract of `malloc`;
`q_release_element` is only called on a node that is not linked in the queue. -/
inductive Built : Heap → Ptr → Prop
  | new {h0 hq : Heap} {a : Ptr} : a ≠ 0 → MallocOk h0 a → q_new h0 a = some (hq, a) → Built hq a
  | insert_head {h h1 : Heap} {hd a : Ptr} {fuel : Nat} {s : Bytes} {b : Option Bytes} {r : Bool} :
      Built h hd → MallocOk h a → BlockOk b (1 + strlen s) →
      q_insert_head fuel h hd s a b = some (h1, r) → Built h1 hd
  | insert_tail {h h1 : Heap} {hd a : Ptr} {fuel : Nat} {s : Bytes} {b : Option Bytes} {r : Bool} :
      Built h hd → MallocOk h a → BlockOk b (1 + strlen s) →
      q_insert_tail fuel h hd s a b = some (h1, r) → Built h1 hd
  | remove_head {h h1 : Heap} {hd e : Ptr} {sp o : Option Bytes} {k : Nat} :
      Built h hd → q_remove_head h hd sp k = some (h1, e, o) → Built h1 hd
  | remove_tail {h h1 : Heap} {hd e : Ptr} {sp o : Option Bytes} {k : Nat} :
      Built h hd → q_remove_tail h hd sp k = some (h1, e, o) → Built h1 hd
  | release {h h1 : Heap} {hd e : Ptr} :
      Built h hd → (∀ l, IsQueue h hd l → e ∉ hd :: l) → q_release_element h e = some h1 →
      Built h1 hd
  | delete_mid {h h1 : Heap} {hd : Ptr} {fuel : Nat} {r : Bool} :
      Built h hd → q_delete_mid fuel h hd = some (h1, r) → Built h1 hd
  | delete_dup {h : Heap} {hd : Ptr} : Built h hd → Built (q_delete_dup h hd).1 hd
  | swap {h h1 : Heap} {hd : Ptr} {fuel : Nat} :
      Built h hd → q_swap fuel h hd = some h1 → Built h1 hd
  | reverse {h h1 : Heap} {hd : Ptr} {fuel : Nat} :
      Built h hd → q_reverse fuel h hd = some h1 → Built h1 hd
  | sort {h : Heap} {hd : Ptr} : Built h hd → Built (q_sort h hd) hd

/-- The payload invariant: the sentinel carries no payload, every element carries one. -/
def PayloadInv (h : Heap) (hd : Ptr) (l : List Ptr) : Prop :=
  getValue h hd = some none ∧ ∀ p ∈ l, ∃ v, getValue h p = some (some v)

/-- The queue made by `q_new` at address 1 followed by the two insertions of
`sampleCalls`: it holds "a" (node 2) then "b" (node 3). -/
def sampleQueue : Heap :=
  (run_inserts (alloc (fun _ => none) 1 (element_t.mk none 1 1)) 1 sampleCalls).getD (fun _ => none)

/-- A heap whose queue holds one element with the payload "hello". -/
def helloHeap : Heap := fun p =>
  if p = 1 then some (element_t.mk none 2 2)
  else if p = 2 then some (element_t.mk (some [104, 101, 108, 108, 111, 0]) 1 1)
  else none

/-- A queue of six elements "a" .. "f" at the addresses 2 .. 7, the sentinel at 1. -/
def sixHeap : Heap := fun p =>
  if p = 1 then some (element_t.mk none 2 7)
  else if p = 2 then some (element_t.mk (some [97, 0]) 3 1)
  else if p = 3 then some (element_t.mk (some [98, 0]) 4 2)
  else if p = 4 then some (element_t.mk (some [99, 0]) 5 3)
  else if p = 5 then some (element_t.mk (some [100, 0]) 6 4)
  else if p = 6 then some (element_t.mk (some [101, 0]) 7 5)
  else if p = 7 then some (element_t.mk (some [102, 0]) 1 6)
  else none

/-- The comparison `strcmp(a, b) <= 0` of two strings, byte by byte. -/
def strcmp_le : Bytes → Bytes → Bool
  | [], _ => true
  | _ :: _, [] => false
  | x :: a, y :: b => if x < y then true else if y < x then false else strcmp_le a b

/-- The payload sequence is in ascending byte-wise string order (an element without a
payload is not in order with anything). -/
def ascending : List (Option Bytes) → Bool
  | some a :: some b :: rest => strcmp_le a b && ascending (some b :: rest)
  | [some _] => true
  | [] => true
  | _ => false

/-- The payloads that occur exactly once in the sequence, in their order. -/
def keepUnique (ps : List (Option Bytes)) : List (Option Bytes) :=
  ps.filter (fun p => ps.count p == 1)

/-- The fresh queue made by `q_new` at address 1 in an empty heap. -/
def freshQueue : Heap := alloc (fun _ => none) 1 (element_t.mk none 1 1)

/-- Three insertions at the tail: "b", "a", "c" into the nodes 2, 3, 4. -/
def bacCalls : List InsertCall :=
  [InsertCall.mk false [98] 2 (some [0, 0]) 0, InsertCall.mk false [97] 3 (some [0, 0]) 0,
    InsertCall.mk false [99] 4 (some [0, 0]) 0]

/-- The queue holding "b", "a", "c". -/
def bacQueue : Heap := (run_inserts freshQueue 1 bacCalls).getD (fun _ => none)

/-- Three insertions at the tail: "x", "x", "y" into the nodes 2, 3, 4. -/
def xxyCalls : List InsertCall :=
  [InsertCall.mk false [120] 2 (some [0, 0]) 0, InsertCall.mk false [120] 3 (some [0, 0]) 0,
    InsertCall.mk false [121] 4 (some [0, 0]) 0]

/-- The queue holding "x", "x", "y". -/
def xxyQueue : Heap := (run_inserts freshQueue 1 xxyCalls).getD (fun _ => none)

/-- Call `q_remove_head(head, NULL, 0)` `k` times, collecting the returned elements. -/
def remove_heads : Nat → Heap → Ptr → Option (Heap × List Ptr)
  | 0, h, _ => some (h, [])
  | k + 1, h, hd => do
    let (h1, e, _) ← q_remove_head h hd none 0
    let (h2, es) ← remove_heads k h1 hd
    some (h2, e :: es)

/-- Call `q_remove_tail(head, NULL, 0)` `k` times, collecting the returned elements. -/
def remove_tails : Nat → Heap → Ptr → Option (Heap × List Ptr)
  | 0, h, _ => some (h, [])
  | k + 1, h, hd => do
    let (h1, e, _) ← q_remove_tail h hd none 0
    let (h2, es) ← remove_tails k h1 hd
    some (h2, e :: es)

/-! ## Lemmas on the memory primitives, paths and the operations -/

theorem rd_modify (h : Heap) (p r : Ptr) (f : element_t → element_t) :
    rd (modify h p f) r = if r = p then (rd h r).map f else rd h r := by
  unfold rd modify
  by_cases h0 : r = 0 <;> by_cases hp : r = p <;> simp [h0, hp]
  subst hp; simp [h0]

theorem live_iff_next {h : Heap} {p : Ptr} : Live h p ↔ ∃ q, getNext h p = some q := by
  unfold Live getNext
  cases rd h p <;> simp

theorem live_iff_prev {h : Heap} {p : Ptr} : Live h p ↔ ∃ q, getPrev h p = some q := by
  unfold Live getPrev
  cases rd h p <;> simp

theorem live_of_next {h : Heap} {p q : Ptr} (e : getNext h p = some q) : Live h p :=
  live_iff_next.2 ⟨q, e⟩

theorem live_of_prev {h : Heap} {p q : Ptr} (e : getPrev h p = some q) : Live h p :=
  live_iff_prev.2 ⟨q, e⟩

theorem live_of_value {h : Heap} {p : Ptr} {v : Option Bytes} (e : getValue h p = some v) :
    Live h p := by
  unfold Live; unfold getValue at e
  cases hr : rd h p <;> simp_all

theorem live_ne_zero {h : Heap} {p : Ptr} (e : Live h p) : p ≠ 0 := by
  intro h0; subst h0; simp [Live, rd] at e

theorem setNext_live {h : Heap} {p : Ptr} (q : Ptr) (e : Live h p) :
    setNext h p q = some (updNext h p q) := by
  unfold Live at e; simp [setNext, wr, updNext, e]

theorem setPrev_live {h : Heap} {p : Ptr} (q : Ptr) (e : Live h p) :
    setPrev h p q = some (updPrev h p q) := by
  unfold Live at e; simp [setPrev, wr, updPrev, e]

theorem setValue_live {h : Heap} {p : Ptr} (v : Option Bytes) (e : Live h p) :
    setValue h p v = some (updValue h p v) := by
  unfold Live at e; simp [setValue, wr, updValue, e]

theorem free_live {h : Heap} {p : Ptr} (e : Live h p) : free h p = some (dealloc h p) := by
  unfold Live at e; simp [free, e]; rfl

@[simp] theorem live_updNext (h : Heap) (p q r : Ptr) : Live (updNext h p q) r ↔ Live h r := by
  unfold Live updNext; rw [rd_modify]; split <;> simp

@[simp] theorem live_updPrev (h : Heap) (p q r : Ptr) : Live (updPrev h p q) r ↔ Live h r := by
  unfold Live updPrev; rw [rd_modify]; split <;> simp

@[simp] theorem live_updValue (h : Heap) (p r : Ptr) (v : Option Bytes) :
    Live (updValue h p v) r ↔ Live h r := by
  unfold Live updValue; rw [rd_modify]; split <;> simp

@[simp] theorem next_updNext (h : Heap) (p q r : Ptr) :
    getNext (updNext h p q) r = if r = p ∧ Live h p then some q else getNext h r := by
  unfold getNext updNext Live; rw [rd_modify]
  by_cases hp : r = p
  · subst hp; simp only [if_true, true_and]; rcases hr : rd h r with _ | e <;> simp
  · simp [hp]

@[simp] theorem prev_updNext (h : Heap) (p q r : Ptr) :
    getPrev (updNext h p q) r = getPrev h r := by
  unfold getPrev updNext; rw [rd_modify]
  by_cases hp : r = p
  · subst hp; simp only [if_true, true_and]; rcases hr : rd h r with _ | e <;> simp
  · simp [hp]

@[simp] theorem value_updNext (h : Heap) (p q r : Ptr) :
    getValue (updNext h p q) r = getValue h r := by
  unfold getValue updNext; rw [rd_modify]
  by_cases hp : r = p
  · subst hp; simp only [if_true, true_and]; rcases hr : rd h r with _ | e <;> simp
  · simp [hp]

@[simp] theorem next_updPrev (h : Heap) (p q r : Ptr) :
    getNext (updPrev h p q) r = getNext h r := by
  unfold getNext updPrev; rw [rd_modify]
  by_cases hp : r = p
  · subst hp; simp only [if_true, true_and]; rcases hr : rd h r with _ | e <;> simp
  · simp [hp]

@[simp] theorem prev_updPrev (h : Heap) (p q r : Ptr) :
    getPrev (updPrev h p q) r = if r = p ∧ Live h p then some q else getPrev h r := by
  unfold getPrev updPrev Live; rw [rd_modify]
  by_cases hp : r = p
  · subst hp; simp only [if_true, true_and]; rcases hr : rd h r with _ | e <;> simp
  · simp [hp]

@[simp] theorem value_updPrev (h : Heap) (p q r : Ptr) :
    getValue (updPrev h p q) r = getValue h r := by
  unfold getValue updPrev; rw [rd_modify]
  by_cases hp : r = p
  · subst hp; simp only [if_true, true_and]; rcases hr : rd h r with _ | e <;> simp
  · simp [hp]

@[simp] theorem next_updValue (h : Heap) (p r : Ptr) (v : Option Bytes) :
    getNext (updValue h p v) r = getNext h r := by
  unfold getNext updValue; rw [rd_modify]
  by_cases hp : r = p
  · subst hp; simp only [if_true, true_and]; rcases hr : rd h r with _ | e <;> simp
  · simp [hp]

@[simp] theorem prev_updValue (h : Heap) (p r : Ptr) (v : Option Bytes) :
    getPrev (updValue h p v) r = getPrev h r := by
  unfold getPrev updValue; rw [rd_modify]
  by_cases hp : r = p
  · subst hp; simp only [if_true, true_and]; rcases hr : rd h r with _ | e <;> simp
  · simp [hp]

@[simp] theorem value_updValue (h : Heap) (p r : Ptr) (v : Option Bytes) :
    getValue (updValue h p v) r = if r = p ∧ Live h p then some v else getValue h r := by
  unfold getValue updValue Live; rw [rd_modify]
  by_cases hp : r = p
  · subst hp; simp only [if_true, true_and]; rcases hr : rd h r with _ | e <;> simp
  · simp [hp]

theorem rd_dealloc (h : Heap) (p r : Ptr) :
    rd (dealloc h p) r = if r = p then none else rd h r := by
  unfold rd dealloc
  by_cases h0 : r = 0 <;> by_cases hp : r = p <;> simp [h0, hp]

@[simp] theorem live_dealloc (h : Heap) (p r : Ptr) :
    Live (dealloc h p) r ↔ r ≠ p ∧ Live h r := by
  unfold Live; rw [rd_dealloc]; split <;> simp [*]

@[simp] theorem next_dealloc (h : Heap) (p r : Ptr) :
    getNext (dealloc h p) r = if r = p then none else getNext h r := by
  unfold getNext; rw [rd_dealloc]; split <;> simp

@[simp] theorem prev_dealloc (h : Heap) (p r : Ptr) :
    getPrev (dealloc h p) r = if r = p then none else getPrev h r := by
  unfold getPrev; rw [rd_dealloc]; split <;> simp

@[simp] theorem value_dealloc (h : Heap) (p r : Ptr) :
    getValue (dealloc h p) r = if r = p then none else getValue h r := by
  unfold getValue; rw [rd_dealloc]; split <;> simp

@[simp] theorem path_cons_cons (h : Heap) (a b : Ptr) (r : List Ptr) :
    Path h (a :: b :: r) ↔ Link h a b ∧ Path h (b :: r) := Iff.rfl

@[simp] theorem path_nil (h : Heap) : Path h [] := trivial

@[simp] theorem path_single (h : Heap) (a : Ptr) : Path h [a] := trivial

theorem path_split (h : Heap) (A : List Ptr) (a : Ptr) (B : List Ptr) :
    Path h (A ++ a :: B) ↔ Path h (A ++ [a]) ∧ Path h (a :: B) := by
  induction A with
  | nil => simp
  | cons x A ih =>
    cases A with
    | nil => simp
    | cons y A => 
      simp only [List.cons_append, path_cons_cons] at ih ⊢
      rw [ih, and_assoc]

theorem path_frame {h h1 : Heap} {L : List Ptr} (hp : Path h L)
    (hN : ∀ x ∈ L.dropLast, getNext h1 x = getNext h x)
    (hP : ∀ y ∈ L.tail, getPrev h1 y = getPrev h y) : Path h1 L := by
  induction L with
  | nil => trivial
  | cons a L ih =>
    cases L with
    | nil => trivial
    | cons b L =>
      obtain ⟨⟨e1, e2⟩, hp2⟩ := hp
      refine ⟨⟨?_, ?_⟩, ih hp2 ?_ ?_⟩
      · rw [hN a (by simp), e1]
      · rw [hP b (by simp), e2]
      · intro x hx; exact hN x (by simp [List.dropLast_cons_of_ne_nil]; right; simpa using hx)
      · intro y hy; exact hP y (by simp; right; exact hy)

theorem rd_alloc (h : Heap) (a r : Ptr) (e : element_t) (ha : a ≠ 0) :
    rd (alloc h a e) r = if r = a then some e else rd h r := by
  unfold rd alloc
  by_cases hp : r = a
  · subst hp; simp [ha]
  · by_cases h0 : r = 0
    · subst h0; simp [Ne.symm ha]
    · simp [h0, hp]

theorem live_alloc (h : Heap) (a r : Ptr) (e : element_t) (ha : a ≠ 0) :
    Live (alloc h a e) r ↔ r = a ∨ Live h r := by
  unfold Live; rw [rd_alloc _ _ _ _ ha]; split <;> simp [*]

theorem next_alloc (h : Heap) (a r : Ptr) (e : element_t) (ha : a ≠ 0) :
    getNext (alloc h a e) r = if r = a then some e.next else getNext h r := by
  unfold getNext; rw [rd_alloc _ _ _ _ ha]; split <;> simp

theorem prev_alloc (h : Heap) (a r : Ptr) (e : element_t) (ha : a ≠ 0) :
    getPrev (alloc h a e) r = if r = a then some e.prev else getPrev h r := by
  unfold getPrev; rw [rd_alloc _ _ _ _ ha]; split <;> simp

theorem value_alloc (h : Heap) (a r : Ptr) (e : element_t) (ha : a ≠ 0) :
    getValue (alloc h a e) r = if r = a then some e.value else getValue h r := by
  unfold getValue; rw [rd_alloc _ _ _ _ ha]; split <;> simp

theorem q_new_eq (h : Heap) (a : Ptr) (ha : a ≠ 0) :
    q_new h a = some (alloc h a (element_t.mk none a a), a) := by
  have hl : Live (alloc h a (element_t.mk none 0 0)) a := (live_alloc _ _ _ _ ha).2 (Or.inl rfl)
  simp only [q_new, malloc_element, ha, if_false, INIT_LIST_HEAD]
  rw [show (fun r => if r = a then some (element_t.mk none 0 0) else h r)
        = alloc h a (element_t.mk none 0 0) from rfl]
  simp only [Option.bind_eq_bind, setNext_live a hl, Option.some_bind]
  rw [setPrev_live a (by simpa using hl)]
  simp only [Option.some_bind]
  rw [setValue_live none (by simpa using hl)]
  simp only [Option.some_bind, Option.some.injEq, Prod.mk.injEq, and_true]
  funext r
  simp only [updValue, updPrev, updNext, modify, alloc]
  by_cases hr : r = a <;> simp [hr]

theorem q_new_null (h : Heap) : q_new h 0 = some (h, 0) := by
  simp [q_new, malloc_element]

/-- Local surgery on a path: the links strictly between `p` and `n` are rebuilt, the
links before `p` and after `n` are untouched. -/
theorem path_surgery {h h1 : Heap} {A B M M1 : List Ptr} {p n : Ptr}
    (hp : Path h (A ++ p :: (M ++ n :: B)))
    (hm : Path h1 (p :: (M1 ++ [n])))
    (hA : ∀ x ∈ A, getNext h1 x = getNext h x)
    (hA1 : ∀ y ∈ (A ++ [p]).tail, getPrev h1 y = getPrev h y)
    (hB : ∀ x ∈ (n :: B).dropLast, getNext h1 x = getNext h x)
    (hB1 : ∀ y ∈ B, getPrev h1 y = getPrev h y) :
    Path h1 (A ++ p :: (M1 ++ n :: B)) := by
  rw [path_split] at hp ⊢
  obtain ⟨hpA, hpR⟩ := hp
  have hpB : Path h (n :: B) := by
    have := (path_split h (p :: M) n B).1 (by simpa using hpR)
    exact this.2
  refine ⟨path_frame hpA (by simpa using hA) hA1, ?_⟩
  have := (path_split h1 (p :: M1) n B).2 ⟨by simpa using hm, path_frame hpB hB (by simpa using hB1)⟩
  simpa using this

@[simp] theorem dropLast_cons_snoc (n b : Ptr) (l : List Ptr) :
    (n :: (l ++ [b])).dropLast = n :: l := by
  rw [← List.cons_append, List.dropLast_concat]

theorem isQueue_unlink {h h1 : Heap} {hd x : Ptr} {l1 l2 : List Ptr}
    (q : IsQueue h hd (l1 ++ x :: l2))
    (e1 : getNext h1 (l1.getLastD hd) = some (l2.headD hd))
    (e2 : getPrev h1 (l2.headD hd) = some (l1.getLastD hd))
    (hN : ∀ r, r ≠ l1.getLastD hd → r ≠ x → getNext h1 r = getNext h r)
    (hP : ∀ r, r ≠ l2.headD hd → r ≠ x → getPrev h1 r = getPrev h r) :
    IsQueue h1 hd (l1 ++ l2) := by
  obtain ⟨nd, pa⟩ := q
  refine ⟨?_, ?_⟩
  · have := nd
    simp only [List.nodup_cons, List.nodup_append, List.mem_append, List.mem_cons] at this ⊢
    aesop
  · rcases List.eq_nil_or_concat l1 with rfl | ⟨l1, p, rfl⟩ <;>
    rcases l2 with _ | ⟨n, l2⟩ <;>
    simp only [List.concat_eq_append, List.getLastD_nil, List.getLastD_concat, List.headD_cons,
      List.headD_nil, List.nil_append, List.cons_append, List.append_assoc, List.append_nil,
      List.singleton_append] at *
    · exact ⟨⟨e1, e2⟩, trivial⟩
    · have nd1 := nd
      simp only [List.nodup_cons, List.nodup_append, List.mem_append, List.mem_cons] at nd1
      refine @path_surgery h h1 [] (l2 ++ [hd]) [x] [] hd n (by simpa using pa) ⟨⟨e1, e2⟩, trivial⟩
        ?_ ?_ ?_ ?_
      · simp
      · simp
      · intro r hr
        simp only [dropLast_cons_snoc] at hr
        apply hN <;> rintro rfl <;> simp_all
      · intro r hr
        apply hP <;> rintro rfl <;> simp_all
    · have nd1 := nd
      simp only [List.nodup_cons, List.nodup_append, List.mem_append, List.mem_cons] at nd1
      have := @path_surgery h h1 (hd :: l1) [] [x] [] p hd (by simpa using pa) ⟨⟨e1, e2⟩, trivial⟩
        ?_ ?_ ?_ ?_
      · simpa using this
      · intro r hr
        apply hN <;> rintro rfl <;> simp_all
      · intro r hr
        simp at hr
        apply hP <;> rintro rfl <;> simp_all
      · simp
      · simp
    · have nd1 := nd
      simp only [List.nodup_cons, List.nodup_append, List.mem_append, List.mem_cons] at nd1
      have := @path_surgery h h1 (hd :: l1) (l2 ++ [hd]) [x] [] p n (by simpa using pa) ⟨⟨e1, e2⟩, trivial⟩
        ?_ ?_ ?_ ?_
      · simpa using this
      · intro r hr
        apply hN <;> rintro rfl <;> simp_all
      · intro r hr
        simp at hr
        apply hP <;> rintro rfl <;> simp_all
      · intro r hr
        simp only [dropLast_cons_snoc] at hr
        apply hN <;> rintro rfl <;> simp_all
      · intro r hr
        apply hP <;> rintro rfl <;> simp_all

theorem isQueue_insert {h h1 : Heap} {hd c : Ptr} {l1 l2 : List Ptr}
    (q : IsQueue h hd (l1 ++ l2)) (hc : c ∉ hd :: (l1 ++ l2))
    (e1 : getNext h1 (l1.getLastD hd) = some c)
    (e2 : getPrev h1 c = some (l1.getLastD hd))
    (e3 : getNext h1 c = some (l2.headD hd))
    (e4 : getPrev h1 (l2.headD hd) = some c)
    (hN : ∀ r, r ≠ l1.getLastD hd → r ≠ c → getNext h1 r = getNext h r)
    (hP : ∀ r, r ≠ l2.headD hd → r ≠ c → getPrev h1 r = getPrev h r) :
    IsQueue h1 hd (l1 ++ c :: l2) := by
  obtain ⟨nd, pa⟩ := q
  refine ⟨?_, ?_⟩
  · have := nd
    simp only [List.nodup_cons, List.nodup_append, List.mem_append, List.mem_cons] at this hc ⊢
    aesop
  · rcases List.eq_nil_or_concat l1 with rfl | ⟨l1, p, rfl⟩ <;>
    rcases l2 with _ | ⟨n, l2⟩ <;>
    simp only [List.concat_eq_append, List.getLastD_nil, List.getLastD_concat, List.headD_cons,
      List.headD_nil, List.nil_append, List.cons_append, List.append_assoc, List.append_nil,
      List.singleton_append] at * <;>
    have nd1 := nd <;>
    have hc1 := hc <;>
    simp only [List.nodup_cons, List.nodup_append, List.mem_append, List.mem_cons] at nd1 hc1
    · exact ⟨⟨e1, e2⟩, ⟨e3, e4⟩, trivial⟩
    · refine @path_surgery h h1 [] (l2 ++ [hd]) [] [c] hd n (by simpa using pa)
        ⟨⟨e1, e2⟩, ⟨e3, e4⟩, trivial⟩ ?_ ?_ ?_ ?_
      · simp
      · simp
      · intro r hr
        simp only [dropLast_cons_snoc] at hr
        apply hN <;> rintro rfl <;> simp_all
      · intro r hr
        apply hP <;> rintro rfl <;> simp_all
    · have := @path_surgery h h1 (hd :: l1) [] [] [c] p hd (by simpa using pa)
        ⟨⟨e1, e2⟩, ⟨e3, e4⟩, trivial⟩ ?_ ?_ ?_ ?_
      · simpa using this
      · intro r hr
        apply hN <;> rintro rfl <;> simp_all
      · intro r hr
        simp at hr
        apply hP <;> rintro rfl <;> simp_all
      · simp
      · simp
    · have := @path_surgery h h1 (hd :: l1) (l2 ++ [hd]) [] [c] p n (by simpa using pa)
        ⟨⟨e1, e2⟩, ⟨e3, e4⟩, trivial⟩ ?_ ?_ ?_ ?_
      · simpa using this
      · intro r hr
        apply hN <;> rintro rfl <;> simp_all
      · intro r hr
        simp at hr
        apply hP <;> rintro rfl <;> simp_all
      · intro r hr
        simp only [dropLast_cons_snoc] at hr
        apply hN <;> rintro rfl <;> simp_all
      · intro r hr
        apply hP <;> rintro rfl <;> simp_all

theorem isQueue_swap {h h1 : Heap} {hd x y : Ptr} {l1 l2 : List Ptr}
    (q : IsQueue h hd (l1 ++ x :: y :: l2))
    (e1 : getNext h1 (l1.getLastD hd) = some y)
    (e2 : getPrev h1 y = some (l1.getLastD hd))
    (e3 : getNext h1 y = some x)
    (e4 : getPrev h1 x = some y)
    (e5 : getNext h1 x = some (l2.headD hd))
    (e6 : getPrev h1 (l2.headD hd) = some x)
    (hN : ∀ r, r ≠ l1.getLastD hd → r ≠ x → r ≠ y → getNext h1 r = getNext h r)
    (hP : ∀ r, r ≠ l2.headD hd → r ≠ x → r ≠ y → getPrev h1 r = getPrev h r) :
    IsQueue h1 hd (l1 ++ y :: x :: l2) := by
  obtain ⟨nd, pa⟩ := q
  refine ⟨?_, ?_⟩
  · have := nd
    simp only [List.nodup_cons, List.nodup_append, List.mem_append, List.mem_cons] at this ⊢
    aesop
  · rcases List.eq_nil_or_concat l1 with rfl | ⟨l1, p, rfl⟩ <;>
    rcases l2 with _ | ⟨n, l2⟩ <;>
    simp only [List.concat_eq_append, List.getLastD_nil, List.getLastD_concat, List.headD_cons,
      List.headD_nil, List.nil_append, List.cons_append, List.append_assoc, List.append_nil,
      List.singleton_append] at * <;>
    have nd1 := nd <;>
    simp only [List.nodup_cons, List.nodup_append, List.mem_append, List.mem_cons] at nd1
    · exact ⟨⟨e1, e2⟩, ⟨e3, e4⟩, ⟨e5, e6⟩, trivial⟩
    · refine @path_surgery h h1 [] (l2 ++ [hd]) [x, y] [y, x] hd n (by simpa using pa)
        ⟨⟨e1, e2⟩, ⟨e3, e4⟩, ⟨e5, e6⟩, trivial⟩ ?_ ?_ ?_ ?_
      · simp
      · simp
      · intro r hr
        simp only [dropLast_cons_snoc] at hr
        apply hN <;> rintro rfl <;> simp_all
      · intro r hr
        apply hP <;> rintro rfl <;> simp_all
    · have := @path_surgery h h1 (hd :: l1) [] [x, y] [y, x] p hd (by simpa using pa)
        ⟨⟨e1, e2⟩, ⟨e3, e4⟩, ⟨e5, e6⟩, trivial⟩ ?_ ?_ ?_ ?_
      · simpa using this
      · intro r hr
        apply hN <;> rintro rfl <;> simp_all
      · intro r hr
        simp at hr
        apply hP <;> rintro rfl <;> simp_all
      · simp
      · simp
    · have := @path_surgery h h1 (hd :: l1) (l2 ++ [hd]) [x, y] [y, x] p n (by simpa using pa)
        ⟨⟨e1, e2⟩, ⟨e3, e4⟩, ⟨e5, e6⟩, trivial⟩ ?_ ?_ ?_ ?_
      · simpa using this
      · intro r hr
        apply hN <;> rintro rfl <;> simp_all
      · intro r hr
        simp at hr
        apply hP <;> rintro rfl <;> simp_all
      · intro r hr
        simp only [dropLast_cons_snoc] at hr
        apply hN <;> rintro rfl <;> simp_all
      · intro r hr
        apply hP <;> rintro rfl <;> simp_all

theorem path_link_mid {h : Heap} {A B : List Ptr} {a b : Ptr} (hp : Path h (A ++ a :: b :: B)) :
    Link h a b := by
  rw [path_split] at hp
  exact hp.2.1

theorem headD_snoc (l : List Ptr) (hd : Ptr) : l ++ [hd] = l.headD hd :: (l ++ [hd]).tail := by
  cases l <;> simp

theorem getLastD_snoc (l : List Ptr) (hd : Ptr) :
    hd :: l = (hd :: l).dropLast ++ [l.getLastD hd] := by
  rcases List.eq_nil_or_concat l with rfl | ⟨l, p, rfl⟩
  · simp
  · simp only [List.concat_eq_append, List.getLastD_concat]
    rw [← List.cons_append, List.dropLast_concat]

theorem isQueue_mid {h : Heap} {hd x : Ptr} {l1 l2 : List Ptr}
    (q : IsQueue h hd (l1 ++ x :: l2)) :
    getNext h x = some (l2.headD hd) ∧ getPrev h x = some (l1.getLastD hd) := by
  obtain ⟨_, pa⟩ := q
  constructor
  · have e : hd :: (l1 ++ x :: l2) ++ [hd] = (hd :: l1) ++ x :: l2.headD hd :: (l2 ++ [hd]).tail := by
      rw [List.cons_append, List.append_assoc, List.cons_append, headD_snoc l2 hd]
      simp
    rw [e] at pa
    exact (path_link_mid pa).1
  · have e : hd :: (l1 ++ x :: l2) ++ [hd]
        = (hd :: l1).dropLast ++ l1.getLastD hd :: x :: (l2 ++ [hd]) := by
      have := getLastD_snoc l1 hd
      calc hd :: (l1 ++ x :: l2) ++ [hd] = (hd :: l1) ++ x :: (l2 ++ [hd]) := by simp
        _ = ((hd :: l1).dropLast ++ [l1.getLastD hd]) ++ x :: (l2 ++ [hd]) := by rw [← this]
        _ = _ := by simp
    rw [e] at pa
    exact (path_link_mid pa).2

theorem isQueue_next_hd {h : Heap} {hd : Ptr} {l : List Ptr} (q : IsQueue h hd l) :
    getNext h hd = some (l.headD hd) := by
  have e : hd :: l ++ [hd] = [] ++ hd :: l.headD hd :: (l ++ [hd]).tail := by
    rw [List.cons_append, headD_snoc l hd]; simp
  have pa := q.2
  rw [e] at pa
  exact (path_link_mid pa).1

theorem isQueue_prev_hd {h : Heap} {hd : Ptr} {l : List Ptr} (q : IsQueue h hd l) :
    getPrev h hd = some (l.getLastD hd) := by
  have e : hd :: l ++ [hd] = (hd :: l).dropLast ++ l.getLastD hd :: hd :: [] := by
    conv_lhs => rw [getLastD_snoc l hd]
    simp
  have pa := q.2
  rw [e] at pa
  exact (path_link_mid pa).2

theorem isQueue_live {h : Heap} {hd : Ptr} {l : List Ptr} (q : IsQueue h hd l) :
    ∀ x ∈ hd :: l, Live h x := by
  intro x hx
  rcases List.mem_cons.1 hx with rfl | hx
  · exact live_of_next (isQueue_next_hd q)
  · obtain ⟨l1, l2, rfl⟩ := List.append_of_mem hx
    exact live_of_next (isQueue_mid q).1

theorem isQueue_hd_ne_zero {h : Heap} {hd : Ptr} {l : List Ptr} (q : IsQueue h hd l) : hd ≠ 0 :=
  live_ne_zero (isQueue_live q hd (by simp))

theorem not_live_of_none {h : Heap} {a : Ptr} (e : h a = none) : ¬ Live h a := by
  unfold Live rd; split <;> simp [e]

theorem isQueue_fresh {h : Heap} {hd a : Ptr} {l : List Ptr} (q : IsQueue h hd l)
    (e : h a = none) : a ∉ hd :: l :=
  fun hm => not_live_of_none e (isQueue_live q a hm)

theorem getLastD_mem (l : List Ptr) (hd : Ptr) : l.getLastD hd ∈ hd :: l := by
  rcases List.eq_nil_or_concat l with rfl | ⟨l, p, rfl⟩ <;> simp

theorem headD_mem (l : List Ptr) (hd : Ptr) : l.headD hd ∈ hd :: l := by
  cases l <;> simp

/-- A fresh sentinel is an empty queue. -/
theorem isQueue_new (h : Heap) (a : Ptr) (ha : a ≠ 0) :
    IsQueue (alloc h a (element_t.mk none a a)) a [] := by
  refine ⟨by simp, ?_⟩
  simp [Link, next_alloc _ _ _ _ ha, prev_alloc _ _ _ _ ha]

theorem list_add_eq {h : Heap} {node head n : Ptr} (e : getNext h head = some n)
    (hn : Live h n) (hnode : Live h node) :
    list_add h node head
      = some (updNext (updPrev (updNext (updPrev h n node) node n) node head) head node) := by
  have hh := live_of_next e
  simp only [list_add, e, Option.bind_eq_bind, Option.some_bind]
  rw [setPrev_live _ hn]; simp only [Option.some_bind]
  rw [setNext_live _ (by simpa using hnode)]; simp only [Option.some_bind]
  rw [setPrev_live _ (by simpa using hnode)]; simp only [Option.some_bind]
  rw [setNext_live _ (by simpa using hh)]

theorem list_add_tail_eq {h : Heap} {node head p : Ptr} (e : getPrev h head = some p)
    (hp : Live h p) (hnode : Live h node) :
    list_add_tail h node head
      = some (updPrev (updPrev (updNext (updNext h p node) node head) node p) head node) := by
  have hh := live_of_prev e
  simp only [list_add_tail, e, Option.bind_eq_bind, Option.some_bind]
  rw [setNext_live _ hp]; simp only [Option.some_bind]
  rw [setNext_live _ (by simpa using hnode)]; simp only [Option.some_bind]
  rw [setPrev_live _ (by simpa using hnode)]; simp only [Option.some_bind]
  rw [setPrev_live _ (by simpa using hh)]

theorem list_del_eq {h : Heap} {node n p : Ptr} (e1 : getNext h node = some n)
    (e2 : getPrev h node = some p) (hn : Live h n) (hp : Live h p) :
    list_del h node = some (updNext (updPrev h n p) p n) := by
  simp only [list_del, e1, e2, Option.bind_eq_bind, Option.some_bind]
  rw [setPrev_live _ hn]; simp only [Option.some_bind]
  rw [setNext_live _ (by simpa using hp)]

theorem cstr_take (s : Bytes) : (cstr s).take (strlen s) = cstr s := by
  simp [strlen]

/-- The two statements `strncpy(buf, s, len); buf[len] = 0` on a block of `1 + len`
bytes leave the string of `s` and its terminator. -/
theorem copy_in (blk s : Bytes) (hb : blk.length = 1 + strlen s) :
    ∃ b1, strncpy blk s (strlen s) = some b1 ∧ setByte b1 (strlen s) 0 = some (cstr s ++ [0]) := by
  have h1 : strlen s ≤ blk.length := by omega
  obtain ⟨c, hc⟩ : ∃ c, blk.drop (strlen s) = [c] := by
    have : (blk.drop (strlen s)).length = 1 := by simp [hb]
    match hd : blk.drop (strlen s), this with
    | [c], _ => exact ⟨c, rfl⟩
  refine ⟨cstr s ++ [c], ?_, ?_⟩
  · simp only [strncpy, h1, if_true, cstr_take, hc]
    have h2 : strlen s - (cstr s).length = 0 := by simp [strlen]
    simp only [h2, List.replicate_zero, List.append_nil]
  · have h3 : strlen s < (cstr s ++ [c]).length := by simp [strlen]
    simp only [setByte, if_pos h3]
    congr 1
    rw [List.set_append_right _ _ (by simp [strlen])]
    simp [strlen]

theorem q_insert_head_ok {h : Heap} {hd : Ptr} {l : List Ptr} (q : IsQueue h hd l)
    (fuel : Nat) (s : Bytes) (a : Ptr) (blk : Bytes)
    (ha : a ≠ 0) (hf : h a = none) (hb : blk.length = 1 + strlen s) :
    ∃ h1, q_insert_head fuel h hd s a (some blk) = some (h1, true) ∧
      IsQueue h1 hd (a :: l) ∧
      getValue h1 a = some (some (cstr s ++ [0])) ∧
      (∀ r, r ≠ a → getValue h1 r = getValue h r) ∧
      (∀ r, Live h1 r ↔ r = a ∨ Live h r) ∧
      (∀ r, r ∉ a :: hd :: l → h1 r = h r) := by
  have hd0 := isQueue_hd_ne_zero q
  have hfr := isQueue_fresh q hf
  have hahd : a ≠ hd := fun e => hfr (by simp [e])
  have hnl : l.headD hd ≠ a := fun e => hfr (e ▸ headD_mem l hd)
  have hnext := isQueue_next_hd q
  have hlive := isQueue_live q
  have hins := @isQueue_insert h
  set h0 := alloc h a (element_t.mk none a a) with hh0
  have l0 : ∀ r, Live h0 r ↔ r = a ∨ Live h r := fun r => live_alloc _ _ _ _ ha
  have n0 : getNext h0 hd = some (l.headD hd) := by
    rw [hh0, next_alloc _ _ _ _ ha, if_neg (Ne.symm hahd), hnext]
  have la : Live h0 a := (l0 a).2 (Or.inl rfl)
  have lh : Live h0 hd := (l0 hd).2 (Or.inr (hlive hd (by simp)))
  have ln : Live h0 (l.headD hd) := (l0 _).2 (Or.inr (hlive _ (headD_mem l hd)))
  have hmem := headD_mem l hd
  obtain ⟨b1, hc1, hc2⟩ := copy_in blk s hb
  have hq := fun h1 => @isQueue_insert h h1 hd a [] l q hfr
  simp only [List.getLastD_nil, List.nil_append] at hq
  generalize l.headD hd = n at *
  refine ⟨updValue (updNext (updPrev (updNext (updPrev h0 n a) a n) a hd)
    hd a) a (some (cstr s ++ [0])), ?_, ?_, ?_, ?_, ?_, ?_⟩
  · simp only [q_insert_head, hd0, if_false, q_new_eq h a ha, Option.bind_eq_bind,
      Option.some_bind, ha, list_add_eq n0 ln la, hc1, hc2]
    rw [setValue_live _ (by simpa using la)]
    rfl
  · apply hq
    · simp [lh, hahd, Ne.symm hahd]
    · simp [la, hahd, hnl, Ne.symm hnl]
    · simp [la, hahd, hnl, Ne.symm hnl]
    · simp [ln, hahd, hnl, Ne.symm hnl]
    · intro r h1 h2
      simp [h1, h2, hh0, next_alloc _ _ _ _ ha]
    · intro r h1 h2
      simp [h1, h2, hh0, prev_alloc _ _ _ _ ha]
  · simp [la]
  · intro r hr
    simp [hr, hh0, value_alloc _ _ _ _ ha]
  · intro r
    simp [l0]
  · intro r hr
    simp only [List.mem_cons, not_or] at hr hmem
    have hrn : r ≠ n := by
      rintro rfl
      tauto
    simp [updValue, updNext, updPrev, modify, hh0, alloc, hr.1, hr.2.1, hrn]

theorem q_insert_tail_ok {h : Heap} {hd : Ptr} {l : List Ptr} (q : IsQueue h hd l)
    (fuel : Nat) (s : Bytes) (a : Ptr) (blk : Bytes)
    (ha : a ≠ 0) (hf : h a = none) (hb : blk.length = 1 + strlen s) :
    ∃ h1, q_insert_tail fuel h hd s a (some blk) = some (h1, true) ∧
      IsQueue h1 hd (l ++ [a]) ∧
      getValue h1 a = some (some (cstr s ++ [0])) ∧
      (∀ r, r ≠ a → getValue h1 r = getValue h r) ∧
      (∀ r, Live h1 r ↔ r = a ∨ Live h r) ∧
      (∀ r, r ∉ a :: hd :: l → h1 r = h r) := by
  have hd0 := isQueue_hd_ne_zero q
  have hfr := isQueue_fresh q hf
  have hahd : a ≠ hd := fun e => hfr (by simp [e])
  have hnl : l.getLastD hd ≠ a := fun e => hfr (e ▸ getLastD_mem l hd)
  have hprev := isQueue_prev_hd q
  have hlive := isQueue_live q
  set h0 := alloc h a (element_t.mk none a a) with hh0
  have l0 : ∀ r, Live h0 r ↔ r = a ∨ Live h r := fun r => live_alloc _ _ _ _ ha
  have n0 : getPrev h0 hd = some (l.getLastD hd) := by
    rw [hh0, prev_alloc _ _ _ _ ha, if_neg (Ne.symm hahd), hprev]
  have la : Live h0 a := (l0 a).2 (Or.inl rfl)
  have lh : Live h0 hd := (l0 hd).2 (Or.inr (hlive hd (by simp)))
  have ln : Live h0 (l.getLastD hd) := (l0 _).2 (Or.inr (hlive _ (getLastD_mem l hd)))
  have hmem := getLastD_mem l hd
  obtain ⟨b1, hc1, hc2⟩ := copy_in blk s hb
  have hq := fun h1 => @isQueue_insert h h1 hd a l [] (by simpa using q) (by simpa using hfr)
  simp only [List.headD_nil, List.append_nil] at hq
  generalize l.getLastD hd = p at *
  refine ⟨updValue (updPrev (updPrev (updNext (updNext h0 p a) a hd) a p)
    hd a) a (some (cstr s ++ [0])), ?_, ?_, ?_, ?_, ?_, ?_⟩
  · simp only [q_insert_tail, hd0, if_false, q_new_eq h a ha, Option.bind_eq_bind,
      Option.some_bind, ha, list_add_tail_eq n0 ln la, hc1, hc2]
    rw [setValue_live _ (by simpa using la)]
    rfl
  · apply hq
    · simp [ln, hahd, hnl, Ne.symm hnl]
    · simp [la, hahd, hnl, Ne.symm hnl]
    · simp [la, hahd, hnl, Ne.symm hnl]
    · simp [lh, hahd, Ne.symm hahd]
    · intro r h1 h2
      simp [h1, h2, hh0, next_alloc _ _ _ _ ha]
    · intro r h1 h2
      simp [h1, h2, hh0, prev_alloc _ _ _ _ ha]
  · simp [la]
  · intro r hr
    simp [hr, hh0, value_alloc _ _ _ _ ha]
  · intro r
    simp [l0]
  · intro r hr
    simp only [List.mem_cons, not_or] at hr hmem
    have hrn : r ≠ p := by
      rintro rfl
      tauto
    simp [updValue, updNext, updPrev, modify, hh0, alloc, hr.1, hr.2.1, hrn]

theorem dealloc_alloc {h : Heap} {a : Ptr} (e : element_t) (hf : h a = none) :
    dealloc (alloc h a e) a = h := by
  funext r
  unfold dealloc alloc
  by_cases hr : r = a
  · subst hr; simp [hf]
  · simp [hr]

/-- The failure path `q_free(tmp)` on the node just made by `q_new`. -/
theorem q_free_fresh (fuel : Nat) {h : Heap} {a : Ptr} (ha : a ≠ 0) (hf : h a = none) :
    q_free fuel (alloc h a (element_t.mk none a a)) a = some h := by
  have la : Live (alloc h a (element_t.mk none a a)) a := (live_alloc _ _ _ _ ha).2 (Or.inl rfl)
  simp only [q_free, ha, if_false, next_alloc _ _ _ _ ha, if_true, Option.bind_eq_bind,
    Option.some_bind, ne_eq, not_true_eq_false]
  rw [free_live la, dealloc_alloc _ hf]

theorem q_insert_head_null (fuel : Nat) (h : Heap) (s : Bytes) (a : Ptr) (b : Option Bytes) :
    q_insert_head fuel h 0 s a b = some (h, false) := by
  simp [q_insert_head]

theorem q_insert_tail_null (fuel : Nat) (h : Heap) (s : Bytes) (a : Ptr) (b : Option Bytes) :
    q_insert_tail fuel h 0 s a b = some (h, false) := by
  simp [q_insert_tail]

theorem q_insert_head_nomem_node (fuel : Nat) (h : Heap) (hd : Ptr) (s : Bytes)
    (b : Option Bytes) : q_insert_head fuel h hd s 0 b = some (h, false) := by
  by_cases hd0 : hd = 0
  · simp [q_insert_head, hd0]
  · simp [q_insert_head, hd0, q_new_null]

theorem q_insert_tail_nomem_node (fuel : Nat) (h : Heap) (hd : Ptr) (s : Bytes)
    (b : Option Bytes) : q_insert_tail fuel h hd s 0 b = some (h, false) := by
  by_cases hd0 : hd = 0
  · simp [q_insert_tail, hd0]
  · simp [q_insert_tail, hd0, q_new_null]

theorem q_insert_head_nomem_block (fuel : Nat) {h : Heap} (hd : Ptr) (s : Bytes) {a : Ptr}
    (ha : a ≠ 0) (hf : h a = none) : q_insert_head fuel h hd s a none = some (h, false) := by
  by_cases hd0 : hd = 0
  · simp [q_insert_head, hd0]
  · simp [q_insert_head, hd0, q_new_eq h a ha, ha, q_free_fresh fuel ha hf]

theorem q_insert_tail_nomem_block (fuel : Nat) {h : Heap} (hd : Ptr) (s : Bytes) {a : Ptr}
    (ha : a ≠ 0) (hf : h a = none) : q_insert_tail fuel h hd s a none = some (h, false) := by
  by_cases hd0 : hd = 0
  · simp [q_insert_tail, hd0]
  · simp [q_insert_tail, hd0, q_new_eq h a ha, ha, q_free_fresh fuel ha hf]

theorem copy_out_congr {h h1 : Heap} {x : Ptr} (e : getValue h1 x = getValue h x)
    (sp : Option Bytes) (k : Nat) : copy_out h1 x sp k = copy_out h x sp k := by
  unfold copy_out
  rw [e]

theorem copy_out_none (h : Heap) (x : Ptr) (k : Nat) : copy_out h x none k = some none := rfl

theorem size_sub_one {k : Nat} (h1 : 1 ≤ k) (h2 : k < 2 ^ SIZE_BITS) : size_sub k 1 = k - 1 := by
  unfold size_sub SIZE_BITS at *
  omega

/-- The string of a block that starts with bytes free of zero, followed by a zero byte. -/
theorem cstr_append_zero (u w : Bytes) (hu : ∀ b ∈ u, b ≠ 0) : cstr (u ++ 0 :: w) = u := by
  unfold cstr
  induction u with
  | nil => simp
  | cons b u ih =>
    have hb : b ≠ 0 := hu b (by simp)
    simp only [List.cons_append, List.takeWhile_cons, bne_iff_ne, ne_eq, hb, not_false_eq_true,
      decide_True, if_true]
    simp [hb]
    exact ih (fun c hc => hu c (by simp [hc]))

theorem cstr_ne_zero (s : Bytes) : ∀ b ∈ cstr s, b ≠ 0 := by
  intro b hb
  have := List.mem_takeWhile_imp hb
  simpa using this

theorem cstr_cstr (s : Bytes) : cstr (cstr s) = cstr s := by
  unfold cstr
  induction s with
  | nil => simp
  | cons b s ih =>
    by_cases hb : b = 0
    · simp [hb]
    · simp [hb, ih]

/-- The copy-out into a buffer of at least `k >= 1` bytes leaves the payload cut at
`k - 1` bytes. -/
theorem copy_out_some {h : Heap} {x : Ptr} {v buf : Bytes} {k : Nat}
    (e : getValue h x = some (some v)) (h1 : 1 ≤ k) (h2 : k ≤ buf.length)
    (h3 : k < 2 ^ SIZE_BITS) :
    ∃ out, copy_out h x (some buf) k = some (some out) ∧ cstr out = (cstr v).take (k - 1) ∧
      out.length = buf.length := by
  refine ⟨(cstr v).take (k - 1) ++ List.replicate (k - 1 - (cstr v).length) 0
      ++ (0 :: buf.drop k), ?_, ?_, ?_⟩
  · have hk : k - 1 ≤ buf.length := by omega
    simp only [copy_out, e, Option.bind_eq_bind, Option.some_bind, size_sub_one h1 h3, strncpy,
      hk, if_true, setByte]
    have hlen : ((cstr v).take (k - 1) ++ List.replicate (k - 1 - (cstr v).length) 0).length
        = k - 1 := by
      simp only [List.length_append, List.length_take, List.length_replicate]
      omega
    have hd : buf.drop (k - 1) = (buf.drop (k - 1)).head (by
        intro hnil
        have := congrArg List.length hnil
        simp at this; omega) :: buf.drop k := by
      have : buf.drop k = (buf.drop (k - 1)).tail := by
        rw [List.tail_drop]; congr 1; omega
      rw [this, List.head_cons_tail]
    rw [if_pos (by
      simp only [List.length_append, List.length_take, List.length_replicate, List.length_drop]
      omega)]
    rw [List.set_append_right _ _ (by rw [hlen])]
    rw [hlen, Nat.sub_self, hd]
    simp
  · by_cases hc : (cstr v).length ≤ k - 1
    · rw [List.take_of_length_le hc]
      rcases Nat.eq_zero_or_pos (k - 1 - (cstr v).length) with hz | hz
      · rw [hz]
        simpa using cstr_append_zero (cstr v) (buf.drop k) (cstr_ne_zero v)
      · obtain ⟨m, hm⟩ : ∃ m, k - 1 - (cstr v).length = m + 1 := ⟨_, (Nat.succ_pred_eq_of_pos hz).symm⟩
        rw [hm, List.replicate_succ]
        simpa using cstr_append_zero (cstr v) (List.replicate m 0 ++ 0 :: buf.drop k)
          (cstr_ne_zero v)
    · have hz : k - 1 - (cstr v).length = 0 := by omega
      rw [hz]
      simpa using cstr_append_zero ((cstr v).take (k - 1)) (buf.drop k)
        (fun b hb => cstr_ne_zero v b (List.mem_of_mem_take hb))
  · simp only [List.length_append, List.length_take, List.length_replicate, List.length_cons,
      List.length_drop]
    omega

theorem modify_self {h : Heap} {p : Ptr} {f : element_t → element_t}
    (hf : ∀ e, h p = some e → f e = e) : modify h p f = h := by
  funext r
  unfold modify
  by_cases hr : r = p
  · subst hr
    rcases he : h r with _ | e
    · simp
    · simp [hf e he]
  · simp [hr]

theorem heap_of_next {h : Heap} {p q : Ptr} (e : getNext h p = some q) :
    ∃ c, h p = some c ∧ c.next = q := by
  unfold getNext rd at e
  split at e
  · simp at e
  · rcases hc : h p with _ | c
    · simp [hc] at e
    · exact ⟨c, rfl, by simpa [hc] using e⟩

theorem heap_of_prev {h : Heap} {p q : Ptr} (e : getPrev h p = some q) :
    ∃ c, h p = some c ∧ c.prev = q := by
  unfold getPrev rd at e
  split at e
  · simp at e
  · rcases hc : h p with _ | c
    · simp [hc] at e
    · exact ⟨c, rfl, by simpa [hc] using e⟩

/-- Rewriting the links of a self-linked sentinel with the values they hold changes nothing. -/
theorem relink_self {h : Heap} {hd : Ptr} (e1 : getNext h hd = some hd)
    (e2 : getPrev h hd = some hd) : updNext (updPrev h hd hd) hd hd = h := by
  obtain ⟨c, hc, hcn⟩ := heap_of_next e1
  obtain ⟨c1, hc1, hcp⟩ := heap_of_prev e2
  rw [hc] at hc1
  cases hc1
  have : updPrev h hd hd = h := by
    unfold updPrev
    apply modify_self
    intro e he
    rw [hc] at he; cases he
    cases c; simp_all
  rw [this]
  unfold updNext
  apply modify_self
  intro e he
  rw [hc] at he; cases he
  cases c; simp_all

theorem q_remove_head_null (h : Heap) (sp : Option Bytes) (k : Nat) :
    q_remove_head h 0 sp k = some (h, 0, sp) := by
  simp [q_remove_head]

theorem q_remove_tail_null (h : Heap) (sp : Option Bytes) (k : Nat) :
    q_remove_tail h 0 sp k = some (h, 0, sp) := by
  simp [q_remove_tail]

/-- The emptiness test of `q_remove_head` succeeds: the node after the sentinel has a
`NULL` payload. -/
theorem q_remove_head_nullvalue {h : Heap} {hd : Ptr} {l : List Ptr} (q : IsQueue h hd l)
    (e : getValue h (l.headD hd) = some none) (sp : Option Bytes) (k : Nat) :
    q_remove_head h hd sp k = some (h, 0, sp) := by
  simp only [q_remove_head, isQueue_hd_ne_zero q, if_false, isQueue_next_hd q,
    Option.bind_eq_bind, Option.some_bind, e, if_true]

theorem q_remove_tail_nullvalue {h : Heap} {hd : Ptr} {l : List Ptr} (q : IsQueue h hd l)
    (e : getValue h (l.getLastD hd) = some none) (sp : Option Bytes) (k : Nat) :
    q_remove_tail h hd sp k = some (h, 0, sp) := by
  simp only [q_remove_tail, isQueue_hd_ne_zero q, if_false, isQueue_prev_hd q,
    Option.bind_eq_bind, Option.some_bind, e, if_true]

/-- Removing the head of a queue whose first element has a payload. -/
theorem q_remove_head_ok {h : Heap} {hd x : Ptr} {l : List Ptr} {v : Bytes}
    (q : IsQueue h hd (x :: l)) (e : getValue h x = some (some v))
    (sp : Option Bytes) (k : Nat) :
    ∃ h1, q_remove_head h hd sp k = (copy_out h x sp k).map (fun o => (h1, x, o)) ∧
      IsQueue h1 hd l ∧
      (∀ r, getValue h1 r = getValue h r) ∧
      (∀ r, Live h1 r ↔ Live h r) ∧
      (∀ r, r ∉ hd :: l → h1 r = h r) := by
  have hd0 := isQueue_hd_ne_zero q
  have hnext := isQueue_next_hd q
  have hlive := isQueue_live q
  obtain ⟨hxn, hxp⟩ := @isQueue_mid h hd x [] l q
  have hmem := headD_mem l hd
  have hnd := q.1
  have hq := fun h1 => @isQueue_unlink h h1 hd x [] l q
  simp only [List.getLastD_nil, List.nil_append, List.headD_cons] at hq hxp hnext
  have ln := hlive (l.headD hd) (by
    simp only [List.mem_cons] at hmem ⊢; tauto)
  have lh := hlive hd (by simp)
  have hxh : x ≠ hd := by
    intro e1; simp [e1] at hnd
  generalize l.headD hd = n at *
  by_cases hn : n = hd
  · subst hn
    refine ⟨updNext (updPrev h n n) n n, ?_, ?_, ?_, ?_, ?_⟩
    · simp only [q_remove_head, hd0, if_false, hnext, Option.bind_eq_bind, Option.some_bind, e,
        hxn, hxp, ne_eq, not_true_eq_false, if_false]
      rw [setPrev_live _ lh]
      simp only [Option.some_bind]
      rw [setNext_live _ (by simpa using lh)]
      simp only [Option.some_bind]
      rw [@copy_out_congr h (updNext (updPrev h n n) n n) x (by simp) sp k]
      cases copy_out h x sp k <;> rfl
    · apply hq
      · simp [lh]
      · simp [lh]
      · intro r h1 h2; simp [h1]
      · intro r h1 h2; simp [h1]
    · intro r; simp
    · intro r; simp
    · intro r hr
      simp only [List.mem_cons, not_or] at hr
      simp [updNext, updPrev, modify, hr.1]
  · refine ⟨updPrev (updNext h hd n) n hd, ?_, ?_, ?_, ?_, ?_⟩
    · simp only [q_remove_head, hd0, if_false, hnext, Option.bind_eq_bind, Option.some_bind, e,
        hxn, hxp, ne_eq, hn, not_false_eq_true, if_true]
      rw [setNext_live _ lh]
      simp only [Option.some_bind, next_updNext, hxh, false_and, if_false, hxn]
      rw [setPrev_live _ (by simpa using ln)]
      simp only [Option.some_bind]
      rw [@copy_out_congr h (updPrev (updNext h hd n) n hd) x (by simp) sp k]
      cases copy_out h x sp k <;> rfl
    · apply hq
      · simp [lh, hn]
      · simp [ln]
      · intro r h1 h2; simp [h1]
      · intro r h1 h2; simp [h1]
    · intro r; simp
    · intro r; simp
    · intro r hr
      simp only [List.mem_cons, not_or] at hr hmem
      have hrn : r ≠ n := by
        rintro rfl
        tauto
      simp [updNext, updPrev, modify, hr.1, hrn]

/-- Removing the tail of a queue whose last element has a payload. -/
theorem q_remove_tail_ok {h : Heap} {hd x : Ptr} {l : List Ptr} {v : Bytes}
    (q : IsQueue h hd (l ++ [x])) (e : getValue h x = some (some v))
    (sp : Option Bytes) (k : Nat) :
    ∃ h1, q_remove_tail h hd sp k = (copy_out h x sp k).map (fun o => (h1, x, o)) ∧
      IsQueue h1 hd l ∧
      (∀ r, getValue h1 r = getValue h r) ∧
      (∀ r, Live h1 r ↔ Live h r) ∧
      (∀ r, r ∉ hd :: l → h1 r = h r) := by
  have hd0 := isQueue_hd_ne_zero q
  have hprev := isQueue_prev_hd q
  have hlive := isQueue_live q
  obtain ⟨hxn, hxp⟩ := @isQueue_mid h hd x l [] q
  have hmem := getLastD_mem l hd
  have hnd := q.1
  have hq := fun h1 => @isQueue_unlink h h1 hd x l [] q
  simp only [List.headD_nil, List.append_nil, List.getLastD_concat] at hq hxn hprev
  have ln := hlive (l.getLastD hd) (by
    simp only [List.mem_cons, List.mem_append] at hmem ⊢; tauto)
  have lh := hlive hd (by simp)
  have hxh : x ≠ hd := by
    intro e1; simp [e1] at hnd
  generalize l.getLastD hd = p at *
  by_cases hn : p = hd
  · subst hn
    refine ⟨updNext (updPrev h p p) p p, ?_, ?_, ?_, ?_, ?_⟩
    · simp only [q_remove_tail, hd0, if_false, hprev, Option.bind_eq_bind, Option.some_bind, e,
        hxn, hxp, ne_eq, not_true_eq_false, if_false]
      rw [setPrev_live _ lh]
      simp only [Option.some_bind]
      rw [setNext_live _ (by simpa using lh)]
      simp only [Option.some_bind]
      rw [@copy_out_congr h (updNext (updPrev h p p) p p) x (by simp) sp k]
      cases copy_out h x sp k <;> rfl
    · apply hq
      · simp [lh]
      · simp [lh]
      · intro r h1 h2; simp [h1]
      · intro r h1 h2; simp [h1]
    · intro r; simp
    · intro r; simp
    · intro r hr
      simp only [List.mem_cons, not_or] at hr
      simp [updNext, updPrev, modify, hr.1]
  · refine ⟨updNext (updPrev h hd p) p hd, ?_, ?_, ?_, ?_, ?_⟩
    · simp only [q_remove_tail, hd0, if_false, hprev, Option.bind_eq_bind, Option.some_bind, e,
        hxn, hxp, ne_eq, Ne.symm hn, not_false_eq_true, if_true]
      rw [setPrev_live _ lh]
      simp only [Option.some_bind, prev_updPrev, hxh, false_and, if_false, hxp]
      rw [setNext_live _ (by simpa using ln)]
      simp only [Option.some_bind]
      rw [@copy_out_congr h (updNext (updPrev h hd p) p hd) x (by simp) sp k]
      cases copy_out h x sp k <;> rfl
    · apply hq
      · simp [ln]
      · simp [lh, hn, Ne.symm hn]
      · intro r h1 h2; simp [h1]
      · intro r h1 h2; simp [h1]
    · intro r; simp
    · intro r; simp
    · intro r hr
      simp only [List.mem_cons, not_or] at hr hmem
      have hrn : r ≠ p := by
        rintro rfl
        tauto
      simp [updNext, updPrev, modify, hr.1, hrn]

/-- The emptiness test of `q_remove_head` fails on an empty queue whose sentinel carries a
payload: the sentinel itself is returned, its links rewritten with the values they hold. -/
theorem q_remove_head_sentinel {h : Heap} {hd : Ptr} {v : Bytes} (q : IsQueue h hd [])
    (e : getValue h hd = some (some v)) (sp : Option Bytes) (k : Nat) :
    q_remove_head h hd sp k = (copy_out h hd sp k).map (fun o => (h, hd, o)) := by
  have hd0 := isQueue_hd_ne_zero q
  have hnext := isQueue_next_hd q
  have hprev := isQueue_prev_hd q
  have lh := isQueue_live q hd (by simp)
  simp only [List.headD_nil, List.getLastD_nil] at hnext hprev
  simp only [q_remove_head, hd0, if_false, hnext, Option.bind_eq_bind, Option.some_bind, e,
    hprev, ne_eq, not_true_eq_false, if_false]
  rw [setPrev_live _ lh]
  simp only [Option.some_bind]
  rw [setNext_live _ (by simpa using lh), relink_self hnext hprev]
  simp only [Option.some_bind]
  cases copy_out h hd sp k <;> rfl

theorem q_remove_tail_sentinel {h : Heap} {hd : Ptr} {v : Bytes} (q : IsQueue h hd [])
    (e : getValue h hd = some (some v)) (sp : Option Bytes) (k : Nat) :
    q_remove_tail h hd sp k = (copy_out h hd sp k).map (fun o => (h, hd, o)) := by
  have hd0 := isQueue_hd_ne_zero q
  have hnext := isQueue_next_hd q
  have hprev := isQueue_prev_hd q
  have lh := isQueue_live q hd (by simp)
  simp only [List.headD_nil, List.getLastD_nil] at hnext hprev
  simp only [q_remove_tail, hd0, if_false, hnext, Option.bind_eq_bind, Option.some_bind, e,
    hprev, ne_eq, not_true_eq_false, if_false]
  rw [setPrev_live _ lh]
  simp only [Option.some_bind]
  rw [setNext_live _ (by simpa using lh), relink_self hnext hprev]
  simp only [Option.some_bind]
  cases copy_out h hd sp k <;> rfl

theorem path_tail {h : Heap} {a : Ptr} {L : List Ptr} (hp : Path h (a :: L)) : Path h L := by
  cases L with
  | nil => trivial
  | cons b L => exact hp.2

theorem path_head_next {h : Heap} {a hd : Ptr} {l : List Ptr} (hp : Path h (a :: (l ++ [hd]))) :
    getNext h a = some (l.headD hd) := by
  cases l with
  | nil => exact hp.1.1
  | cons b l => exact hp.1.1

theorem INT_MAX_eq : INT_MAX = 2 ^ 31 - 1 := rfl

theorem int_incr_ok {len : Nat} (hl : len < INT_MAX) : int_incr len = some (len + 1) := by
  simp [int_incr, hl]

theorem int_incr_some {len n : Nat} (hi : int_incr len = some n) :
    n = len + 1 ∧ len < INT_MAX := by
  unfold int_incr at hi
  split at hi
  · exact ⟨(Option.some.inj hi).symm, by assumption⟩
  · cases hi

theorem q_size_loop_path {h : Heap} {hd : Ptr} :
    ∀ (l : List Ptr) (fuel len : Nat), Path h (l ++ [hd]) → hd ∉ l → l.length < fuel →
      len + l.length ≤ INT_MAX →
      q_size_loop fuel h hd (l.headD hd) len = some (len + l.length) := by
  intro l
  induction l with
  | nil =>
    intro fuel len _ _ hf _
    obtain ⟨f, rfl⟩ : ∃ f, fuel = f + 1 := ⟨fuel - 1, by simp at hf; omega⟩
    simp [q_size_loop]
  | cons x l ih =>
    intro fuel len hp hm hf hb
    obtain ⟨f, rfl⟩ : ∃ f, fuel = f + 1 := ⟨fuel - 1, by simp at hf; omega⟩
    have hx : x ≠ hd := fun e => hm (by simp [e])
    have hn := path_head_next (by simpa using hp)
    have hi : int_incr len = some (len + 1) :=
      int_incr_ok (by simp only [List.length_cons] at hb; omega)
    simp only [q_size_loop, List.headD_cons, ne_eq, hx, not_false_eq_true, if_true, hn, hi,
      Option.bind_eq_bind, Option.some_bind]
    rw [ih f (len + 1) (path_tail (by simpa using hp)) (fun e => hm (by simp [e]))
      (by simp at hf; omega) (by simp only [List.length_cons] at hb; omega)]
    simp only [List.length_cons]
    congr 1
    omega

theorem q_size_ok {h : Heap} {hd : Ptr} {l : List Ptr} (q : IsQueue h hd l) {fuel : Nat}
    (hf : l.length < fuel) (hb : l.length < 2 ^ 31) : q_size fuel h hd = some l.length := by
  have hd0 := isQueue_hd_ne_zero q
  have hnd := q.1
  simp only [q_size, hd0, if_false, isQueue_next_hd q, Option.bind_eq_bind, Option.some_bind]
  rw [q_size_loop_path l fuel 0 (path_tail q.2) (by simp at hnd; exact hnd.1) hf
    (by rw [INT_MAX_eq]; omega)]
  simp

theorem q_size_null (fuel : Nat) (h : Heap) : q_size fuel h 0 = some 0 := by
  simp [q_size]

theorem q_delete_mid_loop_path {h : Heap} :
    ∀ (k : Nat) (a : Ptr) (L : List Ptr), Path h (a :: L) → k ≤ L.length →
      q_delete_mid_loop h k a = (a :: L)[k]? := by
  intro k
  induction k with
  | zero => intro a L _ _; simp [q_delete_mid_loop]
  | succ k ih =>
    intro a L hp hk
    cases L with
    | nil => simp at hk
    | cons b L =>
      simp only [q_delete_mid_loop, hp.1.1, Option.bind_eq_bind, Option.some_bind]
      rw [ih b L hp.2 (by simpa using hk)]
      simp

theorem q_delete_mid_null (fuel : Nat) (h : Heap) : q_delete_mid fuel h 0 = some (h, false) := by
  simp [q_delete_mid, q_size_null]

theorem q_delete_mid_empty {h : Heap} {hd : Ptr} (q : IsQueue h hd []) {fuel : Nat}
    (hf : 0 < fuel) : q_delete_mid fuel h hd = some (h, false) := by
  have := @q_size_ok h hd [] q fuel (by simpa using hf) (by simp)
  simp [q_delete_mid, this]

/-- Deleting the middle node `x` of `l1 ++ x :: l2`, where `l1` has `n / 2` nodes. -/
theorem q_delete_mid_ok {h : Heap} {hd x : Ptr} {l1 l2 : List Ptr}
    (q : IsQueue h hd (l1 ++ x :: l2)) (hm : l1.length = (l1 ++ x :: l2).length / 2)
    {fuel : Nat} (hf : (l1 ++ x :: l2).length < fuel)
    (hb : (l1 ++ x :: l2).length < 2 ^ 31) :
    ∃ h1, q_delete_mid fuel h hd = some (h1, true) ∧
      IsQueue h1 hd (l1 ++ l2) ∧
      (∀ r, r ≠ x → getValue h1 r = getValue h r) ∧
      (∀ r, Live h1 r ↔ r ≠ x ∧ Live h r) ∧
      (∀ r, r ∉ hd :: (l1 ++ x :: l2) → h1 r = h r) := by
  have hlive := isQueue_live q
  obtain ⟨hxn, hxp⟩ := isQueue_mid q
  have hmemn := headD_mem l2 hd
  have hmemp := getLastD_mem l1 hd
  have hnd := q.1
  have hq := fun h1 => @isQueue_unlink h h1 hd x l1 l2 q
  have ln := hlive (l2.headD hd) (by
    simp only [List.mem_cons, List.mem_append] at hmemn ⊢; tauto)
  have lp := hlive (l1.getLastD hd) (by
    simp only [List.mem_cons, List.mem_append] at hmemp ⊢; tauto)
  have lx := hlive x (by simp)
  have hwalk : q_delete_mid_loop h ((l1 ++ x :: l2).length / 2 + 1) hd = some x := by
    rw [q_delete_mid_loop_path _ hd ((l1 ++ x :: l2) ++ [hd]) q.2 (by
      simp only [List.length_append, List.length_cons, List.length_nil]; omega)]
    rw [← hm]
    simp only [List.append_assoc, List.cons_append, List.getElem?_cons_succ]
    rw [List.getElem?_append_right (le_refl _)]
    simp
  have hxn' : x ≠ l2.headD hd := by
    intro e1
    rw [← e1] at hmemn
    simp only [List.nodup_cons, List.nodup_append, List.mem_append, List.mem_cons] at hnd hmemn
    tauto
  have hxp' : x ≠ l1.getLastD hd := by
    intro e1
    rw [← e1] at hmemp
    simp only [List.nodup_cons, List.nodup_append, List.mem_append, List.mem_cons] at hnd hmemp
    tauto
  have hne : (l1 ++ x :: l2).length ≠ 0 := by simp
  generalize l2.headD hd = n at *
  generalize l1.getLastD hd = p at *
  refine ⟨dealloc (updNext (updPrev h n p) p n) x, ?_, ?_, ?_, ?_, ?_⟩
  · simp only [q_delete_mid, q_size_ok q hf hb, Option.bind_eq_bind, Option.some_bind, hne,
      if_false, hwalk, list_del_eq hxn hxp ln lp, q_release_element]
    have lx' : Live (updNext (updPrev h n p) p n) x := by simpa using lx
    obtain ⟨w, hw⟩ : ∃ w, getValue (updNext (updPrev h n p) p n) x = some w := by
      unfold Live at lx'
      unfold getValue
      rcases hr : rd (updNext (updPrev h n p) p n) x with _ | c
      · simp [hr] at lx'
      · exact ⟨_, rfl⟩
    rw [hw]
    simp only [Option.some_bind]
    rw [free_live lx']
    rfl
  · apply hq
    · simp [lp, Ne.symm hxp']
    · simp [ln, Ne.symm hxn']
    · intro r h1 h2; simp [h1, h2]
    · intro r h1 h2; simp [h1, h2]
  · intro r hr; simp [hr]
  · intro r; simp
  · intro r hr
    simp only [List.mem_cons, List.mem_append, not_or] at hr hmemn hmemp
    have hrn : r ≠ n := by
      rintro rfl
      tauto
    have hrp : r ≠ p := by
      rintro rfl
      tauto
    simp [dealloc, updNext, updPrev, modify, hr.2.2.1, hrn, hrp]

theorem q_swap_loop_ok {hd : Ptr} :
    ∀ (m : Nat) (rest done : List Ptr) (hc : Heap) (fuel : Nat) (n2 : Ptr),
      rest.length ≤ m → IsQueue hc hd (done ++ rest) →
      getNext hc (rest.headD hd) = some n2 → rest.length < fuel →
      ∃ h1, q_swap_loop fuel hc hd (rest.headD hd) n2 = some h1 ∧
        IsQueue h1 hd (done ++ swapPairs rest) ∧
        (∀ r, getValue h1 r = getValue hc r) ∧
        (∀ r, Live h1 r ↔ Live hc r) ∧
        (∀ r, r ∉ hd :: (done ++ rest) → h1 r = hc r) := by
  intro m
  induction m with
  | zero =>
    intro rest done hc fuel n2 hm q _ hf
    obtain rfl : rest = [] := List.length_eq_zero.1 (Nat.le_zero.1 hm)
    obtain ⟨f, rfl⟩ : ∃ f, fuel = f + 1 := ⟨fuel - 1, by simp at hf; omega⟩
    exact ⟨hc, by simp [q_swap_loop], by simpa [swapPairs] using q, fun _ => rfl,
      fun _ => Iff.rfl, fun _ _ => rfl⟩
  | succ m ih =>
    intro rest done hc fuel n2 hm q hn2 hf
    obtain ⟨f, rfl⟩ : ∃ f, fuel = f + 1 := ⟨fuel - 1, by omega⟩
    match rest, hm, q, hn2, hf with
    | [], _, q, _, _ =>
      exact ⟨hc, by simp [q_swap_loop], by simpa [swapPairs] using q, fun _ => rfl,
        fun _ => Iff.rfl, fun _ _ => rfl⟩
    | [x], _, q, hn2, _ =>
      have hx := (isQueue_mid q).1
      simp only [List.headD_cons, List.headD_nil] at hn2 hx
      rw [hx] at hn2
      have e2 : hd = n2 := Option.some.inj hn2
      subst e2
      exact ⟨hc, by simp [q_swap_loop], by simpa [swapPairs] using q, fun _ => rfl,
        fun _ => Iff.rfl, fun _ _ => rfl⟩
    | x :: y :: rest, hm, q, hn2, hf =>
      have hlive := isQueue_live q
      have hnd := q.1
      obtain ⟨hxn, hxp⟩ := isQueue_mid q
      have q' : IsQueue hc hd ((done ++ [x]) ++ y :: rest) := by simpa using q
      obtain ⟨hyn, _⟩ := isQueue_mid q'
      simp only [List.headD_cons] at hn2 hxn
      rw [hxn] at hn2
      have e2 : y = n2 := Option.some.inj hn2
      subst e2
      have hmemn := headD_mem rest hd
      have hmemp := getLastD_mem done hd
      have hsw := fun h1 => @isQueue_swap hc h1 hd x y done rest q
      have ln := hlive (rest.headD hd) (by
        simp only [List.mem_cons, List.mem_append] at hmemn ⊢; tauto)
      have lp := hlive (done.getLastD hd) (by
        simp only [List.mem_cons, List.mem_append] at hmemp ⊢; tauto)
      have lx := hlive x (by simp)
      have ly := hlive y (by simp)
      have hnd1 := hnd
      simp only [List.nodup_cons, List.nodup_append, List.mem_append, List.mem_cons,
        List.disjoint_cons_right] at hnd1 hmemn hmemp
      have hxy : x ≠ y := by tauto
      have hxh : x ≠ hd := by rintro rfl; tauto
      have hyh : y ≠ hd := by rintro rfl; tauto
      have hxp1 : x ≠ done.getLastD hd := by
        intro e1; rw [← e1] at hmemp; tauto
      have hyp1 : y ≠ done.getLastD hd := by
        intro e1; rw [← e1] at hmemp; tauto
      have hxn1 : x ≠ rest.headD hd := by
        intro e1; rw [← e1] at hmemn; tauto
      have hyn1 : y ≠ rest.headD hd := by
        intro e1; rw [← e1] at hmemn; tauto
      have ihr := fun hc1 n3 => ih rest (done ++ [y, x]) hc1 f n3 (by simp at hm; omega)
      generalize rest.headD hd = n at *
      generalize done.getLastD hd = p at *
      set h6 := updPrev (updNext (updPrev (updNext (updPrev (updNext hc p y) y p) y x) n x) x n)
        x y with hh6
      have ln6 : Live h6 n := by simpa [hh6] using ln
      obtain ⟨n3, hn3⟩ := live_iff_next.1 ln6
      have q6 : IsQueue h6 hd (done ++ y :: x :: rest) := by
        apply hsw
        · simp [hh6, lp, Ne.symm hxp1, Ne.symm hyp1]
        · simp [hh6, ly, hyn1, Ne.symm hxy]
        · simp [hh6, ly, Ne.symm hxy]
        · simp [hh6, lx]
        · simp [hh6, lx]
        · simp [hh6, ln, Ne.symm hxn1]
        · intro r h1 h2 h3; simp [hh6, h1, h2, h3]
        · intro r h1 h2 h3; simp [hh6, h1, h2, h3]
      obtain ⟨h1, hr, hq1, hv1, hl1, hf1⟩ := ihr h6 n3 (by simpa using q6) hn3
        (by simp at hf; omega)
      refine ⟨h1, ?_, ?_, ?_, ?_, ?_⟩
      · simp only [q_swap_loop, List.headD_cons, ne_eq, hxh, hyh, not_false_eq_true, and_self,
          if_true, hxp, Option.bind_eq_bind, Option.some_bind]
        rw [setNext_live _ lp]; simp only [Option.some_bind]
        rw [setPrev_live _ (by simpa using ly)]; simp only [Option.some_bind]
        have : getNext (updPrev (updNext hc p y) y p) y = some n := by
          simp [hyp1, hyn]
        rw [this]; simp only [Option.some_bind]
        rw [setNext_live _ (by simpa using ly)]; simp only [Option.some_bind]
        rw [setPrev_live _ (by simpa using ln)]; simp only [Option.some_bind]
        rw [setNext_live _ (by simpa using lx)]; simp only [Option.some_bind]
        rw [setPrev_live _ (by simpa using lx)]; simp only [Option.some_bind]
        rw [← hh6]
        have : getNext h6 x = some n := by simp [hh6, lx]
        rw [this]; simp only [Option.some_bind]
        rw [hn3]; simp only [Option.some_bind]
        exact hr
      · simpa [swapPairs] using hq1
      · intro r; rw [hv1 r]; simp [hh6]
      · intro r; rw [hl1 r]; simp [hh6]
      · intro r hr
        rw [hf1 r (by simp only [List.mem_cons, List.mem_append, not_or] at hr ⊢; tauto)]
        simp only [List.mem_cons, List.mem_append, not_or] at hr
        have hrn : r ≠ n := by rintro rfl; tauto
        have hrp : r ≠ p := by rintro rfl; tauto
        simp [hh6, updNext, updPrev, modify, hr.2.2.1, hr.2.2.2.1, hrn, hrp]

theorem q_swap_null (fuel : Nat) (h : Heap) : q_swap fuel h 0 = some h := by
  simp [q_swap]

theorem q_swap_ok {h : Heap} {hd : Ptr} {l : List Ptr} (q : IsQueue h hd l) {fuel : Nat}
    (hf : l.length < fuel) :
    ∃ h1, q_swap fuel h hd = some h1 ∧
      IsQueue h1 hd (swapPairs l) ∧
      (∀ r, getValue h1 r = getValue h r) ∧
      (∀ r, Live h1 r ↔ Live h r) ∧
      (∀ r, r ∉ hd :: l → h1 r = h r) ∧
      (l.length ≤ 1 → h1 = h) := by
  have hd0 := isQueue_hd_ne_zero q
  have hnext := isQueue_next_hd q
  have hnd := q.1
  match l, q, hf, hnext, hnd with
  | [], q, _, hnext, _ =>
    simp only [List.headD_nil] at hnext
    exact ⟨h, by simp [q_swap, hd0, hnext], by simpa [swapPairs] using q, fun _ => rfl,
      fun _ => Iff.rfl, fun _ _ => rfl, fun _ => rfl⟩
  | [x], q, hf, hnext, hnd =>
    simp only [List.headD_cons] at hnext
    have hx := (@isQueue_mid h hd x [] [] q).1
    simp only [List.headD_nil] at hx
    have hxh : x ≠ hd := by rintro rfl; simp at hnd
    obtain ⟨f, rfl⟩ : ∃ f, fuel = f + 1 := ⟨fuel - 1, by simp at hf; omega⟩
    exact ⟨h, by simp [q_swap, hd0, hnext, hx, hxh, q_swap_loop],
      by simpa [swapPairs] using q, fun _ => rfl, fun _ => Iff.rfl, fun _ _ => rfl, fun _ => rfl⟩
  | x :: y :: l, q, hf, hnext, hnd =>
    simp only [List.headD_cons] at hnext
    have hx := (@isQueue_mid h hd x [] (y :: l) q).1
    have hxh : x ≠ hd := by rintro rfl; simp at hnd
    obtain ⟨h1, hr, hq, hv, hl, hfr⟩ := @q_swap_loop_ok hd (x :: y :: l).length (x :: y :: l) [] h
      fuel _ (le_refl _) (by simpa using q) hx hf
    refine ⟨h1, ?_, by simpa using hq, hv, hl, by simpa using hfr, ?_⟩
    · simp only [q_swap, hd0, if_false, hnext, Option.bind_eq_bind, Option.some_bind, hxh, hx]
      simpa using hr
    · intro hlen; simp at hlen

theorem swapPairs_length : ∀ l : List Ptr, (swapPairs l).length = l.length
  | [] => rfl
  | [_] => rfl
  | x :: y :: l => by simp [swapPairs, swapPairs_length l]

theorem swapPairs_perm : ∀ l : List Ptr, (swapPairs l).Perm l
  | [] => List.Perm.refl _
  | [_] => List.Perm.refl _
  | x :: y :: l => by
    simp only [swapPairs]
    exact (List.Perm.swap x y _).trans (((swapPairs_perm l).cons y).cons x)

/-- The two elements of every pair change places. -/
theorem swapPairs_pair : ∀ (l : List Ptr) (i : Nat), 2 * i + 1 < l.length →
    (swapPairs l)[2 * i]? = l[2 * i + 1]? ∧ (swapPairs l)[2 * i + 1]? = l[2 * i]?
  | [], i, hi => by simp at hi
  | [_], i, hi => by simp at hi
  | x :: y :: l, 0, _ => by simp [swapPairs]
  | x :: y :: l, i + 1, hi => by
    have := swapPairs_pair l i (by simp at hi; omega)
    have e1 : 2 * (i + 1) = 2 * i + 1 + 1 := by omega
    simp only [swapPairs, e1, List.getElem?_cons_succ]
    exact this

/-- The unpaired last element of a list of odd length keeps the last place. -/
theorem swapPairs_last : ∀ (l : List Ptr), l.length % 2 = 1 →
    (swapPairs l)[l.length - 1]? = l[l.length - 1]?
  | [], h => by simp at h
  | [_], _ => by simp [swapPairs]
  | x :: y :: l, h => by
    have := swapPairs_last l (by simp at h; omega)
    have hl : l.length ≠ 0 := by
      intro e; simp [e] at h
    have e1 : (x :: y :: l).length - 1 = (l.length - 1) + 1 + 1 := by simp; omega
    simp only [swapPairs, e1, List.getElem?_cons_succ]
    exact this

theorem swapPairs_swapPairs : ∀ (l : List Ptr), l.length % 2 = 0 → swapPairs (swapPairs l) = l
  | [], _ => rfl
  | [_], h => by simp at h
  | x :: y :: l, h => by
    simp only [swapPairs]
    rw [swapPairs_swapPairs l (by simp at h; omega)]

theorem rd_flipLinks (S : List Ptr) (h : Heap) (r : Ptr) :
    rd (flipLinks S h) r = if r ∈ S then (rd h r).map swapLinks else rd h r := by
  unfold rd flipLinks
  by_cases h0 : r = 0 <;> by_cases hs : r ∈ S <;> simp [h0, hs]

@[simp] theorem next_flipLinks (S : List Ptr) (h : Heap) (r : Ptr) :
    getNext (flipLinks S h) r = if r ∈ S then getPrev h r else getNext h r := by
  unfold getNext getPrev; rw [rd_flipLinks]
  split
  · rcases rd h r with _ | e <;> simp [swapLinks]
  · rfl

@[simp] theorem prev_flipLinks (S : List Ptr) (h : Heap) (r : Ptr) :
    getPrev (flipLinks S h) r = if r ∈ S then getNext h r else getPrev h r := by
  unfold getNext getPrev; rw [rd_flipLinks]
  split
  · rcases rd h r with _ | e <;> simp [swapLinks]
  · rfl

@[simp] theorem value_flipLinks (S : List Ptr) (h : Heap) (r : Ptr) :
    getValue (flipLinks S h) r = getValue h r := by
  unfold getValue; rw [rd_flipLinks]
  split
  · rcases rd h r with _ | e <;> simp [swapLinks]
  · rfl

@[simp] theorem live_flipLinks (S : List Ptr) (h : Heap) (r : Ptr) :
    Live (flipLinks S h) r ↔ Live h r := by
  unfold Live; rw [rd_flipLinks]
  split
  · rcases rd h r with _ | e <;> simp
  · rfl

theorem flipLinks_congr {S T : List Ptr} (h : Heap) (e : ∀ r, r ∈ S ↔ r ∈ T) :
    flipLinks S h = flipLinks T h := by
  funext r
  unfold flipLinks
  by_cases hs : r ∈ S
  · simp [hs, (e r).1 hs]
  · have ht : r ∉ T := fun ht => hs ((e r).2 ht)
    simp [hs, ht]

theorem flipLinks_flipLinks (S : List Ptr) (h : Heap) : flipLinks S (flipLinks S h) = h := by
  funext r
  unfold flipLinks
  by_cases hs : r ∈ S
  · simp only [hs, if_true]
    rcases h r with _ | e
    · rfl
    · simp [swapLinks]
  · simp [hs]

theorem flipLinks_outside (S : List Ptr) (h : Heap) {r : Ptr} (hr : r ∉ S) :
    flipLinks S h r = h r := by
  simp [flipLinks, hr]

/-- Exchanging the links of nodes whose two links are equal changes nothing. -/
theorem flipLinks_same {S : List Ptr} {h : Heap}
    (e : ∀ r ∈ S, ∃ q, getNext h r = some q ∧ getPrev h r = some q) : flipLinks S h = h := by
  funext r
  unfold flipLinks
  by_cases hs : r ∈ S
  · obtain ⟨q, e1, e2⟩ := e r hs
    obtain ⟨c, hc, hcn⟩ := heap_of_next e1
    obtain ⟨c1, hc1, hcp⟩ := heap_of_prev e2
    rw [hc] at hc1; cases hc1
    simp only [hs, if_true, hc, Option.map_some', swapLinks]
    cases c; simp_all
  · simp [hs]

/-- One round of the loop of `q_reverse` exchanges the links of `node`. -/
theorem flip_step {h : Heap} {done : List Ptr} {node p x : Ptr} (e1 : getPrev h node = some p)
    (e2 : getNext h node = some x) (hn : node ∉ done) :
    updPrev (updNext (flipLinks done h) node p) node x = flipLinks (done ++ [node]) h := by
  obtain ⟨c, hc, hcn⟩ := heap_of_next e2
  obtain ⟨c1, hc1, hcp⟩ := heap_of_prev e1
  rw [hc] at hc1; cases hc1
  funext r
  unfold updPrev updNext modify flipLinks
  by_cases hr : r = node
  · subst hr
    simp [hn, hc, swapLinks, hcn, hcp]
  · simp [hr]

theorem q_reverse_loop_ok {h : Heap} {hd : Ptr} :
    ∀ (todo done : List Ptr) (node : Ptr) (fuel : Nat),
      Path h (node :: (todo ++ [hd])) → (done ++ node :: todo).Nodup → hd ∉ todo →
      Live h node → todo.length < fuel →
      q_reverse_loop fuel (flipLinks done h) hd node (todo.headD hd)
        = some (flipLinks (done ++ (node :: todo).dropLast) h, todo.getLastD node, hd) := by
  intro todo
  induction todo with
  | nil =>
    intro done node fuel _ _ _ _ hf
    obtain ⟨f, rfl⟩ : ∃ f, fuel = f + 1 := ⟨fuel - 1, by simp at hf; omega⟩
    simp [q_reverse_loop]
  | cons x todo ih =>
    intro done node fuel hp hnd hm hl hf
    obtain ⟨f, rfl⟩ : ∃ f, fuel = f + 1 := ⟨fuel - 1, by simp at hf; omega⟩
    have hx : x ≠ hd := fun e => hm (by simp [e])
    obtain ⟨p, hpv⟩ := live_iff_prev.1 hl
    have hnx : getNext h node = some x := hp.1.1
    have hp2 : Path h (x :: (todo ++ [hd])) := hp.2
    have hnd1 := hnd
    simp only [List.nodup_cons, List.nodup_append, List.mem_append, List.mem_cons,
      List.disjoint_cons_right] at hnd1
    have hnode : node ∉ done := by tauto
    have hxd : x ∉ done ++ [node] := by
      simp only [List.mem_append, List.mem_singleton, not_or]
      exact ⟨by tauto, fun e => by subst e; tauto⟩
    have lx : Live h x := live_of_next (path_head_next hp2)
    have hstep := ih (done ++ [node]) x f hp2 (by simpa using hnd)
      (fun e => hm (by simp [e])) lx (by simp at hf; omega)
    simp only [q_reverse_loop, List.headD_cons, ne_eq, hx, not_false_eq_true, if_true,
      prev_flipLinks, hnode, if_false, hpv, Option.bind_eq_bind, Option.some_bind]
    rw [setNext_live _ (by simpa using hl)]; simp only [Option.some_bind]
    rw [setPrev_live _ (by simpa using hl)]; simp only [Option.some_bind]
    rw [flip_step hpv hnx hnode]
    simp only [next_flipLinks, hxd, if_false, path_head_next hp2, Option.some_bind]
    rw [hstep, List.getLastD_cons, List.dropLast_cons_of_ne_nil (List.cons_ne_nil x todo)]
    simp only [List.append_assoc, List.singleton_append]

theorem q_reverse_null (fuel : Nat) (h : Heap) : q_reverse fuel h 0 = some h := by
  simp [q_reverse]

/-- The function `q_reverse` exchanges the two links of every node of the cycle. -/
theorem q_reverse_eq {h : Heap} {hd : Ptr} {l : List Ptr} (q : IsQueue h hd l) {fuel : Nat}
    (hf : l.length < fuel) : q_reverse fuel h hd = some (flipLinks (hd :: l) h) := by
  have hd0 := isQueue_hd_ne_zero q
  have hnext := isQueue_next_hd q
  have hprev := isQueue_prev_hd q
  have hlive := isQueue_live q
  have hnd := q.1
  rcases List.eq_nil_or_concat l with rfl | ⟨l0, x, rfl⟩
  · simp only [List.headD_nil, List.getLastD_nil] at hnext hprev
    simp only [q_reverse, hd0, if_false, hnext, Option.bind_eq_bind, Option.some_bind, if_true]
    rw [flipLinks_same]
    intro r hr
    simp only [List.mem_singleton] at hr
    subst hr
    exact ⟨r, hnext, hprev⟩
  · simp only [List.concat_eq_append] at *
    have hne : (l0 ++ [x]).headD hd ≠ hd := by
      intro e
      have := headD_mem (l0 ++ [x]) hd
      cases l0 with
      | nil => simp at e; simp [e] at hnd
      | cons y l0 => simp at e; simp [e] at hnd
    have hloop := @q_reverse_loop_ok h hd (l0 ++ [x]) [] hd fuel q.2 (by simpa using hnd)
      (by simp at hnd; simpa using hnd.1) (hlive hd (by simp)) hf
    have hfl : flipLinks [] h = h := by
      funext r; simp [flipLinks]
    rw [hfl] at hloop
    obtain ⟨hxn, hxp⟩ := @isQueue_mid h hd x l0 [] (by simpa using q)
    simp only [List.headD_nil] at hxn
    have hdl : (hd :: (l0 ++ [x])).dropLast = hd :: l0 := by
      rw [← List.cons_append, List.dropLast_concat]
    have hxm : x ∉ hd :: l0 := by
      have h1 := hnd
      rw [← List.cons_append] at h1
      have h2 := (List.nodup_append.1 h1).2.2
      exact fun e => h2 e (by simp)
    have lx := hlive x (by simp)
    simp only [q_reverse, hd0, if_false, hnext, Option.bind_eq_bind, Option.some_bind]
    rw [if_neg hne, hloop]
    simp only [List.nil_append, hdl, Option.some_bind]
    rw [List.getLastD_concat]
    simp only [prev_flipLinks, hxm, if_false, hxp, Option.some_bind]
    rw [setNext_live _ (by simpa using lx)]; simp only [Option.some_bind]
    rw [setPrev_live _ (by simpa using lx)]
    rw [flip_step hxp hxn hxm]
    congr 1

theorem path_reverse {h : Heap} {S : List Ptr} :
    ∀ (L : List Ptr), Path h L → (∀ x ∈ L, x ∈ S) → Path (flipLinks S h) L.reverse := by
  intro L
  induction L with
  | nil => intro _ _; simp
  | cons a L ih =>
    intro hp hs
    cases L with
    | nil => simp
    | cons b L =>
      have ih1 := ih hp.2 (fun x hx => hs x (by simp [hx]))
      have ha : a ∈ S := hs a (by simp)
      have hb : b ∈ S := hs b (by simp)
      have : (a :: b :: L).reverse = L.reverse ++ b :: [a] := by simp
      rw [this, path_split]
      refine ⟨by simpa using ih1, ?_, trivial⟩
      exact ⟨by simp [hb, hp.1.2], by simp [ha, hp.1.1]⟩

theorem isQueue_flip {h : Heap} {hd : Ptr} {l : List Ptr} (q : IsQueue h hd l) :
    IsQueue (flipLinks (hd :: l) h) hd l.reverse := by
  refine ⟨?_, ?_⟩
  · have := q.1
    simp only [List.nodup_cons, List.mem_reverse, List.nodup_reverse] at this ⊢
    exact this
  · have := @path_reverse h (hd :: l) (hd :: l ++ [hd]) q.2 (by
      intro x hx
      simp only [List.cons_append, List.mem_cons, List.mem_append, List.mem_singleton] at hx ⊢
      tauto)
    simpa using this

theorem isQueue_linksAgree {h : Heap} {hd : Ptr} {l : List Ptr} (q : IsQueue h hd l) :
    ∀ n ∈ hd :: l, LinksAgree h n := by
  have hnext := isQueue_next_hd q
  have hprev := isQueue_prev_hd q
  intro n hn
  rcases List.mem_cons.1 hn with rfl | hn
  · constructor
    · rw [hprev]
      simp only [Option.some_bind]
      rcases List.eq_nil_or_concat l with rfl | ⟨l0, p, rfl⟩
      · simpa using hnext
      · simp only [List.concat_eq_append, List.getLastD_concat]
        have := (@isQueue_mid h n p l0 [] (by simpa using q)).1
        simpa using this
    · rw [hnext]
      simp only [Option.some_bind]
      cases l with
      | nil => simpa using hprev
      | cons x l =>
        simp only [List.headD_cons]
        have := (@isQueue_mid h n x [] l q).2
        simpa using this
  · obtain ⟨l1, l2, rfl⟩ := List.append_of_mem hn
    obtain ⟨e1, e2⟩ := isQueue_mid q
    constructor
    · rw [e2]
      simp only [Option.some_bind]
      rcases List.eq_nil_or_concat l1 with rfl | ⟨l0, p, rfl⟩
      · simpa using hnext
      · simp only [List.concat_eq_append, List.getLastD_concat]
        have := (@isQueue_mid h hd p l0 (n :: l2) (by simpa using q)).1
        simpa using this
    · rw [e1]
      simp only [Option.some_bind]
      cases l2 with
      | nil =>
        simp only [List.headD_nil]
        rw [hprev, List.getLastD_concat]
      | cons x l2 =>
        simp only [List.headD_cons]
        have := (@isQueue_mid h hd x (l1 ++ [n]) l2 (by simpa using q)).2
        rw [this, List.getLastD_concat]

theorem wellFormed_of_isQueue {h : Heap} {hd : Ptr} {l : List Ptr} (q : IsQueue h hd l) :
    WellFormed h hd := ⟨l, q, isQueue_linksAgree q⟩

theorem copy_out_total {h : Heap} {x : Ptr} {v : Bytes} (e : getValue h x = some (some v))
    {sp : Option Bytes} {k : Nat} (hb : BufOk sp k) : ∃ o, copy_out h x sp k = some o := by
  cases sp with
  | none => exact ⟨none, rfl⟩
  | some buf =>
    obtain ⟨h1, h2, h3⟩ := hb buf rfl
    obtain ⟨out, ho, _⟩ := copy_out_some e h1 h2 h3
    exact ⟨some out, ho⟩

theorem value_of_live {h : Heap} {x : Ptr} (lx : Live h x) : ∃ w, getValue h x = some w := by
  unfold Live at lx
  unfold getValue
  rcases hr : rd h x with _ | c
  · simp [hr] at lx
  · exact ⟨_, rfl⟩

theorem q_remove_head_wf {h : Heap} {hd : Ptr} {l : List Ptr} (q : IsQueue h hd l)
    {sp : Option Bytes} {k : Nat} (hb : BufOk sp k) :
    ∃ h1 e o, q_remove_head h hd sp k = some (h1, e, o) ∧ WellFormed h1 hd := by
  have hlive := isQueue_live q
  cases l with
  | nil =>
    obtain ⟨w, hw⟩ := value_of_live (hlive hd (by simp))
    cases w with
    | none =>
      exact ⟨h, 0, sp, q_remove_head_nullvalue q (by simpa using hw) sp k, wellFormed_of_isQueue q⟩
    | some v =>
      obtain ⟨o, ho⟩ := copy_out_total hw hb
      refine ⟨h, hd, o, ?_, wellFormed_of_isQueue q⟩
      rw [q_remove_head_sentinel q hw, ho]; rfl
  | cons x l =>
    obtain ⟨w, hw⟩ := value_of_live (hlive x (by simp))
    cases w with
    | none =>
      exact ⟨h, 0, sp, q_remove_head_nullvalue q (by simpa using hw) sp k, wellFormed_of_isQueue q⟩
    | some v =>
      obtain ⟨o, ho⟩ := copy_out_total hw hb
      obtain ⟨h1, hr, hq, _⟩ := q_remove_head_ok q hw sp k
      refine ⟨h1, x, o, ?_, wellFormed_of_isQueue hq⟩
      rw [hr, ho]; rfl

theorem q_remove_tail_wf {h : Heap} {hd : Ptr} {l : List Ptr} (q : IsQueue h hd l)
    {sp : Option Bytes} {k : Nat} (hb : BufOk sp k) :
    ∃ h1 e o, q_remove_tail h hd sp k = some (h1, e, o) ∧ WellFormed h1 hd := by
  have hlive := isQueue_live q
  rcases List.eq_nil_or_concat l with rfl | ⟨l, x, rfl⟩
  · obtain ⟨w, hw⟩ := value_of_live (hlive hd (by simp))
    cases w with
    | none =>
      exact ⟨h, 0, sp, q_remove_tail_nullvalue q (by simpa using hw) sp k, wellFormed_of_isQueue q⟩
    | some v =>
      obtain ⟨o, ho⟩ := copy_out_total hw hb
      refine ⟨h, hd, o, ?_, wellFormed_of_isQueue q⟩
      rw [q_remove_tail_sentinel q hw, ho]; rfl
  · simp only [List.concat_eq_append] at *
    obtain ⟨w, hw⟩ := value_of_live (hlive x (by simp))
    cases w with
    | none =>
      exact ⟨h, 0, sp, q_remove_tail_nullvalue q (by simpa using hw) sp k, wellFormed_of_isQueue q⟩
    | some v =>
      obtain ⟨o, ho⟩ := copy_out_total hw hb
      obtain ⟨h1, hr, hq, _⟩ := q_remove_tail_ok q hw sp k
      refine ⟨h1, x, o, ?_, wellFormed_of_isQueue hq⟩
      rw [hr, ho]; rfl

theorem q_insert_head_wf {h : Heap} {hd : Ptr} {l : List Ptr} (q : IsQueue h hd l)
    (fuel : Nat) (s : Bytes) {a : Ptr} {b : Option Bytes} (ha : MallocOk h a)
    (hb : BlockOk b (1 + strlen s)) :
    ∃ h1 r, q_insert_head fuel h hd s a b = some (h1, r) ∧ WellFormed h1 hd := by
  by_cases ha0 : a = 0
  · subst ha0
    exact ⟨h, false, q_insert_head_nomem_node fuel h hd s b, wellFormed_of_isQueue q⟩
  · have hf : h a = none := by
      rcases ha with e | e
      · exact absurd e ha0
      · exact e
    cases b with
    | none => exact ⟨h, false, q_insert_head_nomem_block fuel hd s ha0 hf, wellFormed_of_isQueue q⟩
    | some blk =>
      obtain ⟨h1, hr, hq, _⟩ := q_insert_head_ok q fuel s a blk ha0 hf (hb blk rfl)
      exact ⟨h1, true, hr, wellFormed_of_isQueue hq⟩

theorem q_insert_tail_wf {h : Heap} {hd : Ptr} {l : List Ptr} (q : IsQueue h hd l)
    (fuel : Nat) (s : Bytes) {a : Ptr} {b : Option Bytes} (ha : MallocOk h a)
    (hb : BlockOk b (1 + strlen s)) :
    ∃ h1 r, q_insert_tail fuel h hd s a b = some (h1, r) ∧ WellFormed h1 hd := by
  by_cases ha0 : a = 0
  · subst ha0
    exact ⟨h, false, q_insert_tail_nomem_node fuel h hd s b, wellFormed_of_isQueue q⟩
  · have hf : h a = none := by
      rcases ha with e | e
      · exact absurd e ha0
      · exact e
    cases b with
    | none => exact ⟨h, false, q_insert_tail_nomem_block fuel hd s ha0 hf, wellFormed_of_isQueue q⟩
    | some blk =>
      obtain ⟨h1, hr, hq, _⟩ := q_insert_tail_ok q fuel s a blk ha0 hf (hb blk rfl)
      exact ⟨h1, true, hr, wellFormed_of_isQueue hq⟩

/-- The decomposition of a non-empty list around its middle element. -/
theorem split_mid (l : List Ptr) (hl : l ≠ []) :
    ∃ l1 x l2, l = l1 ++ x :: l2 ∧ l1.length = l.length / 2 ∧ l1 = l.take (l.length / 2) ∧
      l2 = l.drop (l.length / 2 + 1) ∧ l[l.length / 2]? = some x := by
  have hpos : 0 < l.length := List.length_pos.2 hl
  have hlt : l.length / 2 < l.length := Nat.div_lt_self hpos (by norm_num)
  refine ⟨l.take (l.length / 2), l[l.length / 2], l.drop (l.length / 2 + 1), ?_, ?_, rfl, rfl, ?_⟩
  · rw [List.getElem_cons_drop, List.take_append_drop]
  · simp [List.length_take]; omega
  · exact List.getElem?_eq_getElem hlt

theorem q_delete_mid_wf {h : Heap} {hd : Ptr} {l : List Ptr} (q : IsQueue h hd l)
    {fuel : Nat} (hf : l.length < fuel) (hb : l.length < 2 ^ 31) :
    ∃ h1 r, q_delete_mid fuel h hd = some (h1, r) ∧ WellFormed h1 hd := by
  by_cases hl : l = []
  · subst hl
    exact ⟨h, false, q_delete_mid_empty q (by simpa using hf), wellFormed_of_isQueue q⟩
  · obtain ⟨l1, x, l2, rfl, hm, _⟩ := split_mid l hl
    obtain ⟨h1, hr, hq, _⟩ := q_delete_mid_ok q hm hf hb
    exact ⟨h1, true, hr, wellFormed_of_isQueue hq⟩

theorem traverse_chain (f : Ptr → Option Ptr) (hd : Ptr) :
    ∀ (L : List Ptr) (fuel : Nat), List.Chain' (fun a b => f a = some b) (L ++ [hd]) → hd ∉ L →
      L.length < fuel → traverse f hd fuel (L.headD hd) = some L := by
  intro L
  induction L with
  | nil =>
    intro fuel _ _ hf
    obtain ⟨k, rfl⟩ : ∃ k, fuel = k + 1 := ⟨fuel - 1, by simp at hf; omega⟩
    simp [traverse]
  | cons x L ih =>
    intro fuel hc hm hf
    obtain ⟨k, rfl⟩ : ∃ k, fuel = k + 1 := ⟨fuel - 1, by simp at hf; omega⟩
    have hx : x ≠ hd := fun e => hm (by simp [e])
    have hstep : f x = some (L.headD hd) := by
      cases L with
      | nil => simpa using hc
      | cons y L => simp at hc; simpa using hc.1
    have hc2 : List.Chain' (fun a b => f a = some b) (L ++ [hd]) := by
      have := List.Chain'.tail hc
      simpa using this
    simp only [traverse, List.headD_cons, hx, if_false, hstep, Option.bind_eq_bind,
      Option.some_bind]
    rw [ih k hc2 (fun e => hm (by simp [e])) (by simp at hf; omega)]
    rfl

theorem path_chain_next {h : Heap} : ∀ L : List Ptr, Path h L →
    List.Chain' (fun a b => getNext h a = some b) L := by
  intro L
  induction L with
  | nil => intro _; simp
  | cons a L ih =>
    intro hp
    cases L with
    | nil => simp
    | cons b L => exact List.Chain'.cons hp.1.1 (ih hp.2)

theorem path_chain_prev {h : Heap} : ∀ L : List Ptr, Path h L →
    List.Chain' (fun a b => getPrev h b = some a) L := by
  intro L
  induction L with
  | nil => intro _; simp
  | cons a L ih =>
    intro hp
    cases L with
    | nil => simp
    | cons b L => exact List.Chain'.cons hp.1.2 (ih hp.2)

theorem forward_ok {h : Heap} {hd : Ptr} {l : List Ptr} (q : IsQueue h hd l) {fuel : Nat}
    (hf : l.length < fuel) : forward fuel h hd = some l := by
  have hnd := q.1
  simp only [forward, isQueue_next_hd q, Option.bind_eq_bind, Option.some_bind]
  exact traverse_chain _ hd l fuel (path_chain_next _ (path_tail q.2))
    (by simp at hnd; exact hnd.1) hf

theorem headD_reverse (l : List Ptr) (hd : Ptr) : l.reverse.headD hd = l.getLastD hd := by
  rcases List.eq_nil_or_concat l with rfl | ⟨l0, x, rfl⟩
  · rfl
  · simp only [List.concat_eq_append, List.reverse_append, List.reverse_cons, List.reverse_nil,
      List.nil_append, List.singleton_append, List.headD_cons, List.getLastD_concat]

theorem backward_ok {h : Heap} {hd : Ptr} {l : List Ptr} (q : IsQueue h hd l) {fuel : Nat}
    (hf : l.length < fuel) : backward fuel h hd = some l.reverse := by
  have hnd := q.1
  have h1 : List.Chain' (fun a b => getPrev h b = some a) (hd :: l ++ [hd]) :=
    path_chain_prev _ q.2
  have h2 : List.Chain' (fun a b => getPrev h b = some a) (hd :: l) :=
    (List.chain'_append.1 h1).1
  have h3 : List.Chain' (fun a b => getPrev h a = some b) (l.reverse ++ [hd]) := by
    have := List.chain'_reverse.2 (show List.Chain' (flip fun a b => getPrev h a = some b)
      (hd :: l) from h2)
    simpa using this
  simp only [backward, isQueue_prev_hd q, Option.bind_eq_bind, Option.some_bind]
  rw [← headD_reverse]
  exact traverse_chain _ hd l.reverse fuel h3 (by simp at hnd; simpa using hnd.1) (by simpa using hf)

theorem payloads_congr {h h1 : Heap} {l : List Ptr}
    (e : ∀ r ∈ l, getValue h1 r = getValue h r) : payloads h1 l = payloads h l := by
  unfold payloads
  apply List.map_congr_left
  intro r hr
  unfold payload
  rw [e r hr]

theorem payload_of_value {h : Heap} {p : Ptr} {v : Bytes} (e : getValue h p = some (some v)) :
    payload h p = some (cstr v) := by
  simp [payload, e]

theorem cstr_append_terminator (s : Bytes) : cstr (cstr s ++ [0]) = cstr s :=
  cstr_append_zero (cstr s) [] (cstr_ne_zero s)

theorem insert_call_true {h : Heap} {hd : Ptr} {l : List Ptr} (q : IsQueue h hd l)
    {c : InsertCall} {h1 : Heap} (hm : MallocOk h c.node)
    (hb : BlockOk c.block (1 + strlen c.s)) (hr : insert_call h hd c = some (h1, true)) :
    ∃ l1, IsQueue h1 hd l1 ∧ l1.length = l.length + 1 := by
  obtain ⟨atHead, s, a, b, fuel⟩ := c
  simp only at hm hb
  by_cases ha : a = 0
  · subst ha
    cases atHead <;>
    simp [insert_call, q_insert_head_nomem_node, q_insert_tail_nomem_node] at hr
  · have hf : h a = none := by
      rcases hm with e | e
      · exact absurd e ha
      · exact e
    cases b with
    | none =>
      cases atHead <;>
      simp [insert_call, q_insert_head_nomem_block fuel hd s ha hf,
        q_insert_tail_nomem_block fuel hd s ha hf] at hr
    | some blk =>
      cases atHead
      · obtain ⟨h2, hr2, hq, _⟩ := q_insert_tail_ok q fuel s a blk ha hf (hb blk rfl)
        simp only [insert_call, Bool.false_eq_true, if_false, hr2, Option.some.injEq,
          Prod.mk.injEq, and_true] at hr
        subst hr
        exact ⟨_, hq, by simp⟩
      · obtain ⟨h2, hr2, hq, _⟩ := q_insert_head_ok q fuel s a blk ha hf (hb blk rfl)
        simp only [insert_call, if_true, hr2, Option.some.injEq, Prod.mk.injEq, and_true] at hr
        subst hr
        exact ⟨_, hq, by simp⟩

theorem run_inserts_isQueue {hd : Ptr} :
    ∀ (cs : List InsertCall) (h : Heap) (l : List Ptr) (h2 : Heap), IsQueue h hd l →
      run_inserts h hd cs = some h2 → ∃ l2, IsQueue h2 hd l2 ∧ l2.length = l.length + cs.length := by
  intro cs
  induction cs with
  | nil =>
    intro h l h2 q hr
    simp only [run_inserts, Option.some.injEq] at hr
    subst hr
    exact ⟨l, q, by simp⟩
  | cons c cs ih =>
    intro h l h2 q hr
    simp only [run_inserts] at hr
    split at hr
    · rename_i hok
      split at hr
      · rename_i h1 hc
        obtain ⟨l1, q1, hl1⟩ := insert_call_true q hok.1 hok.2 hc
        obtain ⟨l2, q2, hl2⟩ := ih h1 l1 h2 q1 hr
        exact ⟨l2, q2, by simp [hl2, hl1]; omega⟩
      · simp at hr
    · simp at hr

theorem q_size_loop_mono (h : Heap) (hd : Ptr) :
    ∀ (fuel : Nat) (li : Ptr) (len n : Nat), q_size_loop fuel h hd li len = some n →
      ∀ k, q_size_loop (fuel + k) h hd li len = some n := by
  intro fuel
  induction fuel with
  | zero => intro li len n e; simp [q_size_loop] at e
  | succ f ih =>
    intro li len n e k
    rw [show f + 1 + k = (f + k) + 1 by omega]
    simp only [q_size_loop] at e ⊢
    split at e
    · rename_i hli
      rw [if_pos hli]
      rcases hi : int_incr len with _ | len1
      · simp [hi] at e
      · rcases hn : getNext h li with _ | nx
        · simp [hi, hn] at e
        · simp only [hi, hn, Option.bind_eq_bind, Option.some_bind] at e ⊢
          exact ih nx len1 n e k
    · rename_i hli
      rw [if_neg hli]
      exact e

theorem q_size_mono {h : Heap} {hd : Ptr} {fuel n : Nat} (e : q_size fuel h hd = some n)
    (k : Nat) : q_size (fuel + k) h hd = some n := by
  unfold q_size at e ⊢
  split
  · rename_i h0; simpa [h0] using e
  · rename_i h0
    rw [if_neg h0] at e
    rcases hn : getNext h hd with _ | nx
    · simp [hn] at e
    · simp only [hn, Option.bind_eq_bind, Option.some_bind] at e ⊢
      exact q_size_loop_mono h hd fuel nx 0 n e k

theorem q_size_loop_sound {h : Heap} {hd : Ptr} :
    ∀ (l : List Ptr) (fuel len n : Nat), Path h (l ++ [hd]) → hd ∉ l → len ≤ INT_MAX →
      q_size_loop fuel h hd (l.headD hd) len = some n → n = len + l.length ∧ n ≤ INT_MAX := by
  intro l
  induction l with
  | nil =>
    intro fuel len n _ _ hb e
    cases fuel with
    | zero => simp [q_size_loop] at e
    | succ f =>
      simp [q_size_loop] at e
      subst e
      exact ⟨by simp, hb⟩
  | cons x l ih =>
    intro fuel len n hp hm hb e
    cases fuel with
    | zero => simp [q_size_loop] at e
    | succ f =>
      have hx : x ≠ hd := fun e => hm (by simp [e])
      have hn := path_head_next (by simpa using hp)
      simp only [q_size_loop, List.headD_cons, ne_eq, hx, not_false_eq_true, if_true] at e
      rcases hi : int_incr len with _ | len1
      · simp [hi] at e
      · obtain ⟨rfl, _⟩ := int_incr_some hi
        simp only [hi, hn, Option.bind_eq_bind, Option.some_bind] at e
        obtain ⟨e1, e2⟩ := ih f (len + 1) n (path_tail (by simpa using hp))
          (fun e => hm (by simp [e])) (by omega) e
        exact ⟨by simp only [List.length_cons]; omega, e2⟩

/-- A size that `q_size` returns is the length of the queue, which is then below `2^31`. -/
theorem q_size_sound {h : Heap} {hd : Ptr} {l : List Ptr} (q : IsQueue h hd l) {fuel n : Nat}
    (e : q_size fuel h hd = some n) : n = l.length ∧ l.length < 2 ^ 31 := by
  have hd0 := isQueue_hd_ne_zero q
  have hnd := q.1
  simp only [q_size, hd0, if_false, isQueue_next_hd q, Option.bind_eq_bind,
    Option.some_bind] at e
  obtain ⟨e1, e2⟩ := q_size_loop_sound l fuel 0 n (path_tail q.2)
    (by simp at hnd; exact hnd.1) (by simp) e
  rw [INT_MAX_eq] at e2
  constructor <;> omega

theorem q_size_loop_le (h : Heap) (hd : Ptr) :
    ∀ (fuel : Nat) (li : Ptr) (len n : Nat), len ≤ INT_MAX →
      q_size_loop fuel h hd li len = some n → n ≤ INT_MAX := by
  intro fuel
  induction fuel with
  | zero => intro li len n _ e; simp [q_size_loop] at e
  | succ f ih =>
    intro li len n hb e
    simp only [q_size_loop] at e
    split at e
    · rcases hi : int_incr len with _ | len1
      · simp [hi] at e
      · obtain ⟨rfl, hlt⟩ := int_incr_some hi
        rcases hn : getNext h li with _ | nx
        · simp [hi, hn] at e
        · simp only [hi, hn, Option.bind_eq_bind, Option.some_bind] at e
          exact ih nx (len + 1) n (by omega) e
    · obtain rfl := Option.some.inj e
      exact hb

/-- Whatever the heap, a size that `q_size` returns fits an `int`, so that `len / 2 + 1` in
`q_delete_mid` does too. -/
theorem q_size_le {h : Heap} {hd : Ptr} {fuel n : Nat} (e : q_size fuel h hd = some n) :
    n ≤ INT_MAX := by
  unfold q_size at e
  split at e
  · obtain rfl := Option.some.inj e
    exact Nat.zero_le _
  · rcases hn : getNext h hd with _ | nx
    · simp [hn] at e
    · simp only [hn, Option.bind_eq_bind, Option.some_bind] at e
      exact q_size_loop_le h hd fuel nx 0 n (Nat.zero_le _) e

theorem q_delete_mid_size {h : Heap} {hd : Ptr} {fuel : Nat} {r : Heap × Bool}
    (e : q_delete_mid fuel h hd = some r) : ∃ n, q_size fuel h hd = some n := by
  unfold q_delete_mid at e
  rcases hs : q_size fuel h hd with _ | n
  · simp [hs] at e
  · exact ⟨n, rfl⟩

theorem q_delete_mid_mono {h : Heap} {hd : Ptr} {fuel : Nat} {r : Heap × Bool}
    (e : q_delete_mid fuel h hd = some r) (k : Nat) : q_delete_mid (fuel + k) h hd = some r := by
  unfold q_delete_mid at e ⊢
  rcases hs : q_size fuel h hd with _ | n
  · simp [hs] at e
  · rw [q_size_mono hs k]
    rw [hs] at e
    exact e

theorem q_swap_loop_mono (hd : Ptr) :
    ∀ (fuel : Nat) (h : Heap) (n1 n2 : Ptr) (r : Heap), q_swap_loop fuel h hd n1 n2 = some r →
      ∀ k, q_swap_loop (fuel + k) h hd n1 n2 = some r := by
  intro fuel
  induction fuel with
  | zero => intro h n1 n2 r e; simp [q_swap_loop] at e
  | succ f ih =>
    intro h n1 n2 r e k
    rw [show f + 1 + k = (f + k) + 1 by omega]
    simp only [q_swap_loop] at e ⊢
    split at e
    · rename_i hc
      rw [if_pos hc]
      simp only [Option.bind_eq_bind] at e ⊢
      rcases h1 : getPrev h n1 with _ | a1
      · simp [h1] at e
      simp only [h1, Option.some_bind] at e ⊢
      rcases h2 : setNext h a1 n2 with _ | a2
      · simp [h2] at e
      simp only [h2, Option.some_bind] at e ⊢
      rcases h3 : setPrev a2 n2 a1 with _ | a3
      · simp [h3] at e
      simp only [h3, Option.some_bind] at e ⊢
      rcases h4 : getNext a3 n2 with _ | a4
      · simp [h4] at e
      simp only [h4, Option.some_bind] at e ⊢
      rcases h5 : setNext a3 n2 n1 with _ | a5
      · simp [h5] at e
      simp only [h5, Option.some_bind] at e ⊢
      rcases h6 : setPrev a5 a4 n1 with _ | a6
      · simp [h6] at e
      simp only [h6, Option.some_bind] at e ⊢
      rcases h7 : setNext a6 n1 a4 with _ | a7
      · simp [h7] at e
      simp only [h7, Option.some_bind] at e ⊢
      rcases h8 : setPrev a7 n1 n2 with _ | a8
      · simp [h8] at e
      simp only [h8, Option.some_bind] at e ⊢
      rcases h9 : getNext a8 n1 with _ | a9
      · simp [h9] at e
      simp only [h9, Option.some_bind] at e ⊢
      rcases h10 : getNext a8 a9 with _ | a10
      · simp [h10] at e
      simp only [h10, Option.some_bind] at e ⊢
      exact ih a8 a9 a10 r e k
    · rename_i hc
      rw [if_neg hc]
      exact e

theorem q_swap_mono {h : Heap} {hd : Ptr} {fuel : Nat} {r : Heap}
    (e : q_swap fuel h hd = some r) (k : Nat) : q_swap (fuel + k) h hd = some r := by
  unfold q_swap at e ⊢
  split
  · rename_i h0; simpa [h0] using e
  · rename_i h0
    rw [if_neg h0] at e
    simp only [Option.bind_eq_bind] at e ⊢
    rcases h1 : getNext h hd with _ | a1
    · simp [h1] at e
    simp only [h1, Option.some_bind] at e ⊢
    split
    · rename_i hc; simpa [hc] using e
    · rename_i hc
      rw [if_neg hc] at e
      rcases h2 : getNext h a1 with _ | a2
      · simp [h2] at e
      simp only [h2, Option.some_bind] at e ⊢
      exact q_swap_loop_mono hd fuel h a1 a2 r e k

theorem q_reverse_loop_mono (hd : Ptr) :
    ∀ (fuel : Nat) (h : Heap) (n1 n2 : Ptr) (r : Heap × Ptr × Ptr),
      q_reverse_loop fuel h hd n1 n2 = some r →
      ∀ k, q_reverse_loop (fuel + k) h hd n1 n2 = some r := by
  intro fuel
  induction fuel with
  | zero => intro h n1 n2 r e; simp [q_reverse_loop] at e
  | succ f ih =>
    intro h n1 n2 r e k
    rw [show f + 1 + k = (f + k) + 1 by omega]
    simp only [q_reverse_loop] at e ⊢
    split at e
    · rename_i hc
      rw [if_pos hc]
      simp only [Option.bind_eq_bind] at e ⊢
      rcases h1 : getPrev h n1 with _ | a1
      · simp [h1] at e
      simp only [h1, Option.some_bind] at e ⊢
      rcases h2 : setNext h n1 a1 with _ | a2
      · simp [h2] at e
      simp only [h2, Option.some_bind] at e ⊢
      rcases h3 : setPrev a2 n1 n2 with _ | a3
      · simp [h3] at e
      simp only [h3, Option.some_bind] at e ⊢
      rcases h4 : getNext a3 n2 with _ | a4
      · simp [h4] at e
      simp only [h4, Option.some_bind] at e ⊢
      exact ih a3 n2 a4 r e k
    · rename_i hc
      rw [if_neg hc]
      exact e

theorem q_reverse_mono {h : Heap} {hd : Ptr} {fuel : Nat} {r : Heap}
    (e : q_reverse fuel h hd = some r) (k : Nat) : q_reverse (fuel + k) h hd = some r := by
  unfold q_reverse at e ⊢
  split
  · rename_i h0; simpa [h0] using e
  · rename_i h0
    rw [if_neg h0] at e
    simp only [Option.bind_eq_bind] at e ⊢
    rcases h1 : getNext h hd with _ | a1
    · simp [h1] at e
    simp only [h1, Option.some_bind] at e ⊢
    split
    · rename_i hc; simpa [hc] using e
    · rename_i hc
      rw [if_neg hc] at e
      rcases h2 : q_reverse_loop fuel h hd hd a1 with _ | a2
      · simp [h2] at e
      rw [q_reverse_loop_mono hd fuel h hd a1 a2 h2 k]
      simpa [h2] using e

theorem isQueue_frame {h h1 : Heap} {hd : Ptr} {l : List Ptr} (q : IsQueue h hd l)
    (e : ∀ r ∈ hd :: l, getNext h1 r = getNext h r ∧ getPrev h1 r = getPrev h r) :
    IsQueue h1 hd l := by
  refine ⟨q.1, path_frame q.2 ?_ ?_⟩
  · intro x hx
    have : (hd :: l ++ [hd]).dropLast = hd :: l := by
      rw [List.dropLast_concat]
    rw [this] at hx
    exact (e x hx).1
  · intro y hy
    simp only [List.cons_append, List.tail_cons, List.mem_append, List.mem_singleton] at hy
    exact (e y (by simp only [List.mem_cons]; tauto)).2

theorem q_release_element_eq {h : Heap} {e : Ptr} {h1 : Heap}
    (hr : q_release_element h e = some h1) : Live h e ∧ h1 = dealloc h e := by
  unfold q_release_element at hr
  rcases hv : getValue h e with _ | v
  · simp [hv] at hr
  · have le := live_of_value hv
    simp only [hv, Option.bind_eq_bind, Option.some_bind, free_live le, Option.some.injEq] at hr
    exact ⟨le, hr.symm⟩

theorem payloadInv_of_values {h h1 : Heap} {hd : Ptr} {l l1 : List Ptr}
    (hp : PayloadInv h hd l) (hs : ∀ p ∈ l1, p ∈ l)
    (e : ∀ r ∈ hd :: l1, getValue h1 r = getValue h r) : PayloadInv h1 hd l1 := by
  refine ⟨by rw [e hd (by simp)]; exact hp.1, ?_⟩
  intro p hpm
  rw [e p (by simp [hpm])]
  exact hp.2 p (hs p hpm)

theorem built_inv {h : Heap} {hd : Ptr} (b : Built h hd) :
    ∃ l, IsQueue h hd l ∧ PayloadInv h hd l := by
  induction b with
  | @new h0 hq a ha _ hn =>
    rw [q_new_eq h0 a ha] at hn
    simp only [Option.some.injEq, Prod.mk.injEq, and_true] at hn
    subst hn
    exact ⟨[], isQueue_new h0 a ha, by simp [PayloadInv, value_alloc _ _ _ _ ha]⟩
  | @insert_head h h1 hd a fuel s b r _ hm hb hr ih =>
    obtain ⟨l, q, hp⟩ := ih
    by_cases ha : a = 0
    · subst ha
      rw [q_insert_head_nomem_node] at hr
      simp only [Option.some.injEq, Prod.mk.injEq] at hr
      obtain ⟨rfl, _⟩ := hr
      exact ⟨l, q, hp⟩
    · have hf : h a = none := by
        rcases hm with e | e
        · exact absurd e ha
        · exact e
      cases b with
      | none =>
        rw [q_insert_head_nomem_block fuel hd s ha hf] at hr
        simp only [Option.some.injEq, Prod.mk.injEq] at hr
        obtain ⟨rfl, _⟩ := hr
        exact ⟨l, q, hp⟩
      | some blk =>
        obtain ⟨h2, hr2, hq, hv, hvo, _⟩ := q_insert_head_ok q fuel s a blk ha hf (hb blk rfl)
        rw [hr2] at hr
        simp only [Option.some.injEq, Prod.mk.injEq] at hr
        obtain ⟨rfl, _⟩ := hr
        have hfr := isQueue_fresh q hf
        refine ⟨a :: l, hq, ?_, ?_⟩
        · rw [hvo hd (fun e => hfr (by simp [e]))]; exact hp.1
        · intro p hpm
          rcases List.mem_cons.1 hpm with rfl | hpm
          · exact ⟨_, hv⟩
          · rw [hvo p (fun e => hfr (by simp [← e, hpm]))]; exact hp.2 p hpm
  | @insert_tail h h1 hd a fuel s b r _ hm hb hr ih =>
    obtain ⟨l, q, hp⟩ := ih
    by_cases ha : a = 0
    · subst ha
      rw [q_insert_tail_nomem_node] at hr
      simp only [Option.some.injEq, Prod.mk.injEq] at hr
      obtain ⟨rfl, _⟩ := hr
      exact ⟨l, q, hp⟩
    · have hf : h a = none := by
        rcases hm with e | e
        · exact absurd e ha
        · exact e
      cases b with
      | none =>
        rw [q_insert_tail_nomem_block fuel hd s ha hf] at hr
        simp only [Option.some.injEq, Prod.mk.injEq] at hr
        obtain ⟨rfl, _⟩ := hr
        exact ⟨l, q, hp⟩
      | some blk =>
        obtain ⟨h2, hr2, hq, hv, hvo, _⟩ := q_insert_tail_ok q fuel s a blk ha hf (hb blk rfl)
        rw [hr2] at hr
        simp only [Option.some.injEq, Prod.mk.injEq] at hr
        obtain ⟨rfl, _⟩ := hr
        have hfr := isQueue_fresh q hf
        refine ⟨l ++ [a], hq, ?_, ?_⟩
        · rw [hvo hd (fun e => hfr (by simp [e]))]; exact hp.1
        · intro p hpm
          rcases List.mem_append.1 hpm with hpm | hpm
          · rw [hvo p (fun e => hfr (by simp [← e, hpm]))]; exact hp.2 p hpm
          · simp only [List.mem_singleton] at hpm
            subst hpm
            exact ⟨_, hv⟩
  | @remove_head h h1 hd e sp o k _ hr ih =>
    obtain ⟨l, q, hp⟩ := ih
    cases l with
    | nil =>
      rw [q_remove_head_nullvalue q (by simpa using hp.1)] at hr
      simp only [Option.some.injEq, Prod.mk.injEq] at hr
      obtain ⟨rfl, _⟩ := hr
      exact ⟨[], q, hp⟩
    | cons x l =>
      obtain ⟨v, hv⟩ := hp.2 x (by simp)
      obtain ⟨h2, hr2, hq, hvo, _⟩ := q_remove_head_ok q hv sp k
      rw [hr2] at hr
      rcases hc : copy_out h x sp k with _ | o2
      · simp [hc] at hr
      · simp only [hc, Option.map_some', Option.some.injEq, Prod.mk.injEq] at hr
        obtain ⟨rfl, _⟩ := hr
        exact ⟨l, hq, payloadInv_of_values hp (fun p hpm => by simp [hpm]) (fun r _ => hvo r)⟩
  | @remove_tail h h1 hd e sp o k _ hr ih =>
    obtain ⟨l, q, hp⟩ := ih
    rcases List.eq_nil_or_concat l with rfl | ⟨l, x, rfl⟩
    · rw [q_remove_tail_nullvalue q (by simpa using hp.1)] at hr
      simp only [Option.some.injEq, Prod.mk.injEq] at hr
      obtain ⟨rfl, _⟩ := hr
      exact ⟨[], q, hp⟩
    · simp only [List.concat_eq_append] at *
      obtain ⟨v, hv⟩ := hp.2 x (by simp)
      obtain ⟨h2, hr2, hq, hvo, _⟩ := q_remove_tail_ok q hv sp k
      rw [hr2] at hr
      rcases hc : copy_out h x sp k with _ | o2
      · simp [hc] at hr
      · simp only [hc, Option.map_some', Option.some.injEq, Prod.mk.injEq] at hr
        obtain ⟨rfl, _⟩ := hr
        exact ⟨l, hq, payloadInv_of_values hp (fun p hpm => by simp [hpm]) (fun r _ => hvo r)⟩
  | @release h h1 hd e _ hout hr ih =>
    obtain ⟨l, q, hp⟩ := ih
    obtain ⟨_, rfl⟩ := q_release_element_eq hr
    have hne : ∀ r ∈ hd :: l, r ≠ e := fun r hrm e1 => hout l q (e1 ▸ hrm)
    refine ⟨l, isQueue_frame q (fun r hrm => by simp [hne r hrm]), ?_⟩
    exact payloadInv_of_values hp (fun p hpm => hpm) (fun r hrm => by simp [hne r hrm])
  | @delete_mid h h1 hd fuel r _ hr ih =>
    obtain ⟨l, q, hp⟩ := ih
    obtain ⟨n, hs⟩ := q_delete_mid_size hr
    have hb := (q_size_sound q hs).2
    have hr1 := q_delete_mid_mono hr (l.length + 1)
    by_cases hl : l = []
    · subst hl
      rw [q_delete_mid_empty q (by omega)] at hr1
      simp only [Option.some.injEq, Prod.mk.injEq] at hr1
      obtain ⟨rfl, _⟩ := hr1
      exact ⟨[], q, hp⟩
    · obtain ⟨l1, x, l2, rfl, hm, _⟩ := split_mid l hl
      obtain ⟨h2, hr2, hq, hvo, _⟩ := @q_delete_mid_ok h hd x l1 l2 q hm _
        (show (l1 ++ x :: l2).length < fuel + ((l1 ++ x :: l2).length + 1) by omega) hb
      rw [hr2] at hr1
      simp only [Option.some.injEq, Prod.mk.injEq] at hr1
      obtain ⟨rfl, _⟩ := hr1
      have hnd := q.1
      refine ⟨l1 ++ l2, hq, payloadInv_of_values hp ?_ ?_⟩
      · intro p hpm
        simp only [List.mem_append, List.mem_cons] at hpm ⊢
        tauto
      · intro r hrm
        apply hvo
        rintro rfl
        simp only [List.nodup_cons, List.nodup_append, List.mem_append, List.mem_cons,
          List.disjoint_cons_right] at hnd hrm
        tauto
  | delete_dup _ ih => exact ih
  | @swap h h1 hd fuel _ hr ih =>
    obtain ⟨l, q, hp⟩ := ih
    have hr1 := q_swap_mono hr (l.length + 1)
    obtain ⟨h2, hr2, hq, hvo, _⟩ := @q_swap_ok h hd l q (fuel + (l.length + 1)) (by omega)
    rw [hr2] at hr1
    obtain rfl := Option.some.inj hr1
    exact ⟨swapPairs l, hq, payloadInv_of_values hp
      (fun p hpm => (swapPairs_perm l).mem_iff.1 hpm) (fun r _ => hvo r)⟩
  | @reverse h h1 hd fuel _ hr ih =>
    obtain ⟨l, q, hp⟩ := ih
    have hr1 := q_reverse_mono hr (l.length + 1)
    rw [@q_reverse_eq h hd l q (fuel + (l.length + 1)) (by omega)] at hr1
    obtain rfl := Option.some.inj hr1
    exact ⟨l.reverse, isQueue_flip q, payloadInv_of_values hp
      (fun p hpm => List.mem_reverse.1 hpm) (fun r _ => by simp)⟩
  | sort _ ih => exact ih

theorem isQueue_unique {h : Heap} {hd : Ptr} {l l1 : List Ptr} (q : IsQueue h hd l)
    (q1 : IsQueue h hd l1) : l = l1 := by
  have e1 := @forward_ok h hd l q (l.length + l1.length + 1) (by omega)
  have e2 := @forward_ok h hd l1 q1 (l.length + l1.length + 1) (by omega)
  rw [e1] at e2
  exact Option.some.inj e2

theorem not_isQueue_null (h : Heap) (l : List Ptr) : ¬ IsQueue h 0 l :=
  fun q => isQueue_hd_ne_zero q rfl

/-- On a built queue whose first element is `x`, `q_remove_head` returns `x`. -/
theorem q_remove_head_first {h : Heap} {hd : Ptr} (hb : Built h hd)
    (sp : Option Bytes) (k : Nat) (hbuf : BufOk sp k) {x : Ptr} {rest : List Ptr}
    (q : IsQueue h hd (x :: rest)) :
    ∃ h1 o, q_remove_head h hd sp k = some (h1, x, o) ∧ x ≠ 0 ∧ IsQueue h1 hd rest ∧
      h1 x = h x ∧ (∃ v, getValue h1 x = some (some v)) ∧
      payloads h1 rest = payloads h rest ∧
      (rest = [] → getNext h1 hd = some hd ∧ getPrev h1 hd = some hd) := by
  obtain ⟨l, q0, hp⟩ := built_inv hb
  obtain rfl := isQueue_unique q q0
  obtain ⟨v, hv⟩ := hp.2 x (by simp)
  obtain ⟨h1, hr, hq, hvo, _, hfr⟩ := q_remove_head_ok q hv sp k
  obtain ⟨o, ho⟩ := copy_out_total hv hbuf
  have hx0 : x ≠ 0 := live_ne_zero (isQueue_live q x (by simp))
  have hnd := q.1
  refine ⟨h1, o, by rw [hr, ho]; rfl, hx0, hq, ?_, ⟨v, by rw [hvo]; exact hv⟩,
    payloads_congr (fun r _ => hvo r), ?_⟩
  · apply hfr
    simp only [List.nodup_cons, List.mem_cons, not_or] at hnd ⊢
    exact ⟨fun e => hnd.1.1 e.symm, hnd.2.1⟩
  · rintro rfl
    exact ⟨by simpa using isQueue_next_hd hq, by simpa using isQueue_prev_hd hq⟩

/-- On a built queue whose last element is `x`, `q_remove_tail` returns `x`. -/
theorem q_remove_tail_last {h : Heap} {hd : Ptr} (hb : Built h hd)
    (sp : Option Bytes) (k : Nat) (hbuf : BufOk sp k) {x : Ptr} {rest : List Ptr}
    (q : IsQueue h hd (rest ++ [x])) :
    ∃ h1 o, q_remove_tail h hd sp k = some (h1, x, o) ∧ x ≠ 0 ∧ IsQueue h1 hd rest ∧
      h1 x = h x ∧ (∃ v, getValue h1 x = some (some v)) ∧
      payloads h1 rest = payloads h rest ∧
      (rest = [] → getNext h1 hd = some hd ∧ getPrev h1 hd = some hd) := by
  obtain ⟨l, q0, hp⟩ := built_inv hb
  obtain rfl := isQueue_unique q q0
  obtain ⟨v, hv⟩ := hp.2 x (by simp)
  obtain ⟨h1, hr, hq, hvo, _, hfr⟩ := q_remove_tail_ok q hv sp k
  obtain ⟨o, ho⟩ := copy_out_total hv hbuf
  have hx0 : x ≠ 0 := live_ne_zero (isQueue_live q x (by simp))
  have hnd := q.1
  refine ⟨h1, o, by rw [hr, ho]; rfl, hx0, hq, ?_, ⟨v, by rw [hvo]; exact hv⟩,
    payloads_congr (fun r _ => hvo r), ?_⟩
  · apply hfr
    have h1 := hnd
    rw [← List.cons_append] at h1
    exact fun e => (List.nodup_append.1 h1).2.2 e (by simp)
  · rintro rfl
    exact ⟨by simpa using isQueue_next_hd hq, by simpa using isQueue_prev_hd hq⟩

theorem q_remove_head_built {h : Heap} {hd : Ptr} (hb : hd = 0 ∨ Built h hd)
    (sp : Option Bytes) (k : Nat) (hbuf : BufOk sp k) :
    ∃ h1 e o, q_remove_head h hd sp k = some (h1, e, o) ∧
      ((e = 0 ∧ h1 = h ∧ o = sp) ↔ (hd = 0 ∨ IsQueue h hd [])) ∧
      (e = 0 ↔ (hd = 0 ∨ IsQueue h hd [])) := by
  rcases hb with rfl | hb
  · exact ⟨h, 0, sp, q_remove_head_null h sp k, by simp, by simp⟩
  · obtain ⟨l, q, hp⟩ := built_inv hb
    cases l with
    | nil =>
      refine ⟨h, 0, sp, q_remove_head_nullvalue q (by simpa using hp.1) sp k, ?_,
        ⟨fun _ => Or.inr q, fun _ => rfl⟩⟩
      simp only [and_self, true_iff]
      exact Or.inr q
    | cons x l =>
      obtain ⟨h1, o, hr, hx0, _⟩ := q_remove_head_first hb sp k hbuf q
      have hne : ¬ (hd = 0 ∨ IsQueue h hd []) := by
        rintro (e | e)
        · exact absurd e (isQueue_hd_ne_zero q)
        · exact absurd (isQueue_unique q e) (by simp)
      exact ⟨h1, x, o, hr, ⟨fun e => absurd e.1 hx0, fun e => absurd e hne⟩,
        ⟨fun e => absurd e hx0, fun e => absurd e hne⟩⟩

theorem q_remove_tail_built {h : Heap} {hd : Ptr} (hb : hd = 0 ∨ Built h hd)
    (sp : Option Bytes) (k : Nat) (hbuf : BufOk sp k) :
    ∃ h1 e o, q_remove_tail h hd sp k = some (h1, e, o) ∧
      ((e = 0 ∧ h1 = h ∧ o = sp) ↔ (hd = 0 ∨ IsQueue h hd [])) ∧
      (e = 0 ↔ (hd = 0 ∨ IsQueue h hd [])) := by
  rcases hb with rfl | hb
  · exact ⟨h, 0, sp, q_remove_tail_null h sp k, by simp, by simp⟩
  · obtain ⟨l, q, hp⟩ := built_inv hb
    rcases List.eq_nil_or_concat l with rfl | ⟨l, x, rfl⟩
    · refine ⟨h, 0, sp, q_remove_tail_nullvalue q (by simpa using hp.1) sp k, ?_,
        ⟨fun _ => Or.inr q, fun _ => rfl⟩⟩
      simp only [and_self, true_iff]
      exact Or.inr q
    · simp only [List.concat_eq_append] at *
      obtain ⟨h1, o, hr, hx0, _⟩ := q_remove_tail_last hb sp k hbuf q
      have hne : ¬ (hd = 0 ∨ IsQueue h hd []) := by
        rintro (e | e)
        · exact absurd e (isQueue_hd_ne_zero q)
        · exact absurd (isQueue_unique q e) (by simp)
      exact ⟨h1, x, o, hr, ⟨fun e => absurd e.1 hx0, fun e => absurd e hne⟩,
        ⟨fun e => absurd e hx0, fun e => absurd e hne⟩⟩

theorem built_or_null_isQueue {h : Heap} {hd : Ptr} (hb : hd = 0 ∨ Built h hd) :
    hd = 0 ∨ ∃ l, IsQueue h hd l := by
  rcases hb with e | hb
  · exact Or.inl e
  · obtain ⟨l, q, _⟩ := built_inv hb
    exact Or.inr ⟨l, q⟩

theorem built_of_isQueue {h : Heap} {hd : Ptr} {l : List Ptr} (hb : hd = 0 ∨ Built h hd)
    (q : IsQueue h hd l) : Built h hd := by
  rcases hb with e | hb
  · exact absurd e (isQueue_hd_ne_zero q)
  · exact hb

theorem built_run_inserts {hd : Ptr} :
    ∀ (cs : List InsertCall) (h h2 : Heap), Built h hd → run_inserts h hd cs = some h2 →
      Built h2 hd := by
  intro cs
  induction cs with
  | nil =>
    intro h h2 b hr
    simp only [run_inserts, Option.some.injEq] at hr
    subst hr; exact b
  | cons c cs ih =>
    intro h h2 b hr
    simp only [run_inserts] at hr
    split at hr
    · rename_i hok
      split at hr
      · rename_i h1 hc
        refine ih h1 h2 ?_ hr
        unfold insert_call at hc
        split at hc
        · exact Built.insert_head b hok.1 hok.2 hc
        · exact Built.insert_tail b hok.1 hok.2 hc
      · simp at hr
    · simp at hr

theorem sampleQueue_run :
    run_inserts (alloc (fun _ => none) 1 (element_t.mk none 1 1)) 1 sampleCalls
      = some sampleQueue := by
  have hs : (run_inserts (alloc (fun _ => none) 1 (element_t.mk none 1 1)) 1
      sampleCalls).isSome = true := by decide
  unfold sampleQueue
  rcases hr : run_inserts (alloc (fun _ => none) 1 (element_t.mk none 1 1)) 1 sampleCalls
    with _ | x
  · rw [hr] at hs; simp at hs
  · rfl

theorem sampleQueue_built : Built sampleQueue 1 :=
  built_run_inserts sampleCalls _ _
    (Built.new (by decide) (Or.inr rfl) (q_new_eq (fun _ => none) 1 (by decide))) sampleQueue_run

/-- The links of the nodes of a queue are determined by the list of its nodes. -/
theorem isQueue_links_eq {h h2 : Heap} {hd : Ptr} {l : List Ptr} (q : IsQueue h hd l)
    (q2 : IsQueue h2 hd l) :
    ∀ r ∈ hd :: l, getNext h2 r = getNext h r ∧ getPrev h2 r = getPrev h r := by
  intro r hr
  rcases List.mem_cons.1 hr with rfl | hr
  · exact ⟨by rw [isQueue_next_hd q, isQueue_next_hd q2],
      by rw [isQueue_prev_hd q, isQueue_prev_hd q2]⟩
  · obtain ⟨l1, l2, rfl⟩ := List.append_of_mem hr
    obtain ⟨e1, e2⟩ := isQueue_mid q
    obtain ⟨e3, e4⟩ := isQueue_mid q2
    exact ⟨by rw [e1, e3], by rw [e2, e4]⟩

/-- A live cell is determined by its three fields. -/
theorem cell_ext {h h2 : Heap} {r : Ptr} (l1 : Live h r) (l2 : Live h2 r)
    (e1 : getNext h2 r = getNext h r) (e2 : getPrev h2 r = getPrev h r)
    (e3 : getValue h2 r = getValue h r) : h2 r = h r := by
  have r0 := live_ne_zero l1
  unfold Live at l1 l2
  unfold getNext at e1
  unfold getPrev at e2
  unfold getValue at e3
  unfold rd at l1 l2 e1 e2 e3
  simp only [r0, if_false] at l1 l2 e1 e2 e3
  rcases hc : h r with _ | c
  · simp [hc] at l1
  · rcases hc2 : h2 r with _ | c2
    · simp [hc2] at l2
    · simp only [hc, hc2, Option.map_some', Option.some.injEq] at e1 e2 e3
      cases c; cases c2
      simp_all

theorem q_size_loop_congr {h h2 : Heap} {hd : Ptr} :
    ∀ (l : List Ptr) (fuel len : Nat), Path h (l ++ [hd]) → Path h2 (l ++ [hd]) → hd ∉ l →
      q_size_loop fuel h2 hd (l.headD hd) len = q_size_loop fuel h hd (l.headD hd) len := by
  intro l
  induction l with
  | nil =>
    intro fuel len _ _ _
    cases fuel with
    | zero => rfl
    | succ f => simp [q_size_loop]
  | cons x l ih =>
    intro fuel len hp hp2 hm
    cases fuel with
    | zero => rfl
    | succ f =>
      have hx : x ≠ hd := fun e => hm (by simp [e])
      have hn : getNext h x = some (l.headD hd) := path_head_next (by simpa using hp)
      have hn2 : getNext h2 x = some (l.headD hd) := path_head_next (by simpa using hp2)
      simp only [q_size_loop, List.headD_cons, ne_eq, hx, not_false_eq_true, if_true]
      rcases hi : int_incr len with _ | len1
      · simp
      · simp only [hn, hn2, Option.bind_eq_bind, Option.some_bind]
        exact ih f len1 (path_tail (by simpa using hp)) (path_tail (by simpa using hp2))
          (fun e => hm (by simp [e]))

/-- Two heaps that hold the same queue give the same run of `q_size`. -/
theorem q_size_congr {h h2 : Heap} {hd : Ptr} {l : List Ptr} (q : IsQueue h hd l)
    (q2 : IsQueue h2 hd l) (fuel : Nat) : q_size fuel h2 hd = q_size fuel h hd := by
  have hd0 := isQueue_hd_ne_zero q
  have hnd := q.1
  simp only [q_size, hd0, if_false, isQueue_next_hd q, isQueue_next_hd q2, Option.bind_eq_bind,
    Option.some_bind]
  exact q_size_loop_congr l fuel 0 (path_tail q.2) (path_tail q2.2)
    (by simp at hnd; exact hnd.1)

theorem copy_out_terminator {h : Heap} {x : Ptr} {buf out : Bytes} {k : Nat}
    (e : copy_out h x (some buf) k = some (some out)) (h1 : 1 ≤ k) (h3 : k < 2 ^ SIZE_BITS) :
    out[k - 1]? = some 0 := by
  unfold copy_out at e
  simp only [Option.bind_eq_bind, size_sub_one h1 h3] at e
  rcases hv : getValue h x with _ | v
  · simp [hv] at e
  rcases v with _ | v
  · simp [hv] at e
  simp only [hv, Option.some_bind] at e
  rcases hs : strncpy buf v (k - 1) with _ | b
  · simp [hs] at e
  simp only [hs, Option.some_bind, setByte] at e
  split at e
  · rename_i hlt
    simp only [Option.some_bind, Option.some.injEq] at e
    subst e
    simp [hlt]
  · simp at e

theorem wr_eq {h h1 : Heap} {p : Ptr} {f : element_t → element_t} (e : wr h p f = some h1) :
    h1 = modify h p f := by
  unfold wr at e
  split at e
  · exact (Option.some.inj e).symm
  · simp at e

theorem setNext_value {h h1 : Heap} {p q : Ptr} (e : setNext h p q = some h1) (r : Ptr) :
    getValue h1 r = getValue h r := by
  have := wr_eq e
  subst this
  exact value_updNext h p q r

theorem setPrev_value {h h1 : Heap} {p q : Ptr} (e : setPrev h p q = some h1) (r : Ptr) :
    getValue h1 r = getValue h r := by
  have := wr_eq e
  subst this
  exact value_updPrev h p q r

/-- A call of `q_remove_head` that returns an element found it with a payload, leaves
every payload as it was, and copies out of that payload. -/
theorem q_remove_head_returns {h h1 : Heap} {hd e : Ptr} {sp o : Option Bytes} {k : Nat}
    (hr : q_remove_head h hd sp k = some (h1, e, o)) (he : e ≠ 0) :
    ∃ v, getValue h e = some (some v) ∧ (∀ r, getValue h1 r = getValue h r) ∧
      copy_out h e sp k = some o := by
  unfold q_remove_head at hr
  split at hr
  · simp only [Option.some.injEq, Prod.mk.injEq] at hr
    exact absurd hr.2.1.symm he
  · simp only [Option.bind_eq_bind] at hr
    rcases h1n : getNext h hd with _ | ret
    · simp [h1n] at hr
    simp only [h1n, Option.some_bind] at hr
    rcases hv : getValue h ret with _ | v
    · simp [hv] at hr
    simp only [hv, Option.some_bind] at hr
    rcases v with _ | v
    · simp only [if_true, Option.some.injEq, Prod.mk.injEq] at hr
      exact absurd hr.2.1.symm he
    · simp only [reduceCtorEq, if_false] at hr
      rcases h2 : getNext h ret with _ | tn
      · simp [h2] at hr
      simp only [h2, Option.some_bind] at hr
      rcases h3 : getPrev h ret with _ | tp
      · simp [h3] at hr
      simp only [h3, Option.some_bind] at hr
      have key : ∀ hm : Heap, (∀ r, getValue hm r = getValue h r) →
          ((copy_out hm ret sp k).bind fun sp => some (hm, ret, sp)) = some (h1, e, o) →
          ∃ v, getValue h e = some (some v) ∧ (∀ r, getValue h1 r = getValue h r) ∧
            copy_out h e sp k = some o := by
        intro hm hmv hc
        rcases hco : copy_out hm ret sp k with _ | o2
        · simp [hco] at hc
        · simp only [hco, Option.some_bind, Option.some.injEq, Prod.mk.injEq] at hc
          obtain ⟨rfl, rfl, rfl⟩ := hc
          exact ⟨v, hv, hmv, by rw [← hco]; exact (copy_out_congr (hmv ret) sp k).symm⟩
      split at hr
      · rcases h4 : setNext h hd tn with _ | ha
        · simp [h4] at hr
        simp only [h4, Option.some_bind] at hr
        rcases h5 : getNext ha ret with _ | t2
        · simp [h5] at hr
        simp only [h5, Option.some_bind] at hr
        rcases h6 : setPrev ha t2 hd with _ | hb
        · simp [h6] at hr
        simp only [h6, Option.some_bind] at hr
        exact key hb (fun r => by rw [setPrev_value h6, setNext_value h4]) hr
      · rcases h4 : setPrev h hd hd with _ | ha
        · simp [h4] at hr
        simp only [h4, Option.some_bind] at hr
        rcases h5 : setNext ha hd hd with _ | hb
        · simp [h5] at hr
        simp only [h5, Option.some_bind] at hr
        exact key hb (fun r => by rw [setNext_value h5, setPrev_value h4]) hr

theorem q_remove_tail_returns {h h1 : Heap} {hd e : Ptr} {sp o : Option Bytes} {k : Nat}
    (hr : q_remove_tail h hd sp k = some (h1, e, o)) (he : e ≠ 0) :
    ∃ v, getValue h e = some (some v) ∧ (∀ r, getValue h1 r = getValue h r) ∧
      copy_out h e sp k = some o := by
  unfold q_remove_tail at hr
  split at hr
  · simp only [Option.some.injEq, Prod.mk.injEq] at hr
    exact absurd hr.2.1.symm he
  · simp only [Option.bind_eq_bind] at hr
    rcases h1n : getPrev h hd with _ | ret
    · simp [h1n] at hr
    simp only [h1n, Option.some_bind] at hr
    rcases hv : getValue h ret with _ | v
    · simp [hv] at hr
    simp only [hv, Option.some_bind] at hr
    rcases v with _ | v
    · simp only [if_true, Option.some.injEq, Prod.mk.injEq] at hr
      exact absurd hr.2.1.symm he
    · simp only [reduceCtorEq, if_false] at hr
      rcases h2 : getNext h ret with _ | tn
      · simp [h2] at hr
      simp only [h2, Option.some_bind] at hr
      rcases h3 : getPrev h ret with _ | tp
      · simp [h3] at hr
      simp only [h3, Option.some_bind] at hr
      have key : ∀ hm : Heap, (∀ r, getValue hm r = getValue h r) →
          ((copy_out hm ret sp k).bind fun sp => some (hm, ret, sp)) = some (h1, e, o) →
          ∃ v, getValue h e = some (some v) ∧ (∀ r, getValue h1 r = getValue h r) ∧
            copy_out h e sp k = some o := by
        intro hm hmv hc
        rcases hco : copy_out hm ret sp k with _ | o2
        · simp [hco] at hc
        · simp only [hco, Option.some_bind, Option.some.injEq, Prod.mk.injEq] at hc
          obtain ⟨rfl, rfl, rfl⟩ := hc
          exact ⟨v, hv, hmv, by rw [← hco]; exact (copy_out_congr (hmv ret) sp k).symm⟩
      split at hr
      · rcases h4 : setPrev h hd tp with _ | ha
        · simp [h4] at hr
        simp only [h4, Option.some_bind] at hr
        rcases h5 : getPrev ha ret with _ | t2
        · simp [h5] at hr
        simp only [h5, Option.some_bind] at hr
        rcases h6 : setNext ha t2 hd with _ | hb
        · simp [h6] at hr
        simp only [h6, Option.some_bind] at hr
        exact key hb (fun r => by rw [setNext_value h6, setPrev_value h4]) hr
      · rcases h4 : setPrev h hd hd with _ | ha
        · simp [h4] at hr
        simp only [h4, Option.some_bind] at hr
        rcases h5 : setNext ha hd hd with _ | hb
        · simp [h5] at hr
        simp only [h5, Option.some_bind] at hr
        exact key hb (fun r => by rw [setNext_value h5, setPrev_value h4]) hr

/-- A copy-out that does not fault had a buffer of at least `k` bytes. -/
theorem copy_out_capacity {h : Heap} {x : Ptr} {buf : Bytes} {o : Option Bytes} {k : Nat}
    (e : copy_out h x (some buf) k = some o) (h1 : 1 ≤ k) (h3 : k < 2 ^ SIZE_BITS) :
    k ≤ buf.length := by
  unfold copy_out at e
  simp only [Option.bind_eq_bind, size_sub_one h1 h3] at e
  rcases hv : getValue h x with _ | v
  · simp [hv] at e
  rcases v with _ | v
  · simp [hv] at e
  simp only [hv, Option.some_bind] at e
  unfold strncpy at e
  split at e
  · rename_i hle
    simp only [Option.some_bind, setByte] at e
    split at e
    · rename_i hlt
      simp only [List.length_append, List.length_take, List.length_replicate,
        List.length_drop] at hlt
      omega
    · simp at e
  · simp at e

/-- The content of the buffer after a copy-out that does not fault. -/
theorem copy_out_sound {h : Heap} {x : Ptr} {v buf : Bytes} {o : Option Bytes} {k : Nat}
    (hv : getValue h x = some (some v)) (e : copy_out h x (some buf) k = some o)
    (h1 : 1 ≤ k) (h3 : k < 2 ^ SIZE_BITS) :
    ∃ out, o = some out ∧ cstr out = (cstr v).take (min (strlen v) (k - 1)) ∧
      (k - 1 < strlen v → (cstr out).length = k - 1 ∧ out[k - 1]? = some 0) := by
  have h2 := copy_out_capacity e h1 h3
  obtain ⟨out, ho, hcs, _⟩ := copy_out_some hv h1 h2 h3
  have hterm := copy_out_terminator ho h1 h3
  rw [ho] at e
  refine ⟨out, (Option.some.inj e).symm, ?_, ?_⟩
  · unfold strlen
    rcases Nat.le_total (cstr v).length (k - 1) with hle | hle
    · rw [Nat.min_eq_left hle, hcs, List.take_of_length_le hle,
        List.take_of_length_le (le_refl _)]
    · rw [Nat.min_eq_right hle, hcs]
  · intro hlt
    unfold strlen at hlt
    refine ⟨?_, hterm⟩
    rw [hcs, List.length_take]
    omega

theorem payloads_reverse (h : Heap) (l : List Ptr) :
    payloads h l.reverse = (payloads h l).reverse := by
  simp [payloads, List.map_reverse]

/-- Reversing a queue of at most one element writes back the links it read. -/
theorem flipLinks_short {h : Heap} {hd : Ptr} {l : List Ptr} (q : IsQueue h hd l)
    (hl : l.length ≤ 1) : flipLinks (hd :: l) h = h := by
  apply flipLinks_same
  match l, q, hl with
  | [], q, _ =>
    intro r hr
    simp only [List.mem_singleton] at hr
    subst hr
    exact ⟨r, by simpa using isQueue_next_hd q, by simpa using isQueue_prev_hd q⟩
  | [x], q, _ =>
    intro r hr
    simp only [List.mem_cons, List.mem_singleton, List.not_mem_nil, or_false] at hr
    rcases hr with rfl | rfl
    · exact ⟨x, by simpa using isQueue_next_hd q, by simpa using isQueue_prev_hd q⟩
    · obtain ⟨e1, e2⟩ := @isQueue_mid h hd r [] [] q
      exact ⟨hd, by simpa using e1, by simpa using e2⟩
  | _ :: _ :: _, _, hl => simp at hl

theorem swapPairs_involutive : ∀ (l : List Ptr), swapPairs (swapPairs l) = l
  | [] => rfl
  | [_] => rfl
  | x :: y :: l => by
    simp only [swapPairs]
    rw [swapPairs_involutive l]

theorem swapPairs_mem (l : List Ptr) (r : Ptr) : r ∈ swapPairs l ↔ r ∈ l :=
  (swapPairs_perm l).mem_iff

/-- Two heaps that hold the same queue with the same payloads, and agree outside of it,
are equal. -/
theorem heap_eq_of_isQueue {h h2 : Heap} {hd : Ptr} {l : List Ptr} (q : IsQueue h hd l)
    (q2 : IsQueue h2 hd l) (hv : ∀ r, getValue h2 r = getValue h r)
    (hfr : ∀ r, r ∉ hd :: l → h2 r = h r) : h2 = h := by
  funext r
  by_cases hmem : r ∈ hd :: l
  · have hlk := isQueue_links_eq q q2 r hmem
    exact cell_ext (isQueue_live q r hmem) (isQueue_live q2 r hmem) hlk.1 hlk.2 (hv r)
  · exact hfr r hmem

theorem getD_of_isSome {α : Type} (o : Option α) (d : α) (hs : o.isSome = true) :
    o = some (o.getD d) := by
  cases o with
  | none => simp at hs
  | some x => rfl

theorem bacQueue_run : run_inserts freshQueue 1 bacCalls = some bacQueue :=
  getD_of_isSome _ _ (by decide)

theorem xxyQueue_run : run_inserts freshQueue 1 xxyCalls = some xxyQueue :=
  getD_of_isSome _ _ (by decide)

theorem freshQueue_built : Built freshQueue 1 :=
  Built.new (by decide) (Or.inr rfl) (q_new_eq (fun _ => none) 1 (by decide))

theorem q_free_null (fuel : Nat) (h : Heap) : q_free fuel h 0 = some h := by
  simp [q_free]

theorem isQueue_self_linked_iff {h : Heap} {hd : Ptr} {l : List Ptr} (q : IsQueue h hd l) :
    (getNext h hd = some hd ∧ getPrev h hd = some hd) ↔ l = [] := by
  have hnd := q.1
  constructor
  · intro e
    rw [isQueue_next_hd q] at e
    cases l with
    | nil => rfl
    | cons x l =>
      have : x = hd := by simpa using e.1
      subst this
      simp at hnd
  · rintro rfl
    exact ⟨by simpa using isQueue_next_hd q, by simpa using isQueue_prev_hd q⟩

theorem remove_heads_ok {hd : Ptr} :
    ∀ (l : List Ptr) (h : Heap), IsQueue h hd l → PayloadInv h hd l →
      ∃ h3, remove_heads l.length h hd = some (h3, l) ∧ IsQueue h3 hd [] ∧
        ∀ r, getValue h3 r = getValue h r := by
  intro l
  induction l with
  | nil => intro h q _; exact ⟨h, rfl, q, fun _ => rfl⟩
  | cons x l ih =>
    intro h q hp
    obtain ⟨v, hv⟩ := hp.2 x (by simp)
    obtain ⟨h1, hr, hq, hvo, _⟩ := q_remove_head_ok q hv none 0
    obtain ⟨h3, hr3, hq3, hv3⟩ := ih h1 hq
      (payloadInv_of_values hp (fun p hpm => by simp [hpm]) (fun r _ => hvo r))
    refine ⟨h3, ?_, hq3, fun r => by rw [hv3, hvo]⟩
    simp only [List.length_cons, remove_heads, hr, copy_out_none, Option.map_some',
      Option.bind_eq_bind, Option.some_bind, hr3]

theorem remove_tails_ok {hd : Ptr} :
    ∀ (l : List Ptr) (h : Heap), IsQueue h hd l → PayloadInv h hd l →
      ∃ h3, remove_tails l.length h hd = some (h3, l.reverse) ∧ IsQueue h3 hd [] ∧
        ∀ r, getValue h3 r = getValue h r := by
  intro l
  induction l using List.reverseRecOn with
  | nil => intro h q _; exact ⟨h, rfl, q, fun _ => rfl⟩
  | append_singleton l x ih =>
    intro h q hp
    obtain ⟨v, hv⟩ := hp.2 x (by simp)
    obtain ⟨h1, hr, hq, hvo, _⟩ := q_remove_tail_ok q hv none 0
    obtain ⟨h3, hr3, hq3, hv3⟩ := ih h1 hq
      (payloadInv_of_values hp (fun p hpm => by simp [hpm]) (fun r _ => hvo r))
    refine ⟨h3, ?_, hq3, fun r => by rw [hv3, hvo]⟩
    simp only [List.length_append, List.length_singleton, remove_tails, hr, copy_out_none,
      Option.map_some', Option.bind_eq_bind, Option.some_bind, hr3, List.reverse_append,
      List.reverse_cons, List.reverse_nil, List.nil_append, List.singleton_append]

theorem insert_call_outcome {h : Heap} {hd : Ptr} {l : List Ptr} (q : IsQueue h hd l)
    {c : InsertCall} {h1 : Heap} (hm : MallocOk h c.node)
    (hb : BlockOk c.block (1 + strlen c.s)) (hr : insert_call h hd c = some (h1, true)) :
    (c.atHead = false → IsQueue h1 hd (l ++ [c.node]) ∧
      payloads h1 (l ++ [c.node]) = payloads h l ++ [some (cstr c.s)]) ∧
    (c.atHead = true → IsQueue h1 hd (c.node :: l) ∧
      payloads h1 (c.node :: l) = some (cstr c.s) :: payloads h l) := by
  obtain ⟨atHead, s, a, b, fuel⟩ := c
  simp only at hm hb ⊢
  by_cases ha : a = 0
  · subst ha
    cases atHead <;>
    simp [insert_call, q_insert_head_nomem_node, q_insert_tail_nomem_node] at hr
  · have hf : h a = none := by
      rcases hm with e | e
      · exact absurd e ha
      · exact e
    have hal : a ∉ l := fun e => isQueue_fresh q hf (by simp [e])
    cases b with
    | none =>
      cases atHead <;>
      simp [insert_call, q_insert_head_nomem_block fuel hd s ha hf,
        q_insert_tail_nomem_block fuel hd s ha hf] at hr
    | some blk =>
      cases atHead
      · obtain ⟨h2, hr2, hq, hv, hvo, _⟩ := q_insert_tail_ok q fuel s a blk ha hf (hb blk rfl)
        simp only [insert_call, Bool.false_eq_true, if_false, hr2, Option.some.injEq,
          Prod.mk.injEq, and_true] at hr
        subst hr
        refine ⟨fun _ => ⟨hq, ?_⟩, fun e => by simp at e⟩
        have e1 : payloads h2 l = payloads h l :=
          payloads_congr (fun r hr => hvo r (fun e => hal (e ▸ hr)))
        simp only [payloads, List.map_append, List.map_cons, List.map_nil] at e1 ⊢
        rw [e1, payload_of_value hv, cstr_append_terminator]
      · obtain ⟨h2, hr2, hq, hv, hvo, _⟩ := q_insert_head_ok q fuel s a blk ha hf (hb blk rfl)
        simp only [insert_call, if_true, hr2, Option.some.injEq, Prod.mk.injEq, and_true] at hr
        subst hr
        refine ⟨fun e => by simp at e, fun _ => ⟨hq, ?_⟩⟩
        have e1 : payloads h2 l = payloads h l :=
          payloads_congr (fun r hr => hvo r (fun e => hal (e ▸ hr)))
        simp only [payloads, List.map_cons] at e1 ⊢
        rw [e1, payload_of_value hv, cstr_append_terminator]

theorem run_inserts_tails {hd : Ptr} :
    ∀ (cs : List InsertCall) (h : Heap) (l : List Ptr) (h2 : Heap), IsQueue h hd l →
      (∀ c ∈ cs, c.atHead = false) → run_inserts h hd cs = some h2 →
      IsQueue h2 hd (l ++ cs.map InsertCall.node) ∧
      payloads h2 (l ++ cs.map InsertCall.node)
        = payloads h l ++ cs.map (fun c => some (cstr c.s)) := by
  intro cs
  induction cs with
  | nil =>
    intro h l h2 q _ hr
    simp only [run_inserts, Option.some.injEq] at hr
    subst hr
    simpa using q
  | cons c cs ih =>
    intro h l h2 q hall hr
    simp only [run_inserts] at hr
    split at hr
    · rename_i hok
      split at hr
      · rename_i h1 hc
        obtain ⟨q1, hp1⟩ := (insert_call_outcome q hok.1 hok.2 hc).1 (hall c (by simp))
        obtain ⟨q2, hp2⟩ := ih h1 (l ++ [c.node]) h2 q1
          (fun c1 hc1 => hall c1 (by simp [hc1])) hr
        simp only [List.append_assoc, List.singleton_append] at q2 hp2
        simp only [List.map_cons]
        exact ⟨q2, by rw [hp2, hp1]; simp⟩
      · simp at hr
    · simp at hr

theorem run_inserts_heads {hd : Ptr} :
    ∀ (cs : List InsertCall) (h : Heap) (l : List Ptr) (h2 : Heap), IsQueue h hd l →
      (∀ c ∈ cs, c.atHead = true) → run_inserts h hd cs = some h2 →
      IsQueue h2 hd ((cs.map InsertCall.node).reverse ++ l) ∧
      payloads h2 ((cs.map InsertCall.node).reverse ++ l)
        = (cs.map (fun c => some (cstr c.s))).reverse ++ payloads h l := by
  intro cs
  induction cs with
  | nil =>
    intro h l h2 q _ hr
    simp only [run_inserts, Option.some.injEq] at hr
    subst hr
    simpa using q
  | cons c cs ih =>
    intro h l h2 q hall hr
    simp only [run_inserts] at hr
    split at hr
    · rename_i hok
      split at hr
      · rename_i h1 hc
        obtain ⟨q1, hp1⟩ := (insert_call_outcome q hok.1 hok.2 hc).2 (hall c (by simp))
        obtain ⟨q2, hp2⟩ := ih h1 (c.node :: l) h2 q1
          (fun c1 hc1 => hall c1 (by simp [hc1])) hr
        simp only [List.map_cons, List.reverse_cons, List.append_assoc, List.singleton_append]
        exact ⟨q2, by rw [hp2, hp1]⟩
      · simp at hr
    · simp at hr

theorem built_payloadInv {h : Heap} {hd : Ptr} {l : List Ptr} (b : Built h hd)
    (q : IsQueue h hd l) : PayloadInv h hd l := by
  obtain ⟨l1, q1, hp⟩ := built_inv b
  obtain rfl := isQueue_unique q q1
  exact hp

/-! ## Properties of the specification -/

/-- C1: circularity is preserved.  For a well-formed queue (finitely many nodes on the
cycle through the sentinel, `next(prev(n)) == n` and `prev(next(n)) == n` at each of
them) each of `q_insert_head`, `q_insert_tail`, `q_remove_head`, `q_remove_tail`,
`q_delete_mid`, `q_swap` and `q_reverse` returns, and leaves a well-formed queue,
whatever the outcome of the allocations; and `q_new` returns a sentinel whose `next`
and `prev` both point to itself.  `q_delete_mid` counts the elements in an `int`, so
its part is for a queue of fewer than `2^31` elements. -/
theorem C1_circularity_preserved (h : Heap) (hd : Ptr) (l : List Ptr) (q : IsQueue h hd l) :
    WellFormed h hd ∧
    (∀ fuel s a b, MallocOk h a → BlockOk b (1 + strlen s) →
      ∃ h1 r, q_insert_head fuel h hd s a b = some (h1, r) ∧ WellFormed h1 hd) ∧
    (∀ fuel s a b, MallocOk h a → BlockOk b (1 + strlen s) →
      ∃ h1 r, q_insert_tail fuel h hd s a b = some (h1, r) ∧ WellFormed h1 hd) ∧
    (∀ sp k, BufOk sp k →
      ∃ h1 e o, q_remove_head h hd sp k = some (h1, e, o) ∧ WellFormed h1 hd) ∧
    (∀ sp k, BufOk sp k →
      ∃ h1 e o, q_remove_tail h hd sp k = some (h1, e, o) ∧ WellFormed h1 hd) ∧
    (∀ fuel, l.length < fuel → l.length < 2 ^ 31 →
      ∃ h1 r, q_delete_mid fuel h hd = some (h1, r) ∧ WellFormed h1 hd) ∧
    (∀ fuel, l.length < fuel → ∃ h1, q_swap fuel h hd = some h1 ∧ WellFormed h1 hd) ∧
    (∀ fuel, l.length < fuel → ∃ h1, q_reverse fuel h hd = some h1 ∧ WellFormed h1 hd) ∧
    (∀ (h0 : Heap) (a : Ptr), a ≠ 0 →
      ∃ h1, q_new h0 a = some (h1, a) ∧ getNext h1 a = some a ∧ getPrev h1 a = some a) := by
  refine ⟨wellFormed_of_isQueue q, ?_, ?_, ?_, ?_, ?_, ?_, ?_, ?_⟩
  · intro fuel s a b ha hb
    exact q_insert_head_wf q fuel s ha hb
  · intro fuel s a b ha hb
    exact q_insert_tail_wf q fuel s ha hb
  · intro sp k hb
    exact q_remove_head_wf q hb
  · intro sp k hb
    exact q_remove_tail_wf q hb
  · intro fuel hf hb
    exact q_delete_mid_wf q hf hb
  · intro fuel hf
    obtain ⟨h1, hr, hq, _⟩ := q_swap_ok q hf
    exact ⟨h1, hr, wellFormed_of_isQueue hq⟩
  · intro fuel hf
    exact ⟨_, q_reverse_eq q hf, wellFormed_of_isQueue (isQueue_flip q)⟩
  · intro h0 a ha
    refine ⟨_, q_new_eq h0 a ha, ?_, ?_⟩
    · simp [next_alloc _ _ _ _ ha]
    · simp [prev_alloc _ _ _ _ ha]

theorem C1_circularity_preserved_witness :
    IsQueue sampleHeap 1 [2, 3] ∧
      ∃ h1, q_reverse 3 sampleHeap 1 = some h1 ∧ WellFormed h1 1 :=
  ⟨by decide,
    (C1_circularity_preserved sampleHeap 1 [2, 3] (by decide)).2.2.2.2.2.2.2.1 3 (by decide)⟩

/-- C2: on a well-formed queue with nodes `l`, when both allocations succeed (a fresh
node address `a`, a block of `1 + strlen s` bytes), `q_insert_head` returns true and the
queue becomes `a :: l` with payload sequence `s :: L`, `q_insert_tail` returns true and
the queue becomes `l ++ [a]` with payload sequence `L ++ [s]`; the stored block is the
bytes of `s` with their terminator, `q_size` grows by exactly one (its `int` counter
holds the new size when that is below `2^31`) and the old elements keep their order and
payloads. -/
theorem C2_insert_success (h : Heap) (hd : Ptr) (l : List Ptr) (q : IsQueue h hd l)
    (fuel : Nat) (s : Bytes) (a : Ptr) (blk : Bytes)
    (ha : a ≠ 0) (hm : MallocOk h a) (hb : BlockOk (some blk) (1 + strlen s))
    (fz : Nat) (hz : l.length + 1 < fz) :
    (∃ h1, q_insert_head fuel h hd s a (some blk) = some (h1, true) ∧
      IsQueue h1 hd (a :: l) ∧
      payloads h1 (a :: l) = some (cstr s) :: payloads h l ∧
      getValue h1 a = some (some (cstr s ++ [0])) ∧
      (l.length + 1 < 2 ^ 31 →
        q_size fz h hd = some l.length ∧ q_size fz h1 hd = some (l.length + 1))) ∧
    (∃ h1, q_insert_tail fuel h hd s a (some blk) = some (h1, true) ∧
      IsQueue h1 hd (l ++ [a]) ∧
      payloads h1 (l ++ [a]) = payloads h l ++ [some (cstr s)] ∧
      getValue h1 a = some (some (cstr s ++ [0])) ∧
      (l.length + 1 < 2 ^ 31 →
        q_size fz h hd = some l.length ∧ q_size fz h1 hd = some (l.length + 1))) := by
  have hf : h a = none := by
    rcases hm with e | e
    · exact absurd e ha
    · exact e
  have hal : a ∉ l := fun e => isQueue_fresh q hf (by simp [e])
  have hsz := fun hi : l.length + 1 < 2 ^ 31 => @q_size_ok h hd l q fz (by omega) (by omega)
  constructor
  · obtain ⟨h1, hr, hq, hv, hvo, _⟩ := q_insert_head_ok q fuel s a blk ha hf (hb blk rfl)
    refine ⟨h1, hr, hq, ?_, hv, fun hi => ⟨hsz hi, ?_⟩⟩
    · have e1 : payloads h1 l = payloads h l :=
        payloads_congr (fun r hr => hvo r (fun e => hal (e ▸ hr)))
      simp only [payloads, List.map_cons] at e1 ⊢
      rw [e1, payload_of_value hv, cstr_append_terminator]
    · have := @q_size_ok h1 hd (a :: l) hq fz (by simpa using hz) (by simpa using hi)
      simpa using this
  · obtain ⟨h1, hr, hq, hv, hvo, _⟩ := q_insert_tail_ok q fuel s a blk ha hf (hb blk rfl)
    refine ⟨h1, hr, hq, ?_, hv, fun hi => ⟨hsz hi, ?_⟩⟩
    · have e1 : payloads h1 l = payloads h l :=
        payloads_congr (fun r hr => hvo r (fun e => hal (e ▸ hr)))
      simp only [payloads, List.map_append, List.map_cons, List.map_nil] at e1 ⊢
      rw [e1, payload_of_value hv, cstr_append_terminator]
    · have := @q_size_ok h1 hd (l ++ [a]) hq fz (by simpa using hz) (by simpa using hi)
      simpa using this

theorem C2_insert_success_witness :
    IsQueue sampleHeap 1 [2, 3] ∧
      ∃ h1, q_insert_head 0 sampleHeap 1 [99] 4 (some [0, 0]) = some (h1, true) ∧
        payloads h1 [4, 2, 3] = [some [99], some [97], some [98]] ∧
        q_size 4 sampleHeap 1 = some 2 ∧ q_size 4 h1 1 = some 3 :=
  ⟨by decide,
    let ⟨h1, hr, _, hp, _, hs⟩ :=
      (C2_insert_success sampleHeap 1 [2, 3] (by decide) 0 [99] 4 [0, 0] (by decide)
        (by decide) (by decide) 4 (by decide)).1
    ⟨h1, hr, hp, hs (by decide)⟩⟩

/-- C3: after `k` successful calls of `q_insert_head` / `q_insert_tail`, in any
interleaving, on a queue fresh from `q_new`, `q_size` returns `k` (for `k` below `2^31`,
the range of its `int` counter), and following `next` from the sentinel, and following
`prev` from the sentinel, each visits exactly `k` nodes, none of them the sentinel,
before reaching the sentinel again. -/
theorem C3_size_after_inserts (h0 : Heap) (a : Ptr) (hq : Heap) (hd : Ptr)
    (hnew : q_new h0 a = some (hq, hd)) (hd0 : hd ≠ 0)
    (cs : List InsertCall) (h2 : Heap) (hr : run_inserts hq hd cs = some h2)
    (fz : Nat) (hz : cs.length < fz) :
    (cs.length < 2 ^ 31 → q_size fz h2 hd = some cs.length) ∧
    ∃ l2, l2.length = cs.length ∧ hd ∉ l2 ∧
      forward fz h2 hd = some l2 ∧ backward fz h2 hd = some l2.reverse := by
  have ha : a ≠ 0 := by
    rintro rfl
    rw [q_new_null] at hnew
    simp only [Option.some.injEq, Prod.mk.injEq] at hnew
    exact hd0 hnew.2.symm
  rw [q_new_eq h0 a ha] at hnew
  simp only [Option.some.injEq, Prod.mk.injEq] at hnew
  obtain ⟨rfl, rfl⟩ := hnew
  obtain ⟨l2, q2, hl2⟩ := run_inserts_isQueue cs _ [] h2 (isQueue_new h0 a ha) hr
  simp only [List.length_nil, Nat.zero_add] at hl2
  have hnd := q2.1
  refine ⟨?_, l2, hl2, ?_, ?_, ?_⟩
  · intro hi
    rw [← hl2]
    exact q_size_ok q2 (by omega) (by omega)
  · simp at hnd; exact hnd.1
  · exact forward_ok q2 (by omega)
  · exact backward_ok q2 (by omega)

theorem C3_size_after_inserts_witness :
    ∃ h2, run_inserts (alloc (fun _ => none) 1 (element_t.mk none 1 1)) 1 sampleCalls = some h2 ∧
      q_size 3 h2 1 = some 2 :=
  have hs : (run_inserts (alloc (fun _ => none) 1 (element_t.mk none 1 1)) 1
      sampleCalls).isSome = true := by decide
  ⟨Option.get _ hs, (Option.some_get hs).symm,
    (C3_size_after_inserts (fun _ => none) 1 _ 1 (q_new_eq _ 1 (by decide)) (by decide)
      sampleCalls (Option.get _ hs) (Option.some_get hs).symm 3 (by decide)).1 (by decide)⟩

/-- C4: on a queue built by the public operations (the handle is `NULL`, or the nodes
form a queue `l`), and with a usable output buffer or none, `q_remove_head` (resp.
`q_remove_tail`) returns; it returns `NULL` exactly when the handle is `NULL` or the queue
has no elements, and then changes nothing; and on a queue whose nodes are `x :: rest`
(resp. `rest ++ [x]`) it returns the first (resp. last) element `x`, not `NULL`, its node
untouched and still carrying its payload, the queue becomes `rest` with the payloads it
had, and the sentinel is self-linked when `x` was the only element. -/
theorem C4_remove_ends (h : Heap) (hd : Ptr) (hb : hd = 0 ∨ Built h hd)
    (sp : Option Bytes) (k : Nat) (hbuf : BufOk sp k) :
    (hd = 0 ∨ ∃ l, IsQueue h hd l) ∧
    (∃ h1 e o, q_remove_head h hd sp k = some (h1, e, o) ∧
      ((e = 0 ∧ h1 = h ∧ o = sp) ↔ (hd = 0 ∨ IsQueue h hd [])) ∧
      (e = 0 ↔ (hd = 0 ∨ IsQueue h hd []))) ∧
    (∀ x rest, IsQueue h hd (x :: rest) →
      ∃ h1 o, q_remove_head h hd sp k = some (h1, x, o) ∧ x ≠ 0 ∧ IsQueue h1 hd rest ∧
        h1 x = h x ∧ (∃ v, getValue h1 x = some (some v)) ∧
        payloads h1 rest = payloads h rest ∧
        (rest = [] → getNext h1 hd = some hd ∧ getPrev h1 hd = some hd)) ∧
    (∃ h1 e o, q_remove_tail h hd sp k = some (h1, e, o) ∧
      ((e = 0 ∧ h1 = h ∧ o = sp) ↔ (hd = 0 ∨ IsQueue h hd [])) ∧
      (e = 0 ↔ (hd = 0 ∨ IsQueue h hd []))) ∧
    (∀ x rest, IsQueue h hd (rest ++ [x]) →
      ∃ h1 o, q_remove_tail h hd sp k = some (h1, x, o) ∧ x ≠ 0 ∧ IsQueue h1 hd rest ∧
        h1 x = h x ∧ (∃ v, getValue h1 x = some (some v)) ∧
        payloads h1 rest = payloads h rest ∧
        (rest = [] → getNext h1 hd = some hd ∧ getPrev h1 hd = some hd)) :=
  ⟨built_or_null_isQueue hb, q_remove_head_built hb sp k hbuf,
    fun _ _ q => q_remove_head_first (built_of_isQueue hb q) sp k hbuf q,
    q_remove_tail_built hb sp k hbuf,
    fun _ _ q => q_remove_tail_last (built_of_isQueue hb q) sp k hbuf q⟩

theorem C4_remove_ends_witness :
    Built sampleQueue 1 ∧ BufOk (some [7, 7, 7]) 2 ∧ IsQueue sampleQueue 1 [2, 3] ∧
      ∃ h1 o, q_remove_head sampleQueue 1 (some [7, 7, 7]) 2 = some (h1, 2, o) ∧
        IsQueue h1 1 [3] :=
  ⟨sampleQueue_built, by decide, by decide,
    let ⟨h1, o, hr, _, hq, _⟩ :=
      (C4_remove_ends sampleQueue 1 (Or.inr sampleQueue_built) (some [7, 7, 7]) 2
        (by decide)).2.2.1 2 [3] (by decide)
    ⟨h1, o, hr, hq⟩⟩

/-- C5: round trip.  On a well-formed queue, `q_insert_tail` of `s` (allocations
successful) followed at once by `q_remove_tail` with a buffer of capacity
`cap > strlen s` returns the inserted element, whose payload is `s`, leaves `s` in the
buffer, and restores the queue: the same nodes with the same payloads, the same
`q_size` (the same run of `q_size` whatever the length, and the number of nodes when
that is below `2^31`, the range of its `int` counter), and every cell other than the new
node as it was. -/
theorem C5_insert_remove_tail (h : Heap) (hd : Ptr) (l : List Ptr) (q : IsQueue h hd l)
    (fuel : Nat) (s : Bytes) (a : Ptr) (blk buf : Bytes) (cap : Nat)
    (ha : a ≠ 0) (hm : MallocOk h a) (hb : BlockOk (some blk) (1 + strlen s))
    (hc1 : strlen s < cap) (hc2 : cap ≤ buf.length) (hc3 : cap < 2 ^ SIZE_BITS) :
    ∃ h1 h2 out, q_insert_tail fuel h hd s a (some blk) = some (h1, true) ∧
      q_remove_tail h1 hd (some buf) cap = some (h2, a, some out) ∧
      payload h2 a = some (cstr s) ∧ cstr out = cstr s ∧
      IsQueue h2 hd l ∧ payloads h2 l = payloads h l ∧
      (∀ fz, q_size fz h2 hd = q_size fz h hd) ∧
      (∀ fz, l.length < fz → l.length < 2 ^ 31 →
        q_size fz h2 hd = some l.length ∧ q_size fz h hd = some l.length) ∧
      (∀ r, r ≠ a → h2 r = h r) := by
  have hf : h a = none := by
    rcases hm with e | e
    · exact absurd e ha
    · exact e
  have hfr := isQueue_fresh q hf
  obtain ⟨h1, hr1, q1, hv1, hvo1, hl1, hfr1⟩ := q_insert_tail_ok q fuel s a blk ha hf (hb blk rfl)
  obtain ⟨h2, hr2, q2, hvo2, hl2, hfr2⟩ := q_remove_tail_ok q1 hv1 (some buf) cap
  obtain ⟨out, ho, hcs, _⟩ := copy_out_some hv1 (by omega) hc2 hc3
  have hval : ∀ r, r ≠ a → getValue h2 r = getValue h r := fun r hr => by
    rw [hvo2 r, hvo1 r hr]
  refine ⟨h1, h2, out, hr1, by rw [hr2, ho]; rfl, ?_, ?_, q2, ?_, q_size_congr q q2, ?_, ?_⟩
  · rw [payload_of_value (by rw [hvo2]; exact hv1), cstr_append_terminator]
  · rw [hcs, cstr_append_terminator, List.take_of_length_le]
    unfold strlen at hc1
    omega
  · exact payloads_congr (fun r hr => hval r (fun e => hfr (by simp [← e, hr])))
  · intro fz hz hi
    exact ⟨q_size_ok q2 hz hi, q_size_ok q hz hi⟩
  · intro r hr
    by_cases hmem : r ∈ hd :: l
    · have hlk := isQueue_links_eq q q2 r hmem
      exact cell_ext (isQueue_live q r hmem) (isQueue_live q2 r hmem) hlk.1 hlk.2 (hval r hr)
    · rw [hfr2 r hmem, hfr1 r (by simp only [List.mem_cons, not_or] at hmem ⊢; tauto)]

theorem C5_insert_remove_tail_witness :
    IsQueue sampleHeap 1 [2, 3] ∧
      ∃ h1 h2 out, q_insert_tail 0 sampleHeap 1 [99] 4 (some [0, 0]) = some (h1, true) ∧
        q_remove_tail h1 1 (some [7, 7, 7]) 2 = some (h2, 4, some out) ∧ cstr out = [99] :=
  ⟨by decide,
    let ⟨h1, h2, out, hr1, hr2, _, ho, _⟩ :=
      C5_insert_remove_tail sampleHeap 1 [2, 3] (by decide) 0 [99] 4 [0, 0] [7, 7, 7] 2
        (by decide) (by decide) (by decide) (by decide) (by decide) (by decide)
    ⟨h1, h2, out, hr1, hr2, ho⟩⟩

/-- C6: truncating copy-out.  Whenever `q_remove_head` or `q_remove_tail`, given a buffer
and a capacity `k >= 1`, returns an element, that element had a payload `v`, the string
left in the buffer is exactly the first `min (strlen v) (k - 1)` bytes of it (for a payload
longer than `k - 1`: exactly `k - 1` characters, then the terminator at index `k - 1`),
and the payload of the removed element is untouched; and the call does return the first
(resp. last) element of a well-formed queue when that element has a payload and the
buffer has at least `k` bytes. -/
theorem C6_truncating_copy_out (h : Heap) (hd : Ptr) (buf : Bytes) (k : Nat)
    (h1 : 1 ≤ k) (h3 : k < 2 ^ SIZE_BITS) :
    (∀ hr e o, q_remove_head h hd (some buf) k = some (hr, e, o) → e ≠ 0 →
      ∃ v out, getValue h e = some (some v) ∧ o = some out ∧
        cstr out = (cstr v).take (min (strlen v) (k - 1)) ∧
        (k - 1 < strlen v → (cstr out).length = k - 1 ∧ out[k - 1]? = some 0) ∧
        getValue hr e = some (some v)) ∧
    (∀ hr e o, q_remove_tail h hd (some buf) k = some (hr, e, o) → e ≠ 0 →
      ∃ v out, getValue h e = some (some v) ∧ o = some out ∧
        cstr out = (cstr v).take (min (strlen v) (k - 1)) ∧
        (k - 1 < strlen v → (cstr out).length = k - 1 ∧ out[k - 1]? = some 0) ∧
        getValue hr e = some (some v)) ∧
    (∀ x l v, IsQueue h hd (x :: l) → getValue h x = some (some v) → k ≤ buf.length →
      ∃ hr out, q_remove_head h hd (some buf) k = some (hr, x, some out)) ∧
    (∀ x l v, IsQueue h hd (l ++ [x]) → getValue h x = some (some v) → k ≤ buf.length →
      ∃ hr out, q_remove_tail h hd (some buf) k = some (hr, x, some out)) := by
  refine ⟨?_, ?_, ?_, ?_⟩
  · intro hr e o hrr he
    obtain ⟨v, hv, hvo, hc⟩ := q_remove_head_returns hrr he
    obtain ⟨out, ho, hcs, hlen⟩ := copy_out_sound hv hc h1 h3
    exact ⟨v, out, hv, ho, hcs, hlen, by rw [hvo]; exact hv⟩
  · intro hr e o hrr he
    obtain ⟨v, hv, hvo, hc⟩ := q_remove_tail_returns hrr he
    obtain ⟨out, ho, hcs, hlen⟩ := copy_out_sound hv hc h1 h3
    exact ⟨v, out, hv, ho, hcs, hlen, by rw [hvo]; exact hv⟩
  · intro x l v q hv h2
    obtain ⟨out, ho, _⟩ := copy_out_some hv h1 h2 h3
    obtain ⟨hr, hrr, _⟩ := q_remove_head_ok q hv (some buf) k
    exact ⟨hr, out, by rw [hrr, ho]; rfl⟩
  · intro x l v q hv h2
    obtain ⟨out, ho, _⟩ := copy_out_some hv h1 h2 h3
    obtain ⟨hr, hrr, _⟩ := q_remove_tail_ok q hv (some buf) k
    exact ⟨hr, out, by rw [hrr, ho]; rfl⟩

theorem C6_truncating_copy_out_witness :
    (1 ≤ 3 ∧ 3 < 2 ^ SIZE_BITS) ∧
      ∃ hr out, q_remove_head helloHeap 1 (some [7, 7, 7, 7]) 3 = some (hr, 2, some out) ∧
        cstr out = [104, 101] :=
  ⟨by decide,
    let c := C6_truncating_copy_out helloHeap 1 [7, 7, 7, 7] 3 (by decide) (by decide)
    let ⟨hr, out, e⟩ := c.2.2.1 2 [] [104, 101, 108, 108, 111, 0] (by decide) (by decide)
      (by decide)
    let ⟨v, out1, hv, ho, hc, _⟩ := c.1 hr 2 (some out) e (by decide)
    have hv1 : v = [104, 101, 108, 108, 111, 0] :=
      Option.some.inj (Option.some.inj (hv.symm.trans (by decide)))
    ⟨hr, out, e, by
      cases Option.some.inj ho
      rw [hc, hv1]
      decide⟩⟩

/-- C7: on a well-formed queue of `n >= 1` elements, `n` below `2^31` (the range of the
`int` that holds the size), `q_delete_mid` returns true, and the
queue afterwards is the original sequence of nodes without the one at index `n / 2`, the
others in their order and with their payloads, the deleted node released; on an empty
queue and on a `NULL` handle it returns false and changes nothing. -/
theorem C7_delete_mid (h : Heap) (hd : Ptr) (l : List Ptr) (q : IsQueue h hd l)
    (fuel : Nat) (hf : l.length < fuel) :
    (l ≠ [] → l.length < 2 ^ 31 → ∃ h1, q_delete_mid fuel h hd = some (h1, true) ∧
      IsQueue h1 hd (l.eraseIdx (l.length / 2)) ∧
      payloads h1 (l.eraseIdx (l.length / 2)) = payloads h (l.eraseIdx (l.length / 2)) ∧
      (∀ x, l[l.length / 2]? = some x → ¬ Live h1 x) ∧
      (∀ r, r ∉ hd :: l → h1 r = h r)) ∧
    (l = [] → q_delete_mid fuel h hd = some (h, false)) ∧
    q_delete_mid fuel h 0 = some (h, false) := by
  refine ⟨?_, ?_, q_delete_mid_null fuel h⟩
  · intro hl hb
    obtain ⟨l1, x, l2, rfl, hm, e1, e2, hx⟩ := split_mid l hl
    obtain ⟨h1, hr, hq, hvo, hlv, hfr⟩ := q_delete_mid_ok q hm hf hb
    have hnd := q.1
    have he : (l1 ++ x :: l2).eraseIdx ((l1 ++ x :: l2).length / 2) = l1 ++ l2 := by
      rw [List.eraseIdx_eq_take_drop_succ, ← e1, ← e2]
    rw [he]
    refine ⟨h1, hr, hq, ?_, ?_, hfr⟩
    · apply payloads_congr
      intro r hrm
      apply hvo
      rintro rfl
      simp only [List.nodup_cons, List.nodup_append, List.mem_append, List.mem_cons,
        List.disjoint_cons_right] at hnd hrm
      tauto
    · intro y hy
      rw [hx] at hy
      obtain rfl := Option.some.inj hy
      rw [hlv]
      simp
  · rintro rfl
    exact q_delete_mid_empty q (by omega)

theorem C7_delete_mid_witness :
    IsQueue sixHeap 1 [2, 3, 4, 5, 6, 7] ∧
      ∃ h1, q_delete_mid 7 sixHeap 1 = some (h1, true) ∧ IsQueue h1 1 [2, 3, 4, 6, 7] :=
  ⟨by decide,
    let ⟨h1, hr, hq, _⟩ :=
      (C7_delete_mid sixHeap 1 [2, 3, 4, 5, 6, 7] (by decide) 7 (by decide)).1 (by decide)
        (by decide)
    ⟨h1, hr, hq⟩⟩

/-- C8: on a well-formed queue with nodes `[x_1, ..., x_n]` `q_reverse` returns, and
afterwards the forward traversal from the sentinel yields `[x_n, ..., x_1]` and the
backward traversal `[x_1, ..., x_n]`, with the payloads following their nodes; every
node of the cycle, the sentinel included, has its old `next` and `prev` exchanged; an
empty or single-element queue is unchanged. -/
theorem C8_reverse (h : Heap) (hd : Ptr) (l : List Ptr) (q : IsQueue h hd l)
    (fuel : Nat) (hf : l.length < fuel) :
    ∃ h1, q_reverse fuel h hd = some h1 ∧
      IsQueue h1 hd l.reverse ∧
      forward fuel h1 hd = some l.reverse ∧ backward fuel h1 hd = some l ∧
      payloads h1 l.reverse = (payloads h l).reverse ∧
      (∀ n ∈ hd :: l, getNext h1 n = getPrev h n ∧ getPrev h1 n = getNext h n) ∧
      (∀ r, getValue h1 r = getValue h r) ∧
      (l.length ≤ 1 → h1 = h) := by
  have hq := isQueue_flip q
  refine ⟨flipLinks (hd :: l) h, q_reverse_eq q hf, hq, forward_ok hq (by simpa using hf), ?_,
    ?_, ?_, fun r => by simp, flipLinks_short q⟩
  · have := @backward_ok _ hd l.reverse hq fuel (by simpa using hf)
    simpa using this
  · rw [← payloads_reverse]
    exact payloads_congr (fun r _ => by simp)
  · intro n hn
    simp [hn]

theorem C8_reverse_witness :
    IsQueue sixHeap 1 [2, 3, 4, 5, 6, 7] ∧
      ∃ h1, q_reverse 7 sixHeap 1 = some h1 ∧ forward 7 h1 1 = some [7, 6, 5, 4, 3, 2] :=
  ⟨by decide,
    let ⟨h1, hr, _, hfw, _⟩ := C8_reverse sixHeap 1 [2, 3, 4, 5, 6, 7] (by decide) 7 (by decide)
    ⟨h1, hr, hfw⟩⟩

/-- C9: applying `q_reverse` twice to a well-formed queue gives back the heap it started
from, hence the same nodes in the same order with the same payloads. -/
theorem C9_reverse_twice (h : Heap) (hd : Ptr) (l : List Ptr) (q : IsQueue h hd l)
    (fuel : Nat) (hf : l.length < fuel) :
    ∃ h1 h2, q_reverse fuel h hd = some h1 ∧ q_reverse fuel h1 hd = some h2 ∧
      h2 = h ∧ IsQueue h2 hd l ∧ payloads h2 l = payloads h l := by
  have hq := isQueue_flip q
  have e : flipLinks (hd :: l.reverse) (flipLinks (hd :: l) h) = h := by
    rw [flipLinks_congr (flipLinks (hd :: l) h) (show ∀ r, r ∈ hd :: l.reverse ↔ r ∈ hd :: l by
      intro r; simp), flipLinks_flipLinks]
  refine ⟨flipLinks (hd :: l) h, h, q_reverse_eq q hf, ?_, rfl, q, rfl⟩
  rw [@q_reverse_eq _ hd l.reverse hq fuel (by simpa using hf), e]

theorem C9_reverse_twice_witness :
    IsQueue sixHeap 1 [2, 3, 4, 5, 6, 7] ∧
      ∃ h1 h2, q_reverse 7 sixHeap 1 = some h1 ∧ q_reverse 7 h1 1 = some h2 ∧ h2 = sixHeap :=
  ⟨by decide,
    let ⟨h1, h2, e1, e2, e3, _⟩ :=
      C9_reverse_twice sixHeap 1 [2, 3, 4, 5, 6, 7] (by decide) 7 (by decide)
    ⟨h1, h2, e1, e2, e3⟩⟩

/-- C10: on a well-formed queue with nodes `l = [x_1, x_2, x_3, x_4, ...]` `q_swap`
returns, and afterwards the queue is `[x_2, x_1, x_4, x_3, ...]`: the same number of
nodes, the two nodes of every pair exchanged, the last node of a queue of odd length in
the last place, the payloads following their nodes; an empty or single-element queue is
unchanged. -/
theorem C10_swap (h : Heap) (hd : Ptr) (l : List Ptr) (q : IsQueue h hd l)
    (fuel : Nat) (hf : l.length < fuel) :
    ∃ h1, q_swap fuel h hd = some h1 ∧
      IsQueue h1 hd (swapPairs l) ∧
      (swapPairs l).length = l.length ∧
      (∀ i, 2 * i + 1 < l.length →
        (swapPairs l)[2 * i]? = l[2 * i + 1]? ∧ (swapPairs l)[2 * i + 1]? = l[2 * i]?) ∧
      (l.length % 2 = 1 → (swapPairs l)[l.length - 1]? = l[l.length - 1]?) ∧
      (∀ r, getValue h1 r = getValue h r) ∧
      (l.length ≤ 1 → h1 = h) := by
  obtain ⟨h1, hr, hq, hvo, _, _, hsh⟩ := q_swap_ok q hf
  exact ⟨h1, hr, hq, swapPairs_length l, swapPairs_pair l, swapPairs_last l, hvo, hsh⟩

theorem C10_swap_witness :
    IsQueue sampleHeap 1 [2, 3] ∧
      ∃ h1, q_swap 3 sampleHeap 1 = some h1 ∧ IsQueue h1 1 [3, 2] :=
  ⟨by decide,
    let ⟨h1, hr, hq, _⟩ := C10_swap sampleHeap 1 [2, 3] (by decide) 3 (by decide)
    ⟨h1, hr, hq⟩⟩

/-- C11: applying `q_swap` twice to a well-formed queue (of even length, and of odd
length as well) restores the original order of the elements; the heap is the one the two
calls started from. -/
theorem C11_swap_twice (h : Heap) (hd : Ptr) (l : List Ptr) (q : IsQueue h hd l)
    (fuel : Nat) (hf : l.length < fuel) :
    ∃ h1 h2, q_swap fuel h hd = some h1 ∧ q_swap fuel h1 hd = some h2 ∧
      IsQueue h2 hd l ∧ forward fuel h2 hd = some l ∧ payloads h2 l = payloads h l ∧
      h2 = h := by
  obtain ⟨h1, hr1, q1, hv1, _, hfr1, _⟩ := q_swap_ok q hf
  obtain ⟨h2, hr2, q2, hv2, _, hfr2, _⟩ := @q_swap_ok h1 hd (swapPairs l) q1 fuel
    (by rw [swapPairs_length]; exact hf)
  rw [swapPairs_involutive] at q2
  have hv : ∀ r, getValue h2 r = getValue h r := fun r => by rw [hv2, hv1]
  have hfr : ∀ r, r ∉ hd :: l → h2 r = h r := by
    intro r hr
    rw [hfr2 r (by simpa [swapPairs_mem] using hr), hfr1 r hr]
  exact ⟨h1, h2, hr1, hr2, q2, forward_ok q2 hf, payloads_congr (fun r _ => hv r),
    heap_eq_of_isQueue q q2 hv hfr⟩

theorem C11_swap_twice_witness :
    IsQueue sixHeap 1 [2, 3, 4, 5, 6, 7] ∧
      ∃ h1 h2, q_swap 7 sixHeap 1 = some h1 ∧ q_swap 7 h1 1 = some h2 ∧
        forward 7 h2 1 = some [2, 3, 4, 5, 6, 7] :=
  ⟨by decide,
    let ⟨h1, h2, e1, e2, _, e3, _⟩ :=
      C11_swap_twice sixHeap 1 [2, 3, 4, 5, 6, 7] (by decide) 7 (by decide)
    ⟨h1, h2, e1, e2, e3⟩⟩

/-- C12 (the code at the failing input): `q_sort` returns the heap it was given, so the
queue built by insert-tail "b", "a", "c" still traverses as "b", "a", "c", which is not
ascending. -/
theorem C12_q_sort_does_nothing :
    (∀ h hd, q_sort h hd = h) ∧
    run_inserts freshQueue 1 bacCalls = some bacQueue ∧
    forward 4 (q_sort bacQueue 1) 1 = some [2, 3, 4] ∧
    payloads (q_sort bacQueue 1) [2, 3, 4] = [some [98], some [97], some [99]] ∧
    ascending (payloads (q_sort bacQueue 1) [2, 3, 4]) = false :=
  ⟨fun _ _ => rfl, bacQueue_run, by decide, by decide, by decide⟩

/-- C13 (the code at the failing input): `q_delete_dup` returns the heap it was given, so
the sorted queue "x", "x", "y" still holds "x", "x", "y", where only "y" occurs once. -/
theorem C13_q_delete_dup_does_nothing :
    (∀ h hd, (q_delete_dup h hd).1 = h) ∧
    run_inserts freshQueue 1 xxyCalls = some xxyQueue ∧
    forward 4 (q_delete_dup xxyQueue 1).1 1 = some [2, 3, 4] ∧
    payloads (q_delete_dup xxyQueue 1).1 [2, 3, 4] = [some [120], some [120], some [121]] ∧
    keepUnique (payloads xxyQueue [2, 3, 4]) = [some [121]] :=
  ⟨fun _ _ => rfl, xxyQueue_run, by decide, by decide, by decide⟩

/-- C14 (the code at the failing input): `q_delete_dup` returns true on every handle, the
`NULL` handle included. -/
theorem C14_q_delete_dup_true_on_null :
    (∀ h hd, (q_delete_dup h hd).2 = true) ∧ ∀ h, q_delete_dup h 0 = (h, true) :=
  ⟨fun _ _ => rfl, fun _ => rfl⟩

/-- C15: with a `NULL` handle `q_insert_head` and `q_insert_tail` return false,
`q_remove_head` and `q_remove_tail` return `NULL`, `q_size` returns 0, `q_delete_mid`
returns false, and `q_swap`, `q_reverse`, `q_sort` and `q_free` leave the heap as it is, for
every heap, every other argument and every loop budget; a read through `NULL` is a fault,
so none of them makes one. -/
theorem C15_null_handle (h : Heap) (fuel : Nat) (s : Bytes) (a : Ptr) (b sp : Option Bytes)
    (k : Nat) :
    rd h 0 = none ∧
    q_insert_head fuel h 0 s a b = some (h, false) ∧
    q_insert_tail fuel h 0 s a b = some (h, false) ∧
    q_remove_head h 0 sp k = some (h, 0, sp) ∧
    q_remove_tail h 0 sp k = some (h, 0, sp) ∧
    q_size fuel h 0 = some 0 ∧
    q_delete_mid fuel h 0 = some (h, false) ∧
    q_swap fuel h 0 = some h ∧
    q_reverse fuel h 0 = some h ∧
    q_sort h 0 = h ∧
    q_free fuel h 0 = some h :=
  ⟨by simp [rd], q_insert_head_null fuel h s a b, q_insert_tail_null fuel h s a b,
    q_remove_head_null h sp k, q_remove_tail_null h sp k, q_size_null fuel h,
    q_delete_mid_null fuel h, q_swap_null fuel h, q_reverse_null fuel h, rfl,
    q_free_null fuel h⟩

/-- C16: atomicity on allocation failure.  When the allocation of the node fails, or that
of the payload block fails after the node was handed out, `q_insert_head` and
`q_insert_tail` return false and the heap is exactly the one before the call, hence so are
the links, the size and the payload sequence of the queue. -/
theorem C16_insert_failure_atomic (h : Heap) (hd : Ptr) (l : List Ptr) (q : IsQueue h hd l)
    (fuel : Nat) (s : Bytes) (a : Ptr) (b : Option Bytes) (hm : MallocOk h a)
    (hfail : a = 0 ∨ b = none) :
    q_insert_head fuel h hd s a b = some (h, false) ∧
    q_insert_tail fuel h hd s a b = some (h, false) ∧
    IsQueue h hd l := by
  by_cases ha : a = 0
  · subst ha
    exact ⟨q_insert_head_nomem_node fuel h hd s b, q_insert_tail_nomem_node fuel h hd s b, q⟩
  · have hf : h a = none := by
      rcases hm with e | e
      · exact absurd e ha
      · exact e
    have hb : b = none := by
      rcases hfail with e | e
      · exact absurd e ha
      · exact e
    subst hb
    exact ⟨q_insert_head_nomem_block fuel hd s ha hf, q_insert_tail_nomem_block fuel hd s ha hf, q⟩

theorem C16_insert_failure_atomic_witness :
    (IsQueue sampleHeap 1 [2, 3] ∧ MallocOk sampleHeap 4) ∧
      q_insert_head 0 sampleHeap 1 [99] 4 none = some (sampleHeap, false) :=
  ⟨⟨by decide, by decide⟩,
    (C16_insert_failure_atomic sampleHeap 1 [2, 3] (by decide) 0 [99] 4 none (by decide)
      (Or.inr rfl)).1⟩

/-- C17: structural transforms only relink.  On a well-formed queue `q_swap`, `q_reverse`
and `q_sort` leave a queue on the same sentinel whose nodes are a permutation of the
original nodes; the payload field of every node, the set of allocated nodes and every cell
outside the queue are unchanged, so the payload sequence is a permutation of the
original one. -/
theorem C17_transforms_relink (h : Heap) (hd : Ptr) (l : List Ptr) (q : IsQueue h hd l)
    (fuel : Nat) (hf : l.length < fuel) :
    (∃ h1 l1, q_swap fuel h hd = some h1 ∧ IsQueue h1 hd l1 ∧ l1.Perm l ∧
      (payloads h1 l1).Perm (payloads h l) ∧
      (∀ r, getValue h1 r = getValue h r) ∧ (∀ r, Live h1 r ↔ Live h r) ∧
      (∀ r, r ∉ hd :: l → h1 r = h r)) ∧
    (∃ h1 l1, q_reverse fuel h hd = some h1 ∧ IsQueue h1 hd l1 ∧ l1.Perm l ∧
      (payloads h1 l1).Perm (payloads h l) ∧
      (∀ r, getValue h1 r = getValue h r) ∧ (∀ r, Live h1 r ↔ Live h r) ∧
      (∀ r, r ∉ hd :: l → h1 r = h r)) ∧
    (q_sort h hd = h ∧ IsQueue (q_sort h hd) hd l) := by
  refine ⟨?_, ?_, rfl, q⟩
  · obtain ⟨h1, hr, hq, hv, hl, hfr, _⟩ := q_swap_ok q hf
    refine ⟨h1, swapPairs l, hr, hq, swapPairs_perm l, ?_, hv, hl, hfr⟩
    have e : payloads h1 (swapPairs l) = payloads h (swapPairs l) :=
      payloads_congr (fun r _ => hv r)
    rw [e]
    exact (swapPairs_perm l).map _
  · refine ⟨flipLinks (hd :: l) h, l.reverse, q_reverse_eq q hf, isQueue_flip q,
      List.reverse_perm l, ?_, fun r => by simp, fun r => by simp,
      fun r hr => flipLinks_outside _ h hr⟩
    have e : payloads (flipLinks (hd :: l) h) l.reverse = payloads h l.reverse :=
      payloads_congr (fun r _ => by simp)
    rw [e]
    exact (List.reverse_perm l).map _

theorem C17_transforms_relink_witness :
    IsQueue sixHeap 1 [2, 3, 4, 5, 6, 7] ∧
      ∃ h1 l1, q_swap 7 sixHeap 1 = some h1 ∧ IsQueue h1 1 l1 ∧ l1.Perm [2, 3, 4, 5, 6, 7] :=
  ⟨by decide,
    let ⟨h1, l1, e1, e2, e3, _⟩ :=
      (C17_transforms_relink sixHeap 1 [2, 3, 4, 5, 6, 7] (by decide) 7 (by decide)).1
    ⟨h1, l1, e1, e2, e3⟩⟩

/-- C18: in every queue state reachable from `q_new` through the public operations the
payload pointer of the sentinel is `NULL` and that of every element is not; hence the
emptiness test of `q_remove_head` (the payload of `head->next` is `NULL`) and that of
`q_remove_tail` (the payload of `head->prev` is `NULL`) hold exactly when the sentinel is
self-linked, which is exactly when `q_size` is 0.  (`q_size` counts in an `int`: it
returns the number of elements when that is below `2^31`, and never returns 0 on a queue
that has an element.) -/
theorem C18_payload_invariant (h : Heap) (hd : Ptr) (b : Built h hd) :
    ∃ l, IsQueue h hd l ∧ getValue h hd = some none ∧
      (∀ p ∈ l, ∃ v, getValue h p = some (some v)) ∧
      (∃ first, getNext h hd = some first ∧
        (getValue h first = some none ↔ getNext h hd = some hd ∧ getPrev h hd = some hd)) ∧
      (∃ last, getPrev h hd = some last ∧
        (getValue h last = some none ↔ getNext h hd = some hd ∧ getPrev h hd = some hd)) ∧
      ∀ fuel, l.length < fuel →
        ((getNext h hd = some hd ∧ getPrev h hd = some hd) ↔ q_size fuel h hd = some 0) ∧
        (l.length < 2 ^ 31 → q_size fuel h hd = some l.length) := by
  obtain ⟨l, q, hp⟩ := built_inv b
  have hself := isQueue_self_linked_iff q
  refine ⟨l, q, hp.1, hp.2, ⟨l.headD hd, isQueue_next_hd q, ?_⟩,
    ⟨l.getLastD hd, isQueue_prev_hd q, ?_⟩, ?_⟩
  · rw [hself]
    cases l with
    | nil => simpa using hp.1
    | cons x l =>
      obtain ⟨v, hv⟩ := hp.2 x (by simp)
      simp [hv]
  · rw [hself]
    rcases List.eq_nil_or_concat l with rfl | ⟨l0, x, rfl⟩
    · simpa using hp.1
    · obtain ⟨v, hv⟩ := hp.2 x (by simp)
      simp only [List.concat_eq_append, List.getLastD_concat, hv]
      simp
  · intro fuel hf
    refine ⟨?_, fun hi => q_size_ok q hf hi⟩
    rw [hself]
    constructor
    · rintro rfl
      exact q_size_ok q hf (by simp)
    · intro e
      exact List.length_eq_zero.1 (q_size_sound q e).1.symm

theorem C18_payload_invariant_witness :
    Built sampleQueue 1 ∧ getValue sampleQueue 1 = some none :=
  ⟨sampleQueue_built,
    let ⟨_, _, e, _⟩ := C18_payload_invariant sampleQueue 1 sampleQueue_built
    e⟩

/-- C19: termination.  On a well-formed queue of `n` elements a budget of `n + 1` rounds
is enough for the loops of `q_size`, `q_delete_mid`, `q_swap` and `q_reverse`: each of the
four functions returns; for `q_size` and `q_delete_mid`, which count in an `int`, `n` is
below `2^31`. -/
theorem C19_loops_terminate (h : Heap) (hd : Ptr) (l : List Ptr) (q : IsQueue h hd l)
    (fuel : Nat) (hf : l.length < fuel) :
    (l.length < 2 ^ 31 →
      q_size fuel h hd = some l.length ∧
      (∃ target, q_delete_mid_loop h (l.length / 2 + 1) hd = some target) ∧
      (∃ r, q_delete_mid fuel h hd = some r)) ∧
    (∃ h1, q_swap fuel h hd = some h1) ∧
    (∃ h1, q_reverse fuel h hd = some h1) := by
  refine ⟨fun hi => ⟨q_size_ok q hf hi, ?_, ?_⟩, ?_, ⟨_, q_reverse_eq q hf⟩⟩
  · rw [q_delete_mid_loop_path _ hd (l ++ [hd]) q.2 (by simp; omega)]
    have hlt : l.length / 2 + 1 < (hd :: (l ++ [hd])).length := by simp; omega
    exact ⟨_, List.getElem?_eq_getElem hlt⟩
  · obtain ⟨h1, r, hr, _⟩ := q_delete_mid_wf q hf hi
    exact ⟨_, hr⟩
  · obtain ⟨h1, hr, _⟩ := q_swap_ok q hf
    exact ⟨h1, hr⟩

theorem C19_loops_terminate_witness :
    IsQueue sixHeap 1 [2, 3, 4, 5, 6, 7] ∧ q_size 7 sixHeap 1 = some 6 :=
  ⟨by decide,
    ((C19_loops_terminate sixHeap 1 [2, 3, 4, 5, 6, 7] (by decide) 7 (by decide)).1
      (by decide)).1⟩

/-- C20: FIFO order.  On a queue fresh from `q_new`, after successful `q_insert_tail`
calls with the strings `s_1, ..., s_k`, `k` calls of `q_remove_head` return elements whose
payloads are `s_1, ..., s_k` in that order and leave the queue empty, so that one more
`q_remove_head` returns `NULL`; and the same holds for `q_insert_head` followed by
`q_remove_tail`. -/
theorem C20_fifo (h0 : Heap) (a : Ptr) (hq : Heap) (hd : Ptr) (hm : MallocOk h0 a)
    (hnew : q_new h0 a = some (hq, hd)) (hd0 : hd ≠ 0) (cs : List InsertCall) (h2 : Heap)
    (hr : run_inserts hq hd cs = some h2) :
    ((∀ c ∈ cs, c.atHead = false) →
      ∃ h3 es, remove_heads cs.length h2 hd = some (h3, es) ∧
        payloads h3 es = cs.map (fun c => some (cstr c.s)) ∧
        IsQueue h3 hd [] ∧ q_remove_head h3 hd none 0 = some (h3, 0, none)) ∧
    ((∀ c ∈ cs, c.atHead = true) →
      ∃ h3 es, remove_tails cs.length h2 hd = some (h3, es) ∧
        payloads h3 es = cs.map (fun c => some (cstr c.s)) ∧
        IsQueue h3 hd [] ∧ q_remove_tail h3 hd none 0 = some (h3, 0, none)) := by
  have ha : a ≠ 0 := by
    rintro rfl
    rw [q_new_null] at hnew
    simp only [Option.some.injEq, Prod.mk.injEq] at hnew
    exact hd0 hnew.2.symm
  have hnew1 := hnew
  rw [q_new_eq h0 a ha] at hnew1
  simp only [Option.some.injEq, Prod.mk.injEq] at hnew1
  obtain ⟨e1, e2⟩ := hnew1
  subst e2
  have bq : Built hq a := Built.new ha hm hnew
  have b2 : Built h2 a := built_run_inserts cs hq h2 bq hr
  have q0 : IsQueue hq a [] := by rw [← e1]; exact isQueue_new h0 a ha
  constructor
  · intro hall
    obtain ⟨q2, hp2⟩ := run_inserts_tails cs hq [] h2 q0 hall hr
    simp only [List.nil_append, payloads, List.map_nil] at q2 hp2
    have hinv := built_payloadInv b2 q2
    obtain ⟨h3, hr3, q3, hv3⟩ := remove_heads_ok _ h2 q2 hinv
    simp only [List.length_map] at hr3
    refine ⟨h3, _, hr3, ?_, q3, ?_⟩
    · rw [payloads_congr (fun r _ => hv3 r)]
      exact hp2
    · exact q_remove_head_nullvalue q3 (by simpa [hv3] using hinv.1) none 0
  · intro hall
    obtain ⟨q2, hp2⟩ := run_inserts_heads cs hq [] h2 q0 hall hr
    simp only [List.append_nil, payloads, List.map_nil] at q2 hp2
    have hinv := built_payloadInv b2 q2
    obtain ⟨h3, hr3, q3, hv3⟩ := remove_tails_ok _ h2 q2 hinv
    simp only [List.length_reverse, List.length_map, List.reverse_reverse] at hr3
    refine ⟨h3, _, hr3, ?_, q3, ?_⟩
    · have e : payloads h3 (cs.map InsertCall.node) = payloads h2 (cs.map InsertCall.node) :=
        payloads_congr (fun r _ => hv3 r)
      rw [e]
      have := congrArg List.reverse hp2
      simpa [payloads, List.map_reverse] using this
    · exact q_remove_tail_nullvalue q3 (by simpa [hv3] using hinv.1) none 0

theorem C20_fifo_witness :
    (MallocOk (fun _ => none) 1 ∧ (∀ c ∈ bacCalls, c.atHead = false)) ∧
      ∃ h3 es, remove_heads 3 bacQueue 1 = some (h3, es) ∧
        payloads h3 es = [some [98], some [97], some [99]] :=
  ⟨⟨by decide, by decide⟩,
    let ⟨h3, es, e1, e2, _⟩ :=
      (C20_fifo (fun _ => none) 1 freshQueue 1 (by decide) (q_new_eq _ 1 (by decide))
        (by decide) bacCalls bacQueue bacQueue_run).1 (by decide)
    ⟨h3, es, e1, e2⟩⟩

end Lab0
